import Mathlib

/-!
# vmalloc: a first-fit `sbrk` allocator (`src/vmalloc_shell.c`)

A shallow embedding of the allocator of `vmalloc_shell.c` on an LP64 machine, and the
properties of its specification.

## The model

* Pointers and `size_t` values are natural numbers below `2 ^ 64`; `NULL` is `0`.
  Every `size_t` and pointer computation of the source is taken modulo `2 ^ 64`
  (`uadd`, `usub`, `umul`); the argument of `sbrk` is converted to the signed
  `intptr_t` (`toIntptr`).
* `Heap.hdr` maps the address of a header to its four fields; `is_free`, an `unsigned`
  that the source only tests and sets to 0 or 1, is a `Bool`.  Headers at different
  addresses are independent: heaps in which two headers overlap in part are not
  represented, and the examples below have none.
* `Heap.data` holds the payload bytes, which the allocator itself never reads or writes.
  `memset` writes the bytes of its range in both stores, so that `my_calloc` clears the
  fields of a header that lies in the payload it zeroes; `memcpy` copies payload bytes.
* `head` and `tail` are the two globals of the source, `brk` is the process break and
  `limit` the highest break the operating system grants.  `sbrk` is the growth
  primitive of the operating system, modelled after its manual page: it returns the old
  break and moves the break by its argument, or fails.  The break of the examples never
  goes below 4096, the break of the empty heap they start from.
* The `while` loops of the source take a fuel argument and `none` means that the fuel
  ran out; the results below give the fuel that is enough.
* The calls are taken one at a time: `pthread_mutex_lock` and `pthread_mutex_unlock`
  do not change the heap and are left out of the functions on heaps.  The traces of the
  section on the lock record, in the order of the source, where a call takes and
  releases the lock and where it reads or writes metadata.

## The development

`Str` and `InvL` relate a heap to the list of its blocks (doubly linked, tiling the
memory up to the break, no two free neighbours); every step of the allocator is shown
to keep them as long as a request, with its header, is at most `PTRDIFF_MAX` bytes, so
they hold in every heap reached by such requests (`ReachableInRange.inv`).  `my_malloc` passes
a larger request to `sbrk` all the same, as a wrapped or negative increment, and the
heaps reached then do not satisfy them.  The claims of the specification are at the end
of the file.
-/

namespace Vmalloc

/-! ## Machine arithmetic -/

/-- The largest `size_t`. -/
def SIZE_MAX : Nat := 2 ^ 64 - 1

/-- `sizeof(header_t)`: a `size_t`, an `unsigned` (padded to 8 bytes) and two
pointers, in a union with `char[16]`. -/
def headerSize : Nat := 32

/-- Unsigned 64-bit addition. -/
def uadd (a b : Nat) : Nat := (a + b) % 2 ^ 64

/-- Unsigned 64-bit subtraction. -/
def usub (a b : Nat) : Nat := (a + (2 ^ 64 - b % 2 ^ 64)) % 2 ^ 64

/-- Unsigned 64-bit multiplication. -/
def umul (a b : Nat) : Nat := (a * b) % 2 ^ 64

/-- The conversion of a `size_t` to `intptr_t`, the type of the argument of `sbrk`. -/
def toIntptr (x : Nat) : Int :=
  if x % 2 ^ 64 < 2 ^ 63 then ((x % 2 ^ 64 : Nat) : Int) else ((x % 2 ^ 64 : Nat) : Int) - 2 ^ 64

/-! ## The heap -/

/-- The struct `s` of `union header`. -/
structure header_t where
  size : Nat
  is_free : Bool
  next : Nat
  prev : Nat
deriving DecidableEq, Repr, Inhabited

/-- The state of the allocator and of the memory it manages. -/
structure Heap where
  hdr : Nat → header_t
  data : Nat → Nat
  head : Nat
  tail : Nat
  brk : Nat
  limit : Nat

/-- Memory with the header at `p` replaced by `v`. -/
def upd (f : Nat → header_t) (p : Nat) (v : header_t) : Nat → header_t :=
  fun q => if q = p then v else f q

/-- The assignment `p->s.size = v`. -/
def set_size (s : Heap) (p v : Nat) : Heap :=
  { s with hdr := upd s.hdr p { s.hdr p with size := v } }

/-- The assignment `p->s.is_free = v`. -/
def set_is_free (s : Heap) (p : Nat) (v : Bool) : Heap :=
  { s with hdr := upd s.hdr p { s.hdr p with is_free := v } }

/-- The assignment `p->s.next = v`. -/
def set_next (s : Heap) (p v : Nat) : Heap :=
  { s with hdr := upd s.hdr p { s.hdr p with next := v } }

/-- The assignment `p->s.prev = v`. -/
def set_prev (s : Heap) (p v : Nat) : Heap :=
  { s with hdr := upd s.hdr p { s.hdr p with prev := v } }

/-- The growth primitive `sbrk(increment)`: `none` is the failure value `(void*)-1`;
on success the old break is returned and the break has moved by `increment`.
A request beyond `limit` or below address `0` is refused; `sbrk(0)` reads the break.
The heap does not record where the break was when the program started, below which the
operating system does not move it: in the heaps reached by requests in range the break
only comes down to the address of a released block, and in the examples it stays at or
above 4096, the break of the empty heap. -/
def sbrk (s : Heap) (increment : Int) : Option (Nat × Heap) :=
  if increment = 0 then some (s.brk, s)
  else if 0 < increment then
    if s.brk + increment.toNat ≤ s.limit then
      some (s.brk, { s with brk := s.brk + increment.toNat })
    else none
  else
    if increment.natAbs ≤ s.brk then
      some (s.brk, { s with brk := s.brk - increment.natAbs })
    else none

/-- The value of a field of `w` bytes that lies at address `a` and holds `x`, once the
bytes of `[p, p + n)` are set to the byte `c`: the machine is little endian, byte `i` of
the field lies at `a + i`. -/
def memset_bytes (p c n : Nat) : Nat → Nat → Nat → Nat
  | _, _, 0 => 0
  | a, x, w + 1 =>
    (if p ≤ a ∧ a < p + n then c else x % 256) + 256 * memset_bytes p c n (a + 1) (x / 256) w

/-- A field of `w` bytes at address `a` after the bytes of `[p, p + n)` are set to `c`: a
field that the range does not meet keeps its value. -/
def memset_field (p c n a w x : Nat) : Nat :=
  if 0 < n ∧ p < a + w ∧ a < p + n then memset_bytes p c n a x w else x

/-- The header at address `a` after the bytes of `[p, p + n)` are set to `c`: `size`
takes the bytes 0 to 7 of the header, `is_free` (which holds 0 or 1) the bytes 8 to 11,
`next` the bytes 16 to 23 and `prev` the bytes 24 to 31. -/
def memset_header (p c n a : Nat) (h : header_t) : header_t :=
  ⟨memset_field p c n a 8 h.size,
   if 0 < n ∧ p < a + 12 ∧ a + 8 < p + n then
     decide (memset_bytes p c n (a + 8) (if h.is_free = true then 1 else 0) 4 ≠ 0)
   else h.is_free,
   memset_field p c n (a + 16) 8 h.next,
   memset_field p c n (a + 24) 8 h.prev⟩

/-- The library call `memset(p, v, n)`: every byte of `[p, p + n)` becomes
`(unsigned char)v`, the payload bytes as well as the bytes of a header that lies in the
range. -/
def memset (s : Heap) (p v n : Nat) : Heap :=
  { s with
    hdr := fun a => memset_header p (v % 256) n a (s.hdr a)
    data := fun a => if p ≤ a ∧ a < p + n then v % 256 else s.data a }

/-- The library call `memcpy(dst, src, n)` on the payload bytes.  `my_realloc` copies
from the payload of the old block to the payload of the new one; the header store is
left as it is. -/
def memcpy (s : Heap) (dst src n : Nat) : Heap :=
  { s with data := fun a => if dst ≤ a ∧ a < dst + n then s.data (src + (a - dst)) else s.data a }

/-! ## The allocator -/

/-- The loop of `get_free_block` from `curr`: `some 0` is `NULL`. -/
def get_free_block_loop (s : Heap) (size : Nat) : Nat → Nat → Option Nat
  | 0, _ => none
  | fuel + 1, curr =>
    if curr = 0 then some 0
    else if (s.hdr curr).is_free = true ∧ size ≤ (s.hdr curr).size then some curr
    else get_free_block_loop s size fuel (s.hdr curr).next

/-- The function `get_free_block(size)`. -/
def get_free_block (fuel : Nat) (s : Heap) (size : Nat) : Option Nat :=
  get_free_block_loop s size fuel s.head

/-- The function `blocks_adjacent(first, second)`. -/
def blocks_adjacent (s : Heap) (first second : Nat) : Bool :=
  decide (uadd (uadd first headerSize) (s.hdr first).size = second)

/-- The first loop of `coalesce(block)`. -/
def coalesce_forward (block : Nat) : Nat → Heap → Option Heap
  | 0, _ => none
  | fuel + 1, s =>
    if (s.hdr block).next ≠ 0 ∧ (s.hdr (s.hdr block).next).is_free = true
        ∧ blocks_adjacent s block (s.hdr block).next = true then
      let next := (s.hdr block).next
      let s1 := set_size s block (uadd (s.hdr block).size (uadd headerSize (s.hdr next).size))
      let s2 := set_next s1 block (s1.hdr next).next
      let s3 := if (s2.hdr next).next ≠ 0 then set_prev s2 (s2.hdr next).next block
                else { s2 with tail := block }
      coalesce_forward block fuel s3
    else some s

/-- The second part of `coalesce(block)`: the merge into the previous block. -/
def coalesce_backward (s : Heap) (block : Nat) : Heap :=
  if (s.hdr block).prev ≠ 0 ∧ (s.hdr (s.hdr block).prev).is_free = true
      ∧ blocks_adjacent s (s.hdr block).prev block = true then
    let prev := (s.hdr block).prev
    let s1 := set_size s prev (uadd (s.hdr prev).size (uadd headerSize (s.hdr block).size))
    let s2 := set_next s1 prev (s1.hdr block).next
    if (s2.hdr block).next ≠ 0 then set_prev s2 (s2.hdr block).next prev
    else { s2 with tail := prev }
  else s

/-- The function `coalesce(block)`. -/
def coalesce (fuel : Nat) (s : Heap) (block : Nat) : Option Heap :=
  (coalesce_forward block fuel s).map fun s1 => coalesce_backward s1 block

/-- The split of `my_malloc`: the statements guarded by `remaining > sizeof(header_t) + 16`. -/
def split_block (s : Heap) (header size remaining : Nat) : Heap :=
  let new_block := uadd (uadd header headerSize) size
  let s1 := set_size s new_block (usub remaining headerSize)
  let s2 := set_is_free s1 new_block true
  let s3 := set_next s2 new_block (s2.hdr header).next
  let s4 := set_prev s3 new_block header
  let s5 := if (s4.hdr header).next ≠ 0 then set_prev s4 (s4.hdr header).next new_block
            else { s4 with tail := new_block }
  let s6 := set_next s5 header new_block
  set_size s6 header size

/-- The end of `my_malloc`: the header of the block obtained from `sbrk` is set up
and the block is linked as the new tail. -/
def append_block (s : Heap) (header size : Nat) : Heap :=
  let s2 := set_size s header size
  let s3 := set_is_free s2 header false
  let s4 := set_next s3 header 0
  let s5 := set_prev s4 header s4.tail
  if s5.head = 0 then { s5 with head := header, tail := header }
  else { set_next s5 s5.tail header with tail := header }

/-- The function `my_malloc(size)`: the returned pointer (`0` is `NULL`) and the new state. -/
def my_malloc (fuel : Nat) (s : Heap) (size : Nat) : Option (Nat × Heap) :=
  if size = 0 then some (0, s)
  else
    match get_free_block fuel s size with
    | none => none
    | some header =>
      if header ≠ 0 then
        let remaining := usub (s.hdr header).size size
        let s1 := if remaining > headerSize + 16 then split_block s header size remaining else s
        let s2 := set_is_free s1 header false
        some (uadd header headerSize, s2)
      else
        let total_size := uadd headerSize size
        match sbrk s (toIntptr total_size) with
        | none => some (0, s)
        | some (block, s1) => some (uadd block headerSize, append_block s1 block size)

/-- The removal from the list in `my_free`, for a block at the end of the heap. -/
def unlink_tail (s : Heap) (header : Nat) : Heap :=
  if (s.hdr header).prev ≠ 0 then
    { set_next s (s.hdr header).prev 0 with tail := (s.hdr header).prev }
  else { s with head := 0, tail := 0 }

/-- The function `my_free(block)`. -/
def my_free (fuel : Nat) (s : Heap) (block : Nat) : Option Heap :=
  if block = 0 then some s
  else
    let header := usub block headerSize
    if (s.hdr header).is_free = true then some s
    else
      let programbreak := match sbrk s 0 with
        | some (b, _) => b
        | none => SIZE_MAX
      if uadd (uadd header headerSize) (s.hdr header).size = programbreak then
        let s1 := unlink_tail s header
        match sbrk s1 (toIntptr (usub (usub 0 headerSize) (s1.hdr header).size)) with
        | some (_, s2) => some s2
        | none => some s1
      else
        coalesce fuel (set_is_free s header true) header

/-- The function `my_calloc(num, nsize)`. -/
def my_calloc (fuel : Nat) (s : Heap) (num nsize : Nat) : Option (Nat × Heap) :=
  if num = 0 ∨ nsize = 0 then some (0, s)
  else
    let size := umul num nsize
    if nsize > size / num then some (0, s)
    else
      match my_malloc fuel s size with
      | none => none
      | some (block, s1) =>
        if block = 0 then some (0, s1)
        else some (block, memset s1 block 0 size)

/-- The function `my_realloc(block, size)`. -/
def my_realloc (fuel : Nat) (s : Heap) (block size : Nat) : Option (Nat × Heap) :=
  if block = 0 then my_malloc fuel s size
  else if size = 0 then (my_free fuel s block).map fun s1 => (0, s1)
  else
    let header := usub block headerSize
    if (s.hdr header).size ≥ size then some (block, s)
    else
      match my_malloc fuel s size with
      | none => none
      | some (ret, s1) =>
        if ret ≠ 0 then
          let s2 := memcpy s1 ret block (s1.hdr header).size
          (my_free fuel s2 block).map fun s3 => (ret, s3)
        else some (ret, s1)

/-- The loop of `mem_available`. -/
def mem_available_loop (s : Heap) : Nat → Nat → Nat → Option Nat
  | 0, _, _ => none
  | fuel + 1, curr, total =>
    if curr = 0 then some total
    else mem_available_loop s fuel (s.hdr curr).next
      (if (s.hdr curr).is_free = true then uadd total (s.hdr curr).size else total)

/-- The function `mem_available()`. -/
def mem_available (fuel : Nat) (s : Heap) : Option Nat :=
  if s.head = 0 then some 0 else mem_available_loop s fuel s.head 0

/-! ## The chain, live handles and the heaps reached by requests in range -/

/-- The blocks of the chain: the headers reached from `head` along `next`. -/
inductive InChain (s : Heap) : Nat → Prop
  | head : s.head ≠ 0 → InChain s s.head
  | next {a : Nat} : InChain s a → (s.hdr a).next ≠ 0 → InChain s (s.hdr a).next

/-- A live handle: the payload address of a block of the chain that is in use. -/
def Live (s : Heap) (p : Nat) : Prop :=
  ∃ a, InChain s a ∧ (s.hdr a).is_free = false ∧ p = a + headerSize

/-- The list `l` holds the addresses that the loop `for (curr = a; curr; curr = curr->s.next)`
meets, in this order. -/
def Walk (hdr : Nat → header_t) : Nat → List Nat → Prop
  | a, [] => a = 0
  | a, x :: l => a ≠ 0 ∧ x = a ∧ Walk hdr (hdr a).next l

/-- The test of `get_free_block`: the block at `a` is free and holds `n` bytes. -/
def Fits (s : Heap) (n a : Nat) : Prop :=
  (s.hdr a).is_free = true ∧ n ≤ (s.hdr a).size

instance (s : Heap) (n : Nat) : DecidablePred (Fits s n) := fun a =>
  inferInstanceAs (Decidable ((s.hdr a).is_free = true ∧ n ≤ (s.hdr a).size))

/-- No block of the chain and its successor are both free and physically adjacent. -/
def NoAdjacentFree (s : Heap) : Prop :=
  ∀ b, InChain s b → (s.hdr b).next ≠ 0 →
    ¬ ((s.hdr b).is_free = true ∧ (s.hdr (s.hdr b).next).is_free = true ∧
      blocks_adjacent s b (s.hdr b).next = true)

/-- The heaps reached from the empty heap by calls of the allocator.  `my_free` and
`my_realloc` are given live handles (or `NULL` for `my_realloc`); the callers write
only to payload bytes; a request is at most `PTRDIFF_MAX` bytes with its header, so
that the argument of `sbrk` is the sum `sizeof(header_t) + size` itself. -/
inductive ReachableInRange : Heap → Prop
  | init (hdr : Nat → header_t) (data : Nat → Nat) (b0 L : Nat) :
      0 < b0 → b0 ≤ L → L < 2 ^ 63 → ReachableInRange ⟨hdr, data, 0, 0, b0, L⟩
  | malloc {s s1 : Heap} {fuel n p : Nat} :
      ReachableInRange s → n + headerSize < 2 ^ 63 → my_malloc fuel s n = some (p, s1) →
      ReachableInRange s1
  | calloc {s s1 : Heap} {fuel num nsize p : Nat} :
      ReachableInRange s → num * nsize + headerSize < 2 ^ 63 →
      my_calloc fuel s num nsize = some (p, s1) → ReachableInRange s1
  | realloc {s s1 : Heap} {fuel p n q : Nat} :
      ReachableInRange s → (p = 0 ∨ Live s p) → n + headerSize < 2 ^ 63 →
      my_realloc fuel s p n = some (q, s1) → ReachableInRange s1
  | free {s s1 : Heap} {fuel p : Nat} :
      ReachableInRange s → Live s p → my_free fuel s p = some s1 → ReachableInRange s1
  | write {s : Heap} (d : Nat → Nat) : ReachableInRange s → ReachableInRange { s with data := d }

/-! ## The chain as a list of blocks -/

/-- A block of the chain, as the list view sees it. -/
structure Blk where
  addr : Nat
  size : Nat
  free : Bool
deriving DecidableEq, Repr

/-- The address of the first block of `l`, or `e` when `l` is empty. -/
def nextOr (l : List Blk) (e : Nat) : Nat :=
  match l with
  | [] => e
  | b :: _ => b.addr

/-- The address of the last block of `l`, or `p` when `l` is empty. -/
def lastOr (p : Nat) : List Blk → Nat
  | [] => p
  | b :: rest => lastOr b.addr rest

/-- The headers of the blocks of `l` are doubly linked in this order; the block
before the first is `p`, the block after the last is `e`. -/
def Seg (hdr : Nat → header_t) : Nat → List Blk → Nat → Prop
  | _, [], _ => True
  | p, b :: rest, e =>
    hdr b.addr = ⟨b.size, b.free, nextOr rest e, p⟩ ∧ Seg hdr b.addr rest e

/-- The address just after the blocks of `l`, laid out from `a`. -/
def tend (a : Nat) : List Blk → Nat
  | [] => a
  | b :: rest => tend (b.addr + headerSize + b.size) rest

/-- The blocks of `l` tile the memory from `a`: each starts where the one before ends. -/
def Tiled : Nat → List Blk → Prop
  | _, [] => True
  | a, b :: rest => b.addr = a ∧ 0 < b.size ∧ Tiled (a + headerSize + b.size) rest

/-- No two neighbours of `l` are both free; `pf` is the flag of the block before `l`. -/
def NoAdj : Bool → List Blk → Prop
  | _, [] => True
  | pf, b :: rest => ¬ (pf = true ∧ b.free = true) ∧ NoAdj b.free rest

/-- The flag of the last block of `l`, or `pf`. -/
def lastFree (pf : Bool) : List Blk → Bool
  | [] => pf
  | b :: rest => lastFree b.free rest

/-- The list `l` is the chain of `s` and it tiles the memory between `base` and the
break. -/
structure Str (s : Heap) (base : Nat) (l : List Blk) : Prop where
  base_pos : 0 < base
  seg : Seg s.hdr 0 l 0
  head_eq : s.head = nextOr l 0
  tail_eq : s.tail = lastOr 0 l
  tiled : Tiled base l
  brk_eq : s.brk = tend base l
  brk_le : s.brk ≤ s.limit
  limit_lt : s.limit < 2 ^ 63

/-- The list `l` is the chain of `s`, it tiles the memory between `base` and the
break, and no two of its neighbours are free. -/
structure InvL (s : Heap) (base : Nat) (l : List Blk) : Prop where
  str : Str s base l
  noadj : NoAdj false l

/-- The invariant of the heaps reached by requests in range. -/
def Inv (s : Heap) : Prop := ∃ base l, InvL s base l

/-- The merge of block `y` into its predecessor `x`: the statements of the loop body of
`coalesce` (with `x = block`, `y = block->s.next`) and of its last branch (with
`x = block->s.prev`, `y = block`). -/
def absorb (s : Heap) (x y : Nat) : Heap :=
  let s1 := set_size s x (uadd (s.hdr x).size (uadd headerSize (s.hdr y).size))
  let s2 := set_next s1 x (s1.hdr y).next
  if (s2.hdr y).next ≠ 0 then set_prev s2 (s2.hdr y).next x else { s2 with tail := x }

/-- The freed block `b` in front of its successors `post`, after the first loop of
`coalesce`: a free right neighbour is absorbed. -/
def mergeNext (b : Blk) : List Blk → List Blk
  | [] => [⟨b.addr, b.size, true⟩]
  | c :: rest =>
    if c.free = true then ⟨b.addr, b.size + headerSize + c.size, true⟩ :: rest
    else ⟨b.addr, b.size, true⟩ :: c :: rest

/-- The chain `pre ++ m` after the last branch of `coalesce` for the first block of
`m`: it is absorbed by the last block of `pre` when that one is free. -/
def mergePrev (pre m : List Blk) : List Blk :=
  match pre.getLast?, m with
  | some a, b :: rest =>
    if a.free = true then pre.dropLast ++ ⟨a.addr, a.size + headerSize + b.size, true⟩ :: rest
    else pre ++ m
  | _, _ => pre ++ m

/-- The chain `pre ++ b :: post` after `b` has been marked free and coalesced. -/
def coalesced (pre : List Blk) (b : Blk) (post : List Blk) : List Blk :=
  mergePrev pre (mergeNext b post)

/-- The block `b` after `my_malloc(n)` has reused it, followed by the free remainder
when the block is split. -/
def reused (n : Nat) (b : Blk) : List Blk :=
  if headerSize + 16 < b.size - n then
    [⟨b.addr, n, false⟩, ⟨b.addr + headerSize + n, b.size - n - headerSize, true⟩]
  else [⟨b.addr, b.size, false⟩]

/-- The state after `my_malloc(n)` has reused the block at `header`. -/
def reuse_state (s : Heap) (header n : Nat) : Heap :=
  set_is_free
    (if usub (s.hdr header).size n > headerSize + 16 then
      split_block s header n (usub (s.hdr header).size n) else s) header false

/-! ## Runs of the allocator with their live handles -/

/-- The calls of the allocator from the empty heap, with the live handles they leave:
`L` lists every handle that was returned and not yet freed, with the size last
requested for it.  The requests are at most `PTRDIFF_MAX` bytes with their header. -/
inductive Run : Heap → List (Nat × Nat) → Prop
  | init (hdr : Nat → header_t) (data : Nat → Nat) (b0 L : Nat) :
      0 < b0 → b0 ≤ L → L < 2 ^ 63 → Run ⟨hdr, data, 0, 0, b0, L⟩ []
  | malloc {s s1 : Heap} {L : List (Nat × Nat)} {fuel n p : Nat} :
      Run s L → n + headerSize < 2 ^ 63 → my_malloc fuel s n = some (p, s1) →
      Run s1 (if p = 0 then L else (p, n) :: L)
  | calloc {s s1 : Heap} {L : List (Nat × Nat)} {fuel num nsize p : Nat} :
      Run s L → num * nsize + headerSize < 2 ^ 63 →
      my_calloc fuel s num nsize = some (p, s1) →
      Run s1 (if p = 0 then L else (p, num * nsize) :: L)
  | realloc {s s1 : Heap} {L : List (Nat × Nat)} {fuel p m n q : Nat} :
      Run s L → (p, m) ∈ L → n + headerSize < 2 ^ 63 →
      my_realloc fuel s p n = some (q, s1) →
      Run s1 (if n = 0 then L.filter (fun e => decide (e.1 ≠ p))
        else if q = 0 then L else (q, n) :: L.filter (fun e => decide (e.1 ≠ p)))
  | free {s s1 : Heap} {L : List (Nat × Nat)} {fuel p m : Nat} :
      Run s L → (p, m) ∈ L → my_free fuel s p = some s1 →
      Run s1 (L.filter (fun e => decide (e.1 ≠ p)))
  | write {s : Heap} {L : List (Nat × Nat)} (d : Nat → Nat) :
      Run s L → Run { s with data := d } L

/-- Every live handle of `L` is the payload address of a used block of `l` that holds
the requested bytes, and no handle is listed twice. -/
def Tracks (l : List Blk) (L : List (Nat × Nat)) : Prop :=
  (∀ e ∈ L, ∃ b ∈ l, b.free = false ∧ e.1 = b.addr + headerSize ∧ e.2 ≤ b.size) ∧
  (L.map Prod.fst).Nodup

/-! ## Sums over the chain and its layout -/

/-- The sum of the `size` fields of the free blocks among the headers at the addresses
of `l`. -/
def free_bytes (s : Heap) : List Nat → Nat
  | [] => 0
  | a :: l => (if (s.hdr a).is_free = true then (s.hdr a).size else 0) + free_bytes s l

/-- The bytes that the blocks at the addresses of `l` take, headers included. -/
def chain_bytes (s : Heap) : List Nat → Nat
  | [] => 0
  | a :: l => headerSize + (s.hdr a).size + chain_bytes s l

/-- The blocks at the addresses of `l` lie one after another, in this order and without
overlap, below the address `e`. -/
def Laid (hdr : Nat → header_t) (e : Nat) : List Nat → Prop
  | [] => True
  | a :: l => a + headerSize + (hdr a).size ≤ l.headD e ∧ Laid hdr e l

/-- The `prev` field of every block of `l` is the block before it in `l`; the one of the
first block is `p`. -/
def PrevLinks (hdr : Nat → header_t) : Nat → List Nat → Prop
  | _, [] => True
  | p, a :: l => (hdr a).prev = p ∧ PrevLinks hdr a l

/-! ## The lock -/

/-- The metadata of the allocator: the globals `head` and `tail` and the four fields of
a header. -/
inductive Field
  | head | tail | size | is_free | next | prev
deriving DecidableEq, Repr

/-- What a call does with the lock and with the metadata, in the order of the source:
`pthread_mutex_lock(&global_malloc_lock)`, `pthread_mutex_unlock(&global_malloc_lock)`,
the read and the write of a global or of a field of a header. -/
inductive Ev
  | lock | unlock
  | rd (f : Field) | wr (f : Field)
deriving DecidableEq, Repr

/-- Every read and write of metadata in the trace happens while the lock is held;
`held` tells whether the lock is held before the trace. -/
def guarded : Bool → List Ev → Bool
  | _, [] => true
  | _, Ev.lock :: t => guarded true t
  | _, Ev.unlock :: t => guarded false t
  | held, Ev.rd _ :: t => held && guarded held t
  | held, Ev.wr _ :: t => held && guarded held t

/-- The number of times the trace takes the lock. -/
def acquisitions : List Ev → Nat
  | [] => 0
  | Ev.lock :: t => acquisitions t + 1
  | _ :: t => acquisitions t

/-- The empty heap of the examples: the break is at 4096 and may grow to 1 MiB. -/
def heap0 : Heap := ⟨fun _ => ⟨0, false, 0, 0⟩, fun _ => 7, 0, 0, 4096, 1048576⟩

/-- A heap with two blocks: a free block of 100 bytes at 4096 and a used block of
50 bytes at 4228; every payload byte is 7. -/
def heap2 : Heap :=
  ⟨fun a => if a = 4096 then ⟨100, true, 4228, 0⟩
            else if a = 4228 then ⟨50, false, 0, 4096⟩ else ⟨0, false, 0, 0⟩,
   fun _ => 7, 4096, 4228, 4310, 1048576⟩

/-- The heap after `a = my_malloc(100)`, `b = my_malloc(50)`, `c = my_malloc(10)`,
`my_free(a)` from the empty heap: the block of `b` lies between a free block and a
used one. -/
def heap3 : Heap :=
  set_is_free (append_block
    { append_block { append_block { heap0 with brk := 4228 } 4096 100 with brk := 4310 }
        4228 50 with brk := 4352 } 4310 10) 4096 true

/-- The heap `heap3` in which the callers have written the byte `a % 256` at every
address `a`. -/
def heap3_bytes : Heap := { heap3 with data := fun a => a % 256 }

/-- The heap after `my_malloc(100)` and `my_malloc(2^64 - 64)` from the empty heap
`heap0`: the second request moves the break down by 32 bytes, to 4196. -/
def heap_neg : Heap :=
  append_block
    { append_block { heap0 with brk := 4228 } 4096 100 with brk := 4196 } 4228 (2 ^ 64 - 64)

/-- The heap after `my_malloc(100)`, `my_malloc(2^64 - 64)` and `my_malloc(8)` from the
empty heap `heap0`: the third block lies at 4196, below the second. -/
def heap_neg8 : Heap := append_block { heap_neg with brk := 4236 } 4196 8

/-- The heap after `my_malloc(100)`, `my_malloc(8)` and `my_malloc(2^64 - 72)` from the
empty heap `heap0`: the third request reaches `sbrk` as `-40` and moves the break down to
4228, where the first block ends and the header of the second block lies. -/
def heap_back : Heap :=
  append_block
    { append_block { append_block { heap0 with brk := 4228 } 4096 100 with brk := 4268 }
        4228 8 with brk := 4228 } 4268 (2 ^ 64 - 72)

/-! ## Lemmas: machine arithmetic -/

theorem uadd_eq {a b : Nat} (h : a + b < 2 ^ 64) : uadd a b = a + b := by
  unfold uadd; omega

theorem usub_eq {a b : Nat} (h : b ≤ a) (h2 : a < 2 ^ 64) : usub a b = a - b := by
  unfold usub; omega

theorem toIntptr_eq {x : Nat} (h : x < 2 ^ 63) : toIntptr x = (x : Int) := by
  unfold toIntptr; split <;> omega

theorem toIntptr_neg {y : Nat} (h1 : 2 ^ 63 ≤ y) (h2 : y < 2 ^ 64) :
    toIntptr y = (y : Int) - 2 ^ 64 := by
  unfold toIntptr; split <;> omega

theorem release_arg {x : Nat} (h : headerSize + x < 2 ^ 63) :
    toIntptr (usub (usub 0 headerSize) x) = -((headerSize + x : Nat) : Int) := by
  unfold headerSize at h ⊢
  have h1 : usub (usub 0 32) x = 2 ^ 64 - 32 - x := by
    unfold usub; omega
  rw [h1, toIntptr_neg (by omega) (by omega)]
  omega

/-! ## Lemmas: lists of blocks -/

@[simp] theorem nextOr_nil (e : Nat) : nextOr [] e = e := rfl
@[simp] theorem nextOr_cons (b : Blk) (l : List Blk) (e : Nat) : nextOr (b :: l) e = b.addr := rfl
@[simp] theorem lastOr_nil (p : Nat) : lastOr p [] = p := rfl
@[simp] theorem lastOr_cons (p : Nat) (b : Blk) (l : List Blk) :
    lastOr p (b :: l) = lastOr b.addr l := rfl
@[simp] theorem Seg_nil (hdr : Nat → header_t) (p e : Nat) : Seg hdr p [] e = True := rfl
@[simp] theorem Seg_cons (hdr : Nat → header_t) (p e : Nat) (b : Blk) (l : List Blk) :
    Seg hdr p (b :: l) e =
      (hdr b.addr = ⟨b.size, b.free, nextOr l e, p⟩ ∧ Seg hdr b.addr l e) := rfl
@[simp] theorem tend_nil (a : Nat) : tend a [] = a := rfl
@[simp] theorem tend_cons (a : Nat) (b : Blk) (l : List Blk) :
    tend a (b :: l) = tend (b.addr + headerSize + b.size) l := rfl
@[simp] theorem Tiled_nil (a : Nat) : Tiled a [] = True := rfl
@[simp] theorem Tiled_cons (a : Nat) (b : Blk) (l : List Blk) :
    Tiled a (b :: l) = (b.addr = a ∧ 0 < b.size ∧ Tiled (a + headerSize + b.size) l) := rfl
@[simp] theorem NoAdj_nil (pf : Bool) : NoAdj pf [] = True := rfl
@[simp] theorem NoAdj_cons (pf : Bool) (b : Blk) (l : List Blk) :
    NoAdj pf (b :: l) = (¬ (pf = true ∧ b.free = true) ∧ NoAdj b.free l) := rfl
@[simp] theorem lastFree_nil (pf : Bool) : lastFree pf [] = pf := rfl
@[simp] theorem lastFree_cons (pf : Bool) (b : Blk) (l : List Blk) :
    lastFree pf (b :: l) = lastFree b.free l := rfl

@[simp] theorem nextOr_append (l1 l2 : List Blk) (e : Nat) :
    nextOr (l1 ++ l2) e = nextOr l1 (nextOr l2 e) := by
  cases l1 <;> rfl

@[simp] theorem lastOr_append (p : Nat) (l1 l2 : List Blk) :
    lastOr p (l1 ++ l2) = lastOr (lastOr p l1) l2 := by
  induction l1 generalizing p with
  | nil => rfl
  | cons b l ih => simp [ih]

@[simp] theorem lastFree_append (pf : Bool) (l1 l2 : List Blk) :
    lastFree pf (l1 ++ l2) = lastFree (lastFree pf l1) l2 := by
  induction l1 generalizing pf with
  | nil => rfl
  | cons b l ih => simp [ih]

@[simp] theorem tend_append (a : Nat) (l1 l2 : List Blk) :
    tend a (l1 ++ l2) = tend (tend a l1) l2 := by
  induction l1 generalizing a with
  | nil => rfl
  | cons b l ih => simp [ih]

@[simp] theorem Seg_append (hdr : Nat → header_t) (p e : Nat) (l1 l2 : List Blk) :
    Seg hdr p (l1 ++ l2) e ↔ Seg hdr p l1 (nextOr l2 e) ∧ Seg hdr (lastOr p l1) l2 e := by
  induction l1 generalizing p with
  | nil => simp
  | cons b l ih => simp [ih, and_assoc]

theorem Tiled_le {a : Nat} {l : List Blk} (h : Tiled a l) : a ≤ tend a l := by
  induction l generalizing a with
  | nil => simp
  | cons c l ih =>
    simp only [Tiled_cons] at h
    obtain ⟨h1, _, h3⟩ := h
    have := ih h3
    simp only [tend_cons, h1]
    omega

theorem Tiled_mem {a : Nat} {l : List Blk} (h : Tiled a l) :
    ∀ b ∈ l, a ≤ b.addr ∧ b.addr + headerSize + b.size ≤ tend a l ∧ 0 < b.size := by
  induction l generalizing a with
  | nil => simp
  | cons c l ih =>
    simp only [Tiled_cons] at h
    obtain ⟨h1, h2, h3⟩ := h
    intro b hb
    simp only [tend_cons, h1]
    rcases List.mem_cons.1 hb with rfl | hb
    · have := Tiled_le h3
      omega
    · have := ih h3 b hb
      omega

@[simp] theorem Tiled_append (a : Nat) (l1 l2 : List Blk) :
    Tiled a (l1 ++ l2) ↔ Tiled a l1 ∧ Tiled (tend a l1) l2 := by
  induction l1 generalizing a with
  | nil => simp
  | cons b l ih =>
    simp only [List.cons_append, Tiled_cons, ih, tend_cons, and_assoc]
    constructor
    · rintro ⟨h1, h2, h3, h4⟩
      exact ⟨h1, h2, h3, by rw [h1]; exact h4⟩
    · rintro ⟨h1, h2, h3, h4⟩
      exact ⟨h1, h2, h3, by rw [h1] at h4; exact h4⟩

@[simp] theorem NoAdj_append (pf : Bool) (l1 l2 : List Blk) :
    NoAdj pf (l1 ++ l2) ↔ NoAdj pf l1 ∧ NoAdj (lastFree pf l1) l2 := by
  induction l1 generalizing pf with
  | nil => simp
  | cons b l ih => simp [ih, and_assoc]

theorem Seg_frame {hdr hdr1 : Nat → header_t} {p e : Nat} {l : List Blk}
    (h : ∀ x ∈ l, hdr1 x.addr = hdr x.addr) (hs : Seg hdr p l e) : Seg hdr1 p l e := by
  induction l generalizing p with
  | nil => simp
  | cons b l ih =>
    simp only [Seg_cons] at hs ⊢
    refine ⟨?_, ih (fun x hx => h x (List.mem_cons_of_mem _ hx)) hs.2⟩
    rw [h b (List.mem_cons_self _ _)]
    exact hs.1

/-! ## Lemmas: the search loop -/

@[simp] theorem upd_apply (f : Nat → header_t) (p q : Nat) (v : header_t) :
    upd f p v q = if q = p then v else f q := rfl

theorem list_first_fit {α : Type} (P : α → Prop) [DecidablePred P] (l : List α) :
    (∀ x ∈ l, ¬ P x) ∨ ∃ pre b post, l = pre ++ b :: post ∧ (∀ x ∈ pre, ¬ P x) ∧ P b := by
  induction l with
  | nil => left; simp
  | cons c l ih =>
    by_cases hc : P c
    · right; exact ⟨[], c, l, rfl, by simp, hc⟩
    · rcases ih with h | ⟨pre, b, post, h1, h2, h3⟩
      · left
        intro x hx
        rcases List.mem_cons.1 hx with rfl | hx
        · exact hc
        · exact h x hx
      · right
        refine ⟨c :: pre, b, post, by simp [h1], ?_, h3⟩
        intro x hx
        rcases List.mem_cons.1 hx with rfl | hx
        · exact hc
        · exact h2 x hx

theorem gfb_none {s : Heap} {n : Nat} {l : List Blk} :
    ∀ {p fuel : Nat}, Seg s.hdr p l 0 → (∀ b ∈ l, b.addr ≠ 0) →
      (∀ b ∈ l, ¬ (b.free = true ∧ n ≤ b.size)) → l.length < fuel →
      get_free_block_loop s n fuel (nextOr l 0) = some 0 := by
  induction l with
  | nil =>
    intro p fuel _ _ _ hf
    obtain ⟨f, rfl⟩ : ∃ f, fuel = f + 1 := ⟨fuel - 1, by simp at hf; omega⟩
    simp [get_free_block_loop]
  | cons c l ih =>
    intro p fuel hs hz hn hf
    obtain ⟨f, rfl⟩ : ∃ f, fuel = f + 1 := ⟨fuel - 1, by simp at hf; omega⟩
    simp only [Seg_cons] at hs
    have hc := hn c (List.mem_cons_self _ _)
    have hcz := hz c (List.mem_cons_self _ _)
    simp only [get_free_block_loop, nextOr_cons, hcz, if_false, hs.1]
    rw [if_neg hc]
    exact ih hs.2 (fun b hb => hz b (List.mem_cons_of_mem _ hb))
      (fun b hb => hn b (List.mem_cons_of_mem _ hb)) (by simp at hf; omega)

theorem gfb_found {s : Heap} {n : Nat} {b : Blk} {post : List Blk} {e : Nat} {pre : List Blk} :
    ∀ {p fuel : Nat}, Seg s.hdr p (pre ++ b :: post) e → (∀ x ∈ pre, x.addr ≠ 0) → b.addr ≠ 0 →
      (∀ x ∈ pre, ¬ (x.free = true ∧ n ≤ x.size)) → (b.free = true ∧ n ≤ b.size) →
      pre.length < fuel →
      get_free_block_loop s n fuel (nextOr (pre ++ b :: post) e) = some b.addr := by
  induction pre with
  | nil =>
    intro p fuel hs _ hbz _ hb hf
    obtain ⟨f, rfl⟩ : ∃ f, fuel = f + 1 := ⟨fuel - 1, by omega⟩
    simp only [List.nil_append, Seg_cons] at hs
    simp only [List.nil_append, get_free_block_loop, nextOr_cons, hbz, if_false, hs.1]
    rw [if_pos hb]
  | cons c l ih =>
    intro p fuel hs hz hbz hn hb hf
    obtain ⟨f, rfl⟩ : ∃ f, fuel = f + 1 := ⟨fuel - 1, by omega⟩
    simp only [List.cons_append, Seg_cons] at hs
    have hc := hn c (List.mem_cons_self _ _)
    have hcz := hz c (List.mem_cons_self _ _)
    simp only [List.cons_append, get_free_block_loop, nextOr_cons, hcz, if_false, hs.1]
    rw [if_neg hc]
    exact ih hs.2 (fun b hb => hz b (List.mem_cons_of_mem _ hb)) hbz
      (fun b hb => hn b (List.mem_cons_of_mem _ hb)) hb (by simp at hf; omega)

/-! ## Lemmas: the invariant under the steps of the allocator -/

theorem Str.addr_pos {s : Heap} {base : Nat} {l : List Blk} (h : Str s base l) :
    ∀ b ∈ l, b.addr ≠ 0 := by
  intro b hb
  have := Tiled_mem h.tiled b hb
  have := h.base_pos
  omega

theorem Str.lt {s : Heap} {base : Nat} {l : List Blk} (h : Str s base l) :
    ∀ b ∈ l, b.addr + headerSize + b.size < 2 ^ 63 := by
  intro b hb
  have := Tiled_mem h.tiled b hb
  have := h.brk_eq
  have := h.brk_le
  have := h.limit_lt
  omega

theorem mem_split_bounds {base : Nat} {pre post : List Blk} {b : Blk}
    (h : Tiled base (pre ++ b :: post)) :
    (∀ x ∈ pre, x.addr + headerSize + x.size ≤ b.addr ∧ base ≤ x.addr) ∧
    (∀ x ∈ post, b.addr + headerSize + b.size ≤ x.addr ∧
      x.addr + headerSize + x.size ≤ tend base (pre ++ b :: post)) ∧
    b.addr = tend base pre ∧ base ≤ b.addr ∧
    b.addr + headerSize + b.size ≤ tend base (pre ++ b :: post) := by
  simp only [Tiled_append, Tiled_cons] at h
  obtain ⟨h1, h2, h3, h4⟩ := h
  have hle := Tiled_le h1
  have hle2 := Tiled_le h4
  refine ⟨?_, ?_, h2, by omega, ?_⟩
  · intro x hx
    have := Tiled_mem h1 x hx
    omega
  · intro x hx
    have := Tiled_mem h4 x hx
    simp only [tend_append, tend_cons, h2]
    omega
  · simp only [tend_append, tend_cons, h2]
    omega

theorem NoAdj_mono {pf : Bool} {l : List Blk} (h : NoAdj pf l) : NoAdj false l := by
  cases l with
  | nil => simp
  | cons b l => simp only [NoAdj_cons] at h ⊢; exact ⟨by simp, h.2⟩

theorem Str_set_is_free {s : Heap} {base : Nat} {pre post : List Blk} {b : Blk} (v : Bool)
    (h : Str s base (pre ++ b :: post)) :
    Str (set_is_free s b.addr v) base (pre ++ ⟨b.addr, b.size, v⟩ :: post) := by
  obtain ⟨hpre, hpost, -, -, -⟩ := mem_split_bounds h.tiled
  have hseg := h.seg
  simp only [Seg_append, Seg_cons, nextOr_cons] at hseg
  obtain ⟨hs1, hs2, hs3⟩ := hseg
  have htl := h.tiled
  simp only [Tiled_append, Tiled_cons] at htl
  refine ⟨h.base_pos, ?_, ?_, ?_, ?_, ?_, h.brk_le, h.limit_lt⟩
  · simp only [Seg_append, Seg_cons, nextOr_cons]
    refine ⟨Seg_frame ?_ hs1, ?_, Seg_frame ?_ hs3⟩
    · intro x hx
      have := hpre x hx
      simp [set_is_free, headerSize] at this ⊢
      intro h'; omega
    · simp [set_is_free, hs2]
    · intro x hx
      have := hpost x hx
      simp [set_is_free, headerSize] at this ⊢
      intro h'; omega
  · simpa [set_is_free] using h.head_eq
  · simpa [set_is_free] using h.tail_eq
  · simpa [Tiled_append, Tiled_cons] using htl
  · simpa [set_is_free] using h.brk_eq

theorem headerSize_eq : headerSize = 32 := rfl

@[simp] theorem set_size_hdr (s : Heap) (p v q : Nat) :
    (set_size s p v).hdr q = if q = p then { s.hdr p with size := v } else s.hdr q := rfl
@[simp] theorem set_is_free_hdr (s : Heap) (p q : Nat) (v : Bool) :
    (set_is_free s p v).hdr q = if q = p then { s.hdr p with is_free := v } else s.hdr q := rfl
@[simp] theorem set_next_hdr (s : Heap) (p v q : Nat) :
    (set_next s p v).hdr q = if q = p then { s.hdr p with next := v } else s.hdr q := rfl
@[simp] theorem set_prev_hdr (s : Heap) (p v q : Nat) :
    (set_prev s p v).hdr q = if q = p then { s.hdr p with prev := v } else s.hdr q := rfl
@[simp] theorem set_size_head (s : Heap) (p v : Nat) : (set_size s p v).head = s.head := rfl
@[simp] theorem set_size_tail (s : Heap) (p v : Nat) : (set_size s p v).tail = s.tail := rfl
@[simp] theorem set_size_brk (s : Heap) (p v : Nat) : (set_size s p v).brk = s.brk := rfl
@[simp] theorem set_size_limit (s : Heap) (p v : Nat) : (set_size s p v).limit = s.limit := rfl
@[simp] theorem set_size_data (s : Heap) (p v : Nat) : (set_size s p v).data = s.data := rfl
@[simp] theorem set_is_free_head (s : Heap) (p : Nat) (v : Bool) :
    (set_is_free s p v).head = s.head := rfl
@[simp] theorem set_is_free_tail (s : Heap) (p : Nat) (v : Bool) :
    (set_is_free s p v).tail = s.tail := rfl
@[simp] theorem set_is_free_brk (s : Heap) (p : Nat) (v : Bool) :
    (set_is_free s p v).brk = s.brk := rfl
@[simp] theorem set_is_free_limit (s : Heap) (p : Nat) (v : Bool) :
    (set_is_free s p v).limit = s.limit := rfl
@[simp] theorem set_is_free_data (s : Heap) (p : Nat) (v : Bool) :
    (set_is_free s p v).data = s.data := rfl
@[simp] theorem set_next_head (s : Heap) (p v : Nat) : (set_next s p v).head = s.head := rfl
@[simp] theorem set_next_tail (s : Heap) (p v : Nat) : (set_next s p v).tail = s.tail := rfl
@[simp] theorem set_next_brk (s : Heap) (p v : Nat) : (set_next s p v).brk = s.brk := rfl
@[simp] theorem set_next_limit (s : Heap) (p v : Nat) : (set_next s p v).limit = s.limit := rfl
@[simp] theorem set_next_data (s : Heap) (p v : Nat) : (set_next s p v).data = s.data := rfl
@[simp] theorem set_prev_head (s : Heap) (p v : Nat) : (set_prev s p v).head = s.head := rfl
@[simp] theorem set_prev_tail (s : Heap) (p v : Nat) : (set_prev s p v).tail = s.tail := rfl
@[simp] theorem set_prev_brk (s : Heap) (p v : Nat) : (set_prev s p v).brk = s.brk := rfl
@[simp] theorem set_prev_limit (s : Heap) (p v : Nat) : (set_prev s p v).limit = s.limit := rfl
@[simp] theorem set_prev_data (s : Heap) (p v : Nat) : (set_prev s p v).data = s.data := rfl

theorem Str_split {s : Heap} {base n : Nat} {pre post : List Blk} {b : Blk}
    (h : Str s base (pre ++ b :: post)) (hn : 0 < n)
    (hrem : headerSize + 16 < b.size - n) :
    Str (set_is_free (split_block s b.addr n (usub b.size n)) b.addr false) base
      (pre ++ ⟨b.addr, n, false⟩ :: ⟨b.addr + headerSize + n, b.size - n - headerSize, true⟩
        :: post) := by
  have hH := headerSize_eq
  obtain ⟨hpre, hpost, -, -, -⟩ := mem_split_bounds h.tiled
  have hlt := h.lt b (by simp)
  have hseg := h.seg
  simp only [Seg_append, Seg_cons, nextOr_cons] at hseg
  obtain ⟨hs1, hs2, hs3⟩ := hseg
  have htl := h.tiled
  simp only [Tiled_append, Tiled_cons] at htl
  have e1 : usub b.size n = b.size - n := usub_eq (by omega) (by omega)
  have e2 : uadd (uadd b.addr headerSize) n = b.addr + headerSize + n := by
    have e2a : uadd b.addr headerSize = b.addr + headerSize := uadd_eq (by omega)
    rw [e2a, uadd_eq (by omega)]
  have e3 : usub (b.size - n) headerSize = b.size - n - headerSize :=
    usub_eq (by omega) (by omega)
  have hbz := h.addr_pos b (by simp)
  have hpz : ∀ x ∈ post, x.addr ≠ 0 := fun x hx => h.addr_pos x (by simp [hx])
  have hhead := h.head_eq
  have htail := h.tail_eq
  have hbrk := h.brk_eq
  have hbl := h.brk_le
  simp only [nextOr_append, lastOr_append, tend_append, nextOr_cons, lastOr_cons, tend_cons]
    at hhead htail hbrk
  rw [e1]
  unfold split_block
  simp only [e2, e3]
  obtain ⟨nb, hnb⟩ : ∃ nb, nb = b.addr + headerSize + n := ⟨_, rfl⟩
  have hne : b.addr ≠ nb := by omega
  have hne' : nb ≠ b.addr := by omega
  have hnbz : nb ≠ 0 := by omega
  have hpre1 : ∀ x ∈ pre, x.addr ≠ nb ∧ x.addr ≠ b.addr := by
    intro x hx
    have := hpre x hx
    omega
  have hpost1 : ∀ x ∈ post, x.addr ≠ nb ∧ x.addr ≠ b.addr := by
    intro x hx
    have := hpost x hx
    omega
  rw [← hnb]
  cases post with
  | nil =>
    simp only [nextOr_nil, lastOr_nil, tend_nil] at hs2 hhead htail hbrk
    refine ⟨h.base_pos, ?_, ?_, ?_, ?_, ?_, ?_, ?_⟩
    · simp only [Seg_append, Seg_cons, nextOr_cons, Seg_nil, nextOr_nil]
      refine ⟨Seg_frame ?_ hs1, ?_, ?_, trivial⟩
      · intro x hx
        have := hpre1 x hx
        simp [hs2, hne, hne', this]
      · simp [hs2, hne, hne']
      · simp [hs2, hne, hne']
    · simp [hs2, hne, hne', hhead]
    · simp [hs2, hne, hne', htail]
    · simp only [Tiled_append, Tiled_cons, Tiled_nil]
      refine ⟨htl.1, htl.2.1, hn, ?_, ?_, trivial⟩ <;> omega
    · simp [hs2, hne, hne', hbrk]
      omega
    · simpa [hs2, hne, hne'] using hbl
    · simpa [hs2, hne, hne'] using h.limit_lt
  | cons c post =>
    simp only [nextOr_cons, lastOr_cons, tend_cons, Seg_cons] at hs2 hs3 hhead htail hbrk
    have hcz : c.addr ≠ 0 := hpz c (by simp)
    have hc1 := hpost1 c (by simp)
    have hc2 : nb ≠ c.addr ∧ b.addr ≠ c.addr := ⟨hc1.1.symm, hc1.2.symm⟩
    have hpost2 : ∀ x ∈ post, x.addr ≠ c.addr := by
      intro x hx
      simp only [Tiled_cons] at htl
      have := Tiled_mem htl.2.2.2.2.2 x hx
      omega
    have hpre2 : ∀ x ∈ pre, x.addr ≠ c.addr := by
      intro x hx
      have := hpre x hx
      have := hpost c (by simp)
      omega
    refine ⟨h.base_pos, ?_, ?_, ?_, ?_, ?_, ?_, ?_⟩
    · simp only [Seg_append, Seg_cons, nextOr_cons]
      refine ⟨Seg_frame ?_ hs1, ?_, ?_, ?_, Seg_frame ?_ hs3.2⟩
      · intro x hx
        have q1 := hpre1 x hx
        have q2 := hpre2 x hx
        simp [hs2, hne, hne', hcz, hc1, hc2, q1, q2]
      · simp [hs2, hne, hne', hcz, hc1, hc2]
      · simp [hs2, hne, hne', hcz, hc1, hc2]
      · simp [hs2, hs3.1, hne, hne', hcz, hc1, hc2]
      · intro x hx
        have q1 := hpost1 x (List.mem_cons_of_mem _ hx)
        have q2 := hpost2 x hx
        simp [hs2, hne, hne', hcz, hc1, hc2, q1, q2]
    · simp [hs2, hne, hne', hcz, hc1, hc2, hhead]
    · simp [hs2, hne, hne', hcz, hc1, hc2, htail]
    · simp only [Tiled_append, Tiled_cons] at htl ⊢
      obtain ⟨t1, t2, t3, t4, t5, t6⟩ := htl
      refine ⟨t1, t2, hn, ?_, ?_, ?_, t5, ?_⟩
      · omega
      · omega
      · omega
      · have e : tend base pre + headerSize + n + headerSize + (b.size - n - headerSize)
            = tend base pre + headerSize + b.size := by omega
        rw [e]
        exact t6
    · simp [hs2, hne, hne', hcz, hc1, hc2, hbrk]
    · simpa [hs2, hne, hne', hcz, hc1, hc2] using hbl
    · simpa [hs2, hne, hne', hcz, hc1, hc2] using h.limit_lt

theorem list_snoc (l : List Blk) : l = [] ∨ ∃ pre a, l = pre ++ [a] := by
  rcases List.eq_nil_or_concat l with h | ⟨pre, a, h⟩
  · exact Or.inl h
  · exact Or.inr ⟨pre, a, by rw [h, List.concat_eq_append]⟩

theorem Str_grow {s : Heap} {base n : Nat} {l : List Blk}
    (h : Str s base l) (hn : 0 < n) (hfit : s.brk + headerSize + n ≤ s.limit) :
    Str (append_block { s with brk := s.brk + headerSize + n } s.brk n) base
      (l ++ [⟨s.brk, n, false⟩]) := by
  have hH := headerSize_eq
  have hbrk := h.brk_eq
  have hbpos : s.brk ≠ 0 := by
    have := Tiled_le h.tiled
    have := h.base_pos
    omega
  have hmem : ∀ x ∈ l, x.addr ≠ s.brk := by
    intro x hx
    have := Tiled_mem h.tiled x hx
    omega
  have hseg := h.seg
  have hhead := h.head_eq
  have htail := h.tail_eq
  have htl := h.tiled
  unfold append_block
  rcases list_snoc l with rfl | ⟨pre, a, rfl⟩
  · simp only [nextOr_nil, lastOr_nil, tend_nil] at hhead htail hbrk
    refine ⟨h.base_pos, ?_, ?_, ?_, ?_, ?_, ?_, ?_⟩
    · simp [hhead, htail]
    · simp [hhead]
    · simp [hhead]
    · simp [hn, hbrk]
    · simp [hhead, hbrk]
    · simpa [hhead] using hfit
    · simpa [hhead] using h.limit_lt
  · simp only [Seg_append, Seg_cons, Seg_nil, nextOr_append, nextOr_cons, nextOr_nil,
      lastOr_append, lastOr_cons, lastOr_nil, tend_append, tend_cons, tend_nil, Tiled_append,
      Tiled_cons, Tiled_nil] at hseg hhead htail hbrk htl
    have haz : a.addr ≠ 0 := h.addr_pos a (by simp)
    have hab : a.addr ≠ s.brk := hmem a (by simp)
    have hpre : ∀ x ∈ pre, x.addr ≠ s.brk ∧ x.addr ≠ a.addr := by
      intro x hx
      refine ⟨hmem x (by simp [hx]), ?_⟩
      have := Tiled_mem htl.1 x hx
      omega
    have hhz : s.head ≠ 0 := by
      rw [hhead]
      cases pre with
      | nil => simpa using haz
      | cons c pre => simpa using h.addr_pos c (by simp)
    have hhz' : nextOr pre a.addr ≠ 0 := hhead ▸ hhz
    refine ⟨h.base_pos, ?_, ?_, ?_, ?_, ?_, ?_, ?_⟩
    · simp only [Seg_append, Seg_cons, Seg_nil, nextOr_append, nextOr_cons, nextOr_nil,
        lastOr_append, lastOr_cons, lastOr_nil, List.append_assoc, List.singleton_append]
      refine ⟨Seg_frame ?_ hseg.1, ?_, ?_, trivial⟩
      · intro x hx
        have q := hpre x hx
        simp [hhz, htail, q]
      · simp [hhz, htail, hab, hab.symm, hseg.2.1]
      · simp [hhz, htail, hab, hab.symm]
    · simp [hhz, hhz', hhead]
    · simp [hhz]
    · simp only [Tiled_append, Tiled_cons, Tiled_nil, tend_append, tend_cons, tend_nil]
      exact ⟨⟨htl.1, htl.2.1, htl.2.2.1, trivial⟩, hbrk, hn, trivial⟩
    · simp [hhz, hbrk]
    · simpa [hhz] using hfit
    · simpa [hhz] using h.limit_lt

theorem Str_absorb {s : Heap} {base : Nat} {pre post : List Blk} {x y : Blk}
    (h : Str s base (pre ++ x :: y :: post)) :
    Str (absorb s x.addr y.addr) base
      (pre ++ ⟨x.addr, x.size + headerSize + y.size, x.free⟩ :: post) := by
  have hH := headerSize_eq
  obtain ⟨hpre, hpost, -, -, -⟩ := mem_split_bounds h.tiled
  have hltx := h.lt x (by simp)
  have hlty := h.lt y (by simp)
  have hseg := h.seg
  simp only [Seg_append, Seg_cons, nextOr_cons] at hseg
  obtain ⟨hs1, hs2, hs3, hs4⟩ := hseg
  have htl := h.tiled
  simp only [Tiled_append, Tiled_cons] at htl
  obtain ⟨t1, t2, t3, t4, t5, t6⟩ := htl
  have e1 : uadd x.size (uadd headerSize y.size) = x.size + headerSize + y.size := by
    have e : uadd headerSize y.size = headerSize + y.size := uadd_eq (by omega)
    rw [e, uadd_eq (by omega)]
    omega
  have hxy : x.addr ≠ y.addr := by omega
  have hyx : y.addr ≠ x.addr := by omega
  have hpz : ∀ z ∈ post, z.addr ≠ 0 := fun z hz => h.addr_pos z (by simp [hz])
  have hhead := h.head_eq
  have htail := h.tail_eq
  have hbrk := h.brk_eq
  have hbl := h.brk_le
  have hll := h.limit_lt
  simp only [nextOr_append, lastOr_append, tend_append, nextOr_cons, lastOr_cons, tend_cons]
    at hhead htail hbrk
  have hpre1 : ∀ z ∈ pre, z.addr ≠ x.addr ∧ z.addr ≠ y.addr := by
    intro z hz
    have := hpre z hz
    omega
  have hpost1 : ∀ z ∈ post, z.addr ≠ x.addr ∧ z.addr ≠ y.addr ∧ x.addr ≠ z.addr ∧ y.addr ≠ z.addr := by
    intro z hz
    have := Tiled_mem t6 z hz
    omega
  have htend : x.addr + headerSize + (x.size + headerSize + y.size) = y.addr + headerSize + y.size := by
    omega
  unfold absorb
  cases post with
  | nil =>
    simp only [nextOr_nil, lastOr_nil, tend_nil] at hs3 hhead htail hbrk
    refine ⟨h.base_pos, ?_, ?_, ?_, ?_, ?_, ?_, ?_⟩
    · simp only [Seg_append, Seg_cons, nextOr_cons, Seg_nil, nextOr_nil]
      refine ⟨Seg_frame ?_ hs1, ?_, trivial⟩
      · intro z hz
        have q := hpre1 z hz
        simp [hs2, hs3, hxy, hyx, q]
      · simp [hs2, hs3, hxy, hyx, e1]
    · simp [hs2, hs3, hxy, hyx, hhead]
    · simp [hs2, hs3, hxy, hyx]
    · simp only [Tiled_append, Tiled_cons, Tiled_nil]
      exact ⟨t1, t2, by omega, trivial⟩
    · simp [hs2, hs3, hxy, hyx, hbrk, htend]
    · simpa [hs2, hs3, hxy, hyx] using hbl
    · simpa [hs2, hs3, hxy, hyx] using hll
  | cons d post =>
    simp only [nextOr_cons, lastOr_cons, tend_cons, Seg_cons] at hs3 hs4 hhead htail hbrk
    simp only [Tiled_cons] at t6
    have hdz : d.addr ≠ 0 := hpz d (by simp)
    have hd := hpost1 d (by simp)
    have hpost2 : ∀ z ∈ post, z.addr ≠ d.addr := by
      intro z hz
      have := Tiled_mem t6.2.2 z hz
      omega
    have hpre2 : ∀ z ∈ pre, z.addr ≠ d.addr := by
      intro z hz
      have := hpre z hz
      omega
    refine ⟨h.base_pos, ?_, ?_, ?_, ?_, ?_, ?_, ?_⟩
    · simp only [Seg_append, Seg_cons, nextOr_cons]
      refine ⟨Seg_frame ?_ hs1, ?_, ?_, Seg_frame ?_ hs4.2⟩
      · intro z hz
        have q1 := hpre1 z hz
        have q2 := hpre2 z hz
        simp [hs2, hs3, hxy, hyx, hdz, hd, q1, q2]
      · simp [hs2, hs3, hxy, hyx, hdz, hd, e1]
      · simp [hs2, hs3, hs4.1, hxy, hyx, hdz, hd]
      · intro z hz
        have q1 := hpost1 z (List.mem_cons_of_mem _ hz)
        have q2 := hpost2 z hz
        simp [hs2, hs3, hxy, hyx, hdz, hd, q1, q2]
    · simp [hs2, hs3, hxy, hyx, hdz, hd, hhead]
    · simp [hs2, hs3, hxy, hyx, hdz, hd, htail]
    · simp only [Tiled_append, Tiled_cons]
      refine ⟨t1, t2, by omega, by omega, t6.2.1, ?_⟩
      have e : tend base pre + headerSize + (x.size + headerSize + y.size) + headerSize + d.size
          = tend base pre + headerSize + x.size + headerSize + y.size + headerSize + d.size := by
        omega
      rw [e]
      exact t6.2.2
    · simp [hs2, hs3, hxy, hyx, hdz, hd, hbrk]
    · simpa [hs2, hs3, hxy, hyx, hdz, hd] using hbl
    · simpa [hs2, hs3, hxy, hyx, hdz, hd] using hll

theorem Str_release {s : Heap} {base : Nat} {pre : List Blk} {b : Blk}
    (h : Str s base (pre ++ [b])) :
    Str { unlink_tail s b.addr with brk := b.addr } base pre := by
  have hH := headerSize_eq
  have hseg := h.seg
  have hhead := h.head_eq
  have htail := h.tail_eq
  have hbrk := h.brk_eq
  have htl := h.tiled
  have hbl := h.brk_le
  have hll := h.limit_lt
  simp only [Seg_append, Seg_cons, Seg_nil, nextOr_append, nextOr_cons, nextOr_nil,
    lastOr_append, lastOr_cons, lastOr_nil, tend_append, tend_cons, tend_nil, Tiled_append,
    Tiled_cons, Tiled_nil] at hseg hhead htail hbrk htl
  unfold unlink_tail
  rcases list_snoc pre with rfl | ⟨pre1, a, rfl⟩
  · simp only [lastOr_nil] at hseg
    refine ⟨h.base_pos, ?_, ?_, ?_, ?_, ?_, ?_, ?_⟩
    · simp
    · simp [hseg.2.1]
    · simp [hseg.2.1]
    · simp
    · simpa [hseg.2.1] using htl.2.1
    · simp [hseg.2.1]; omega
    · simpa [hseg.2.1] using hll
  · simp only [Seg_append, Seg_cons, Seg_nil, nextOr_append, nextOr_cons, nextOr_nil,
      lastOr_append, lastOr_cons, lastOr_nil, tend_append, tend_cons, tend_nil, Tiled_append,
      Tiled_cons, Tiled_nil] at hseg hhead htail hbrk htl
    have haz : a.addr ≠ 0 := h.addr_pos a (by simp)
    have hab : a.addr ≠ b.addr := by omega
    have hpre : ∀ z ∈ pre1, z.addr ≠ a.addr := by
      intro z hz
      have := Tiled_mem htl.1.1 z hz
      omega
    refine ⟨h.base_pos, ?_, ?_, ?_, ?_, ?_, ?_, ?_⟩
    · simp only [Seg_append, Seg_cons, Seg_nil, nextOr_cons, nextOr_nil]
      refine ⟨Seg_frame ?_ hseg.1.1, ?_, trivial⟩
      · intro z hz
        have q := hpre z hz
        simp [hseg.2.1, haz, q]
      · simp [hseg.2.1, hseg.1.2.1, haz]
    · simp [hseg.2.1, haz, hhead]
    · simp [hseg.2.1, haz]
    · simp only [Tiled_append, Tiled_cons, Tiled_nil]
      exact htl.1
    · simp [hseg.2.1, haz]
      omega
    · simp [hseg.2.1, haz]; omega
    · simpa [hseg.2.1, haz] using hll

theorem cf_stop {s : Heap} {base : Nat} {pre post : List Blk} {b : Blk} (fuel : Nat)
    (h : Str s base (pre ++ b :: post))
    (hp : post = [] ∨ ∃ c rest, post = c :: rest ∧ c.free = false) :
    coalesce_forward b.addr (fuel + 1) s = some s := by
  have hseg := h.seg
  simp only [Seg_append, Seg_cons, nextOr_cons] at hseg
  obtain ⟨-, hs2, hs3⟩ := hseg
  unfold coalesce_forward
  rcases hp with rfl | ⟨c, rest, rfl, hc⟩
  · simp [hs2]
  · simp only [Seg_cons] at hs3
    simp [hs2, hs3.1, hc]

theorem adjacent_eq {s : Heap} {base : Nat} {pre post : List Blk} {x y : Blk}
    (h : Str s base (pre ++ x :: y :: post)) :
    blocks_adjacent s x.addr y.addr = true := by
  have hH := headerSize_eq
  have hlt := h.lt x (by simp)
  have hseg := h.seg
  simp only [Seg_append, Seg_cons, nextOr_cons] at hseg
  have htl := h.tiled
  simp only [Tiled_append, Tiled_cons] at htl
  unfold blocks_adjacent
  have e : uadd x.addr headerSize = x.addr + headerSize := uadd_eq (by omega)
  have e2 : uadd (uadd x.addr headerSize) x.size = x.addr + headerSize + x.size := by
    rw [e]
    exact uadd_eq (by omega)
  rw [hseg.2.1]
  simp only [e2, decide_eq_true_eq]
  omega

theorem cf_step {s : Heap} {base : Nat} {pre post : List Blk} {b c : Blk} (fuel : Nat)
    (h : Str s base (pre ++ b :: c :: post)) (hc : c.free = true) :
    coalesce_forward b.addr (fuel + 1) s
      = coalesce_forward b.addr fuel (absorb s b.addr c.addr) := by
  have hadj := adjacent_eq h
  have hcz : c.addr ≠ 0 := h.addr_pos c (by simp)
  have hseg := h.seg
  simp only [Seg_append, Seg_cons, nextOr_cons] at hseg
  obtain ⟨-, hs2, hs3, -⟩ := hseg
  have hn : (s.hdr b.addr).next = c.addr := by rw [hs2]
  have hf : (s.hdr c.addr).is_free = true := by rw [hs3]; exact hc
  conv_lhs => unfold coalesce_forward
  rw [if_pos ⟨by rw [hn]; exact hcz, by rw [hn]; exact hf, by rw [hn]; exact hadj⟩]
  simp only [hn]
  rfl

theorem cb_none {s : Heap} {base : Nat} {pre post : List Blk} {b : Blk}
    (h : Str s base (pre ++ b :: post))
    (hp : pre = [] ∨ ∃ pre1 a, pre = pre1 ++ [a] ∧ a.free = false) :
    coalesce_backward s b.addr = s := by
  have hseg := h.seg
  unfold coalesce_backward
  rcases hp with rfl | ⟨pre1, a, rfl, ha⟩
  · simp only [List.nil_append, Seg_cons] at hseg
    simp [hseg.1]
  · simp only [Seg_append, Seg_cons, nextOr_cons, Seg_nil, lastOr_append, lastOr_cons,
      lastOr_nil, nextOr_nil] at hseg
    simp [hseg.2.1, hseg.1.2.1, ha]

theorem cb_step {s : Heap} {base : Nat} {pre post : List Blk} {a b : Blk}
    (h : Str s base (pre ++ a :: b :: post)) (ha : a.free = true) :
    coalesce_backward s b.addr = absorb s a.addr b.addr := by
  have hadj := adjacent_eq h
  have haz : a.addr ≠ 0 := h.addr_pos a (by simp)
  have hseg := h.seg
  simp only [Seg_append, Seg_cons, nextOr_cons] at hseg
  obtain ⟨-, hs2, hs3, -⟩ := hseg
  have hp : (s.hdr b.addr).prev = a.addr := by rw [hs3]
  have hf : (s.hdr a.addr).is_free = true := by rw [hs2]; exact ha
  unfold coalesce_backward
  rw [if_pos ⟨by rw [hp]; exact haz, by rw [hp]; exact hf, by rw [hp]; exact hadj⟩]
  simp only [hp]
  rfl

theorem mergePrev_nil (m : List Blk) : mergePrev [] m = m := by
  simp [mergePrev]

theorem mergePrev_snoc (pre : List Blk) (a b : Blk) (rest : List Blk) :
    mergePrev (pre ++ [a]) (b :: rest)
      = if a.free = true then pre ++ ⟨a.addr, a.size + headerSize + b.size, true⟩ :: rest
        else pre ++ a :: b :: rest := by
  simp [mergePrev]

@[simp] theorem absorb_brk (s : Heap) (x y : Nat) : (absorb s x y).brk = s.brk := by
  unfold absorb; simp only []; split <;> rfl
@[simp] theorem absorb_data (s : Heap) (x y : Nat) : (absorb s x y).data = s.data := by
  unfold absorb; simp only []; split <;> rfl
@[simp] theorem absorb_limit (s : Heap) (x y : Nat) : (absorb s x y).limit = s.limit := by
  unfold absorb; simp only []; split <;> rfl

theorem Blk_eta_free {b : Blk} (h : b.free = true) : (⟨b.addr, b.size, true⟩ : Blk) = b := by
  cases b; simp_all

theorem forward_spec {s : Heap} {base : Nat} {pre post : List Blk} {b : Blk} {fuel : Nat}
    (h : Str s base (pre ++ b :: post)) (hb : b.free = true) (hna : NoAdj false post)
    (hf : 2 ≤ fuel) :
    ∃ s1, coalesce_forward b.addr fuel s = some s1 ∧
      Str s1 base (pre ++ mergeNext b post)
      ∧ s1.brk = s.brk ∧ s1.data = s.data ∧ s1.limit = s.limit := by
  obtain ⟨f, rfl⟩ : ∃ f, fuel = f + 2 := ⟨fuel - 2, by omega⟩
  cases post with
  | nil =>
    refine ⟨s, cf_stop _ h (Or.inl rfl), ?_, rfl, rfl, rfl⟩
    simpa [mergeNext, Blk_eta_free hb] using h
  | cons c rest =>
    by_cases hc : c.free = true
    · have h1 := Str_absorb h
      refine ⟨absorb s b.addr c.addr, ?_, ?_, by simp, by simp, by simp⟩
      · rw [cf_step _ h hc]
        have h2 : coalesce_forward
            (⟨b.addr, b.size + headerSize + c.size, b.free⟩ : Blk).addr (f + 1)
            (absorb s b.addr c.addr) = some (absorb s b.addr c.addr) := by
          apply cf_stop _ h1
          cases rest with
          | nil => exact Or.inl rfl
          | cons d rest2 =>
            refine Or.inr ⟨d, rest2, rfl, ?_⟩
            simp only [NoAdj_cons] at hna
            have := hna.2.1
            simpa [hc] using this
        exact h2
      · simpa [mergeNext, hc, hb] using h1
    · refine ⟨s, cf_stop _ h (Or.inr ⟨c, rest, rfl, by simpa using hc⟩), ?_, rfl, rfl, rfl⟩
      simpa [mergeNext, hc, Blk_eta_free hb] using h

theorem mergeNext_ne_nil (b : Blk) (post : List Blk) :
    ∃ b1 post1, mergeNext b post = b1 :: post1 ∧ b1.addr = b.addr ∧ b1.free = true := by
  cases post with
  | nil => exact ⟨_, _, rfl, rfl, rfl⟩
  | cons c rest =>
    by_cases hc : c.free = true
    · exact ⟨⟨b.addr, b.size + headerSize + c.size, true⟩, rest, by simp [mergeNext, hc],
        rfl, rfl⟩
    · exact ⟨⟨b.addr, b.size, true⟩, c :: rest, by simp [mergeNext, hc], rfl, rfl⟩

theorem backward_spec {s : Heap} {base : Nat} {pre m : List Blk} {b : Blk}
    (h : Str s base (pre ++ b :: m)) :
    Str (coalesce_backward s b.addr) base (mergePrev pre (b :: m))
      ∧ (coalesce_backward s b.addr).brk = s.brk
      ∧ (coalesce_backward s b.addr).data = s.data
      ∧ (coalesce_backward s b.addr).limit = s.limit := by
  rcases list_snoc pre with rfl | ⟨pre1, a, rfl⟩
  · rw [cb_none h (Or.inl rfl), mergePrev_nil]
    exact ⟨h, rfl, rfl, rfl⟩
  · by_cases ha : a.free = true
    · have h' : Str s base (pre1 ++ a :: b :: m) := by simpa using h
      rw [cb_step h' ha, mergePrev_snoc, if_pos ha]
      refine ⟨?_, by simp, by simp, by simp⟩
      simpa [ha] using Str_absorb h'
    · rw [cb_none h (Or.inr ⟨pre1, a, rfl, by simpa using ha⟩), mergePrev_snoc, if_neg ha]
      exact ⟨by simpa using h, rfl, rfl, rfl⟩

theorem NoAdj_coalesced {pre post : List Blk} {b : Blk}
    (h : NoAdj false (pre ++ b :: post)) : NoAdj false (coalesced pre b post) := by
  simp only [NoAdj_append, NoAdj_cons] at h
  obtain ⟨h1, -, h3⟩ := h
  have h3' : NoAdj false post := NoAdj_mono h3
  unfold coalesced
  rcases list_snoc pre with rfl | ⟨pre1, a, rfl⟩
  · rw [mergePrev_nil]
    cases post with
    | nil => simp [mergeNext]
    | cons c rest =>
      simp only [NoAdj_cons] at h3'
      by_cases hc : c.free = true
      · simp only [mergeNext, hc, if_true, NoAdj_cons]
        refine ⟨by simp, ?_⟩
        simpa [hc] using h3'.2
      · simp only [mergeNext, hc, if_false, NoAdj_cons]
        refine ⟨by simp, by simpa using hc, ?_⟩
        exact h3'.2
  · simp only [NoAdj_append, NoAdj_cons, NoAdj_nil, lastFree_append, lastFree_cons,
      lastFree_nil] at h1
    obtain ⟨b1, post1, hm, -, hb1⟩ := mergeNext_ne_nil b post
    have hm1 : NoAdj true post1 ∧ mergeNext b post = b1 :: post1 := by
      refine ⟨?_, hm⟩
      cases post with
      | nil =>
        simp only [mergeNext, List.cons.injEq] at hm
        rw [← hm.2]; simp
      | cons c rest =>
        simp only [NoAdj_cons] at h3'
        by_cases hc : c.free = true
        · simp only [mergeNext, hc, if_true, List.cons.injEq] at hm
          rw [← hm.2]
          simpa [hc] using h3'.2
        · simp [mergeNext, hc] at hm
          rw [← hm.2]
          simp only [NoAdj_cons]
          exact ⟨by simpa using hc, h3'.2⟩
    rw [hm, mergePrev_snoc]
    by_cases ha : a.free = true
    · rw [if_pos ha]
      simp only [NoAdj_append, NoAdj_cons]
      refine ⟨h1.1, ?_, hm1.1⟩
      have := h1.2.1
      simpa [ha] using this
    · rw [if_neg ha]
      simp only [NoAdj_append, NoAdj_cons]
      refine ⟨h1.1, h1.2.1, by simp [ha], ?_⟩
      rw [hb1]
      exact hm1.1

theorem mem_coalesced_used {pre post : List Blk} {b x : Blk} (hx : x.free = false) :
    x ∈ coalesced pre b post ↔ x ∈ pre ∨ x ∈ post := by
  have hne : ∀ (a : Nat) (n : Nat), x ≠ ⟨a, n, true⟩ := by
    intro a n he
    rw [he] at hx
    simp at hx
  unfold coalesced
  have hnext : x ∈ mergeNext b post ↔ x ∈ post := by
    cases post with
    | nil => simp [mergeNext, hne]
    | cons c rest =>
      by_cases hc : c.free = true
      · have : x ≠ c := by
          intro he; rw [he, hc] at hx; simp at hx
        simp [mergeNext, hc, hne, this]
      · simp [mergeNext, hc, hne]
  rcases list_snoc pre with rfl | ⟨pre1, a, rfl⟩
  · rw [mergePrev_nil, hnext]; simp
  · obtain ⟨b1, post1, hm, -, hb1⟩ := mergeNext_ne_nil b post
    rw [hm] at hnext
    rw [hm, mergePrev_snoc]
    have hxb1 : x ≠ b1 := by
      intro he; rw [he, hb1] at hx; simp at hx
    simp only [List.mem_cons, hxb1, false_or] at hnext
    by_cases ha : a.free = true
    · have : x ≠ a := by
        intro he; rw [he, ha] at hx; simp at hx
      simp [ha, hne, this, hnext]
    · simp [ha, hxb1, hnext, or_assoc]

/-! ## Lemmas: the calls on a heap that satisfies the invariant -/

theorem my_malloc_reuse {s : Heap} {base n fuel : Nat} {pre post : List Blk} {b : Blk}
    (h : InvL s base (pre ++ b :: post)) (hn : 0 < n)
    (hpre : ∀ x ∈ pre, ¬ (x.free = true ∧ n ≤ x.size)) (hb : b.free = true ∧ n ≤ b.size)
    (hf : pre.length < fuel) :
    my_malloc fuel s n = some (b.addr + headerSize, reuse_state s b.addr n) ∧
    InvL (reuse_state s b.addr n) base (pre ++ reused n b ++ post) := by
  have hH := headerSize_eq
  have hlt := h.str.lt b (by simp)
  have hbz := h.str.addr_pos b (by simp)
  have hseg := h.str.seg
  have hg : get_free_block fuel s n = some b.addr := by
    unfold get_free_block
    rw [h.str.head_eq]
    exact gfb_found hseg (fun x hx => h.str.addr_pos x (by simp [hx])) hbz hpre hb hf
  simp only [Seg_append, Seg_cons, nextOr_cons] at hseg
  have hsz : (s.hdr b.addr).size = b.size := by rw [hseg.2.1]
  have e1 : usub b.size n = b.size - n := usub_eq (by omega) (by omega)
  have hna := h.noadj
  simp only [NoAdj_append, NoAdj_cons] at hna
  constructor
  · unfold my_malloc
    rw [if_neg (by omega), hg]
    simp only [ne_eq, hbz, not_false_eq_true, if_true]
    rw [uadd_eq (by omega)]
    rfl
  · unfold reuse_state reused
    rw [hsz]
    by_cases hr : headerSize + 16 < b.size - n
    · have hr' : usub b.size n > headerSize + 16 := by rw [e1]; exact hr
      rw [if_pos hr', if_pos hr]
      refine ⟨by simpa using Str_split h.str hn hr, ?_⟩
      simp only [List.append_assoc, List.cons_append, List.nil_append, NoAdj_append, NoAdj_cons]
      simp only [hb.1, and_true, Bool.not_eq_true] at hna
      refine ⟨hna.1, by simp, by simp, ?_⟩
      cases post with
      | nil => simp
      | cons c rest =>
        simp only [NoAdj_cons] at hna ⊢
        exact ⟨by simpa using hna.2.2.1, hna.2.2.2⟩
    · have hr' : ¬ usub b.size n > headerSize + 16 := by rw [e1]; exact hr
      rw [if_neg hr', if_neg hr]
      refine ⟨by simpa using Str_set_is_free false h.str, ?_⟩
      simp only [List.append_assoc, List.cons_append, List.nil_append, NoAdj_append, NoAdj_cons]
      exact ⟨hna.1, by simp, NoAdj_mono hna.2.2⟩

theorem my_malloc_nofit {s : Heap} {base n fuel : Nat} {l : List Blk}
    (h : InvL s base l) (hn : 0 < n) (hsz : n + headerSize < 2 ^ 63)
    (hno : ∀ x ∈ l, ¬ (x.free = true ∧ n ≤ x.size)) (hf : l.length < fuel) :
    (s.limit < s.brk + headerSize + n ∧ my_malloc fuel s n = some (0, s)) ∨
    (s.brk + headerSize + n ≤ s.limit ∧
      my_malloc fuel s n = some (s.brk + headerSize,
        append_block { s with brk := s.brk + headerSize + n } s.brk n) ∧
      InvL (append_block { s with brk := s.brk + headerSize + n } s.brk n) base
        (l ++ [⟨s.brk, n, false⟩])) := by
  have hH := headerSize_eq
  have hg : get_free_block fuel s n = some 0 := by
    unfold get_free_block
    rw [h.str.head_eq]
    exact gfb_none h.str.seg h.str.addr_pos hno hf
  have e1 : uadd headerSize n = headerSize + n := uadd_eq (by omega)
  have e2 : toIntptr (headerSize + n) = ((headerSize + n : Nat) : Int) := toIntptr_eq (by omega)
  have hbl := h.str.brk_le
  have hll := h.str.limit_lt
  by_cases hfit : s.brk + headerSize + n ≤ s.limit
  · right
    refine ⟨hfit, ?_, Str_grow h.str hn hfit, ?_⟩
    · unfold my_malloc
      rw [if_neg (by omega), hg]
      simp only [ne_eq, not_true_eq_false, if_false, e1, e2]
      unfold sbrk
      rw [if_neg (by omega), if_pos (by omega), if_pos (by simpa using (by omega))]
      simp only [Int.toNat_ofNat]
      rw [uadd_eq (by omega)]
      have : s.brk + (headerSize + n) = s.brk + headerSize + n := by omega
      rw [this]
    · simp only [NoAdj_append, NoAdj_cons, NoAdj_nil]
      exact ⟨h.noadj, by simp, trivial⟩
  · left
    refine ⟨by omega, ?_⟩
    unfold my_malloc
    rw [if_neg (by omega), hg]
    simp only [ne_eq, not_true_eq_false, if_false, e1, e2]
    unfold sbrk
    rw [if_neg (by omega), if_pos (by omega), if_neg (by simpa using (by omega))]

@[simp] theorem unlink_tail_brk (s : Heap) (h : Nat) : (unlink_tail s h).brk = s.brk := by
  unfold unlink_tail; split <;> rfl
@[simp] theorem unlink_tail_limit (s : Heap) (h : Nat) : (unlink_tail s h).limit = s.limit := by
  unfold unlink_tail; split <;> rfl
@[simp] theorem unlink_tail_data (s : Heap) (h : Nat) : (unlink_tail s h).data = s.data := by
  unfold unlink_tail; split <;> rfl
theorem unlink_tail_size (s : Heap) (h : Nat) :
    ((unlink_tail s h).hdr h).size = (s.hdr h).size := by
  unfold unlink_tail
  split
  · simp only [set_next_hdr]
    split
    · next heq => rw [← heq]
    · rfl
  · rfl

theorem sbrk_zero (s : Heap) : sbrk s 0 = some (s.brk, s) := by
  simp [sbrk]

theorem sbrk_neg (s : Heap) (k : Nat) (hk : 0 < k) (hle : k ≤ s.brk) :
    sbrk s (-(k : Int)) = some (s.brk, { s with brk := s.brk - k }) := by
  unfold sbrk
  rw [if_neg (by omega), if_neg (by omega), if_pos (by simpa using hle)]
  simp

theorem my_free_release {s : Heap} {base fuel : Nat} {pre : List Blk} {b : Blk}
    (h : InvL s base (pre ++ [b])) (hb : b.free = false) :
    my_free fuel s (b.addr + headerSize)
        = some { unlink_tail s b.addr with brk := b.addr } ∧
      InvL { unlink_tail s b.addr with brk := b.addr } base pre := by
  have hH := headerSize_eq
  have hlt := h.str.lt b (by simp)
  have hseg := h.str.seg
  have hbrk := h.str.brk_eq
  have htl := h.str.tiled
  simp only [Seg_append, Seg_cons, Seg_nil, nextOr_nil, tend_append, tend_cons, tend_nil,
    Tiled_append, Tiled_cons, Tiled_nil] at hseg hbrk htl
  have hna := h.noadj
  simp only [NoAdj_append] at hna
  refine ⟨?_, Str_release h.str, hna.1⟩
  have e0 : usub (b.addr + headerSize) headerSize = b.addr := by
    rw [usub_eq (by omega) (by omega)]; omega
  have e1 : uadd (uadd b.addr headerSize) b.size = b.addr + headerSize + b.size := by
    have e : uadd b.addr headerSize = b.addr + headerSize := uadd_eq (by omega)
    rw [e]; exact uadd_eq (by omega)
  have hhb : s.hdr b.addr = ⟨b.size, b.free, 0, lastOr 0 pre⟩ := hseg.2.1
  unfold my_free
  rw [if_neg (by omega)]
  simp only [e0, sbrk_zero, hhb, hb, Bool.false_eq_true, if_false, e1]
  rw [if_pos (by omega)]
  have e2 : ((unlink_tail s b.addr).hdr b.addr).size = b.size := by
    rw [unlink_tail_size, hhb]
  rw [e2, release_arg (by omega), sbrk_neg _ _ (by omega) (by simp; omega)]
  simp only [unlink_tail_brk]
  have e3 : s.brk - (headerSize + b.size) = b.addr := by omega
  rw [e3]

theorem my_free_merge {s : Heap} {base fuel : Nat} {pre post : List Blk} {b c : Blk}
    (h : InvL s base (pre ++ b :: c :: post)) (hb : b.free = false) (hf : 2 ≤ fuel) :
    ∃ s1, my_free fuel s (b.addr + headerSize) = some s1 ∧
      InvL s1 base (coalesced pre b (c :: post)) ∧
      s1.brk = s.brk ∧ s1.data = s.data ∧ s1.limit = s.limit := by
  have hH := headerSize_eq
  have hlt := h.str.lt b (by simp)
  have hseg := h.str.seg
  have hbrk := h.str.brk_eq
  have htl := h.str.tiled
  simp only [Seg_append, Seg_cons, nextOr_cons, tend_append, tend_cons,
    Tiled_append, Tiled_cons] at hseg hbrk htl
  have hna := h.noadj
  simp only [NoAdj_append, NoAdj_cons] at hna
  have hna2 : NoAdj false (c :: post) := by
    simp only [NoAdj_cons]
    exact ⟨by simp, hna.2.2.2⟩
  have hgt : b.addr + headerSize + b.size < s.brk := by
    have := (mem_split_bounds h.str.tiled).2.1 c (by simp)
    have := h.str.brk_eq
    have := htl.2.2.2.2.1
    omega
  have e0 : usub (b.addr + headerSize) headerSize = b.addr := by
    rw [usub_eq (by omega) (by omega)]; omega
  have e1 : uadd (uadd b.addr headerSize) b.size = b.addr + headerSize + b.size := by
    have e : uadd b.addr headerSize = b.addr + headerSize := uadd_eq (by omega)
    rw [e]; exact uadd_eq (by omega)
  have hhb : s.hdr b.addr = ⟨b.size, b.free, c.addr, lastOr 0 pre⟩ := hseg.2.1
  have hm := Str_set_is_free true h.str
  obtain ⟨s1, hs1, hstr1, hb1, hd1, hl1⟩ :=
    @forward_spec _ _ _ _ ⟨b.addr, b.size, true⟩ fuel hm rfl hna2 hf
  obtain ⟨b1, post1, hmn, hb1a, -⟩ := mergeNext_ne_nil ⟨b.addr, b.size, true⟩ (c :: post)
  rw [hmn] at hstr1
  have hback := backward_spec hstr1
  rw [hb1a] at hback
  refine ⟨coalesce_backward s1 b.addr, ?_, ⟨?_, NoAdj_coalesced h.noadj⟩, ?_, ?_, ?_⟩
  · unfold my_free
    rw [if_neg (by omega)]
    simp only [e0, sbrk_zero, hhb, hb, Bool.false_eq_true, if_false, e1]
    rw [if_neg (by omega)]
    unfold coalesce
    simp only at hs1
    rw [hs1]
    rfl
  · have : coalesced pre b (c :: post) = mergePrev pre (b1 :: post1) := by
      unfold coalesced
      rw [← hmn]
      rfl
    rw [this]
    exact hback.1
  · rw [hback.2.1, hb1]; rfl
  · rw [hback.2.2.1, hd1]; rfl
  · rw [hback.2.2.2, hl1]; rfl

/-! ## Lemmas: fuel -/

theorem gfb_mono {s : Heap} {n : Nat} :
    ∀ {f f1 c r : Nat}, get_free_block_loop s n f c = some r → f ≤ f1 →
      get_free_block_loop s n f1 c = some r := by
  intro f
  induction f with
  | zero => intro f1 c r h; simp [get_free_block_loop] at h
  | succ f ih =>
    intro f1 c r h hle
    obtain ⟨g, rfl⟩ : ∃ g, f1 = g + 1 := ⟨f1 - 1, by omega⟩
    unfold get_free_block_loop at h ⊢
    split
    · next hc => rw [if_pos hc] at h; exact h
    · next hc =>
      rw [if_neg hc] at h
      split
      · next hc2 => rw [if_pos hc2] at h; exact h
      · next hc2 =>
        rw [if_neg hc2] at h
        exact ih h (by omega)

theorem cf_mono {b : Nat} :
    ∀ {f f1 : Nat} {s r : Heap}, coalesce_forward b f s = some r → f ≤ f1 →
      coalesce_forward b f1 s = some r := by
  intro f
  induction f with
  | zero => intro f1 s r h; simp [coalesce_forward] at h
  | succ f ih =>
    intro f1 s r h hle
    obtain ⟨g, rfl⟩ : ∃ g, f1 = g + 1 := ⟨f1 - 1, by omega⟩
    unfold coalesce_forward at h ⊢
    split
    · next hc =>
      rw [if_pos hc] at h
      exact ih h (by omega)
    · next hc => rw [if_neg hc] at h; exact h

theorem my_malloc_mono {s : Heap} {n f f1 : Nat} {r : Nat × Heap}
    (h : my_malloc f s n = some r) (hle : f ≤ f1) : my_malloc f1 s n = some r := by
  unfold my_malloc at h ⊢
  split
  · next hc => rw [if_pos hc] at h; exact h
  · next hc =>
    rw [if_neg hc] at h
    cases hg : get_free_block f s n with
    | none => rw [hg] at h; simp at h
    | some a =>
      have hg1 : get_free_block f1 s n = some a := gfb_mono hg hle
      rw [hg] at h
      rw [hg1]
      exact h

theorem my_free_mono {s : Heap} {p f f1 : Nat} {r : Heap}
    (h : my_free f s p = some r) (hle : f ≤ f1) : my_free f1 s p = some r := by
  unfold my_free at h ⊢
  split
  · next hc => rw [if_pos hc] at h; exact h
  · next hc =>
    rw [if_neg hc] at h
    simp only at h ⊢
    split
    · next hc2 => rw [if_pos hc2] at h; exact h
    · next hc2 =>
      rw [if_neg hc2] at h
      split
      · next hc3 => rw [if_pos hc3] at h; exact h
      · next hc3 =>
        rw [if_neg hc3] at h
        unfold coalesce at h ⊢
        cases hg : coalesce_forward (usub p headerSize) f
            (set_is_free s (usub p headerSize) true) with
        | none => rw [hg] at h; simp at h
        | some a =>
          rw [hg] at h
          rw [cf_mono hg hle]
          exact h

theorem my_calloc_mono {s : Heap} {a b f f1 : Nat} {r : Nat × Heap}
    (h : my_calloc f s a b = some r) (hle : f ≤ f1) : my_calloc f1 s a b = some r := by
  unfold my_calloc at h ⊢
  split
  · next hc => rw [if_pos hc] at h; exact h
  · next hc =>
    rw [if_neg hc] at h
    simp only at h ⊢
    split
    · next hc2 => rw [if_pos hc2] at h; exact h
    · next hc2 =>
      rw [if_neg hc2] at h
      cases hg : my_malloc f s (umul a b) with
      | none => rw [hg] at h; simp at h
      | some x =>
        rw [hg] at h
        rw [my_malloc_mono hg hle]
        exact h

theorem my_realloc_mono {s : Heap} {p n f f1 : Nat} {r : Nat × Heap}
    (h : my_realloc f s p n = some r) (hle : f ≤ f1) : my_realloc f1 s p n = some r := by
  unfold my_realloc at h ⊢
  split
  · next hc => rw [if_pos hc] at h; exact my_malloc_mono h hle
  · next hc =>
    rw [if_neg hc] at h
    split
    · next hc2 =>
      rw [if_pos hc2] at h
      cases hg : my_free f s p with
      | none => rw [hg] at h; simp at h
      | some x =>
        rw [hg] at h
        rw [my_free_mono hg hle]
        exact h
    · next hc2 =>
      rw [if_neg hc2] at h
      simp only at h ⊢
      split
      · next hc3 => rw [if_pos hc3] at h; exact h
      · next hc3 =>
        rw [if_neg hc3] at h
        cases hg : my_malloc f s n with
        | none => rw [hg] at h; simp at h
        | some x =>
          rw [hg] at h
          rw [my_malloc_mono hg hle]
          obtain ⟨ret, s1⟩ := x
          simp only at h ⊢
          split
          · next hc4 =>
            rw [if_pos hc4] at h
            cases hg2 : my_free f (memcpy s1 ret p (s1.hdr (usub p headerSize)).size) p with
            | none => rw [hg2] at h; simp at h
            | some y =>
              rw [hg2] at h
              rw [my_free_mono hg2 hle]
              exact h
          · next hc4 => rw [if_neg hc4] at h; exact h

/-! ## Lemmas: the chain of a heap that satisfies the invariant -/

theorem Str_data {s : Heap} {base : Nat} {l : List Blk} (d : Nat → Nat) (h : Str s base l) :
    Str { s with data := d } base l :=
  ⟨h.base_pos, h.seg, h.head_eq, h.tail_eq, h.tiled, h.brk_eq, h.brk_le, h.limit_lt⟩

theorem InvL_data {s : Heap} {base : Nat} {l : List Blk} (d : Nat → Nat) (h : InvL s base l) :
    InvL { s with data := d } base l :=
  ⟨Str_data d h.str, h.noadj⟩

theorem memset_header_of_disjoint {p c n a : Nat} (h : header_t)
    (hd : a + 32 ≤ p ∨ p + n ≤ a) : memset_header p c n a h = h := by
  unfold memset_header memset_field
  rw [if_neg (by omega), if_neg (by omega), if_neg (by omega), if_neg (by omega)]

/-- The call `memset` on bytes of the payload of a block of the chain leaves the headers
of the chain as they are. -/
theorem InvL_memset {s : Heap} {base : Nat} {l : List Blk} (h : InvL s base l) {b : Blk}
    (hb : b ∈ l) {n : Nat} (hn : n ≤ b.size) (v : Nat) :
    InvL (memset s (b.addr + headerSize) v n) base l ∧
    ∀ x ∈ l, (memset s (b.addr + headerSize) v n).hdr x.addr = s.hdr x.addr := by
  have hH := headerSize_eq
  have hfr : ∀ x ∈ l, (memset s (b.addr + headerSize) v n).hdr x.addr = s.hdr x.addr := by
    intro x hx
    obtain ⟨pre, post, rfl⟩ := List.append_of_mem hb
    obtain ⟨hpre, hpost, -, -, -⟩ := mem_split_bounds h.str.tiled
    show memset_header _ _ _ _ _ = _
    apply memset_header_of_disjoint
    simp only [List.mem_append, List.mem_cons] at hx
    rcases hx with hx | rfl | hx
    · have := hpre x hx
      omega
    · omega
    · have := hpost x hx
      omega
  exact ⟨⟨⟨h.str.base_pos, Seg_frame hfr h.str.seg, h.str.head_eq, h.str.tail_eq, h.str.tiled,
    h.str.brk_eq, h.str.brk_le, h.str.limit_lt⟩, h.noadj⟩, hfr⟩

theorem InChain_of_mem {s : Heap} {base : Nat} {l : List Blk} (h : Str s base l) :
    ∀ (pre : List Blk) (b : Blk) (post : List Blk), l = pre ++ b :: post → InChain s b.addr := by
  intro pre
  induction pre using List.reverseRecOn with
  | nil =>
    intro b post hl
    subst hl
    have hh := h.head_eq
    simp only [List.nil_append, nextOr_cons] at hh
    rw [← hh]
    exact InChain.head (by rw [hh]; exact h.addr_pos b (by simp))
  | append_singleton pre1 a ih =>
    intro b post hl
    have ha : InChain s a.addr := ih a (b :: post) (by simpa using hl)
    subst hl
    have hseg := h.seg
    simp only [Seg_append, Seg_cons, nextOr_cons, Seg_nil, nextOr_nil] at hseg
    have hn : (s.hdr a.addr).next = b.addr := by rw [hseg.1.2.1]
    rw [← hn]
    exact InChain.next ha (by rw [hn]; exact h.addr_pos b (by simp))

theorem mem_of_InChain {s : Heap} {base : Nat} {l : List Blk} (h : Str s base l) {a : Nat}
    (hc : InChain s a) : ∃ b ∈ l, b.addr = a := by
  induction hc with
  | head hz =>
    have hh := h.head_eq
    cases l with
    | nil => simp at hh; exact absurd hh hz
    | cons b rest => exact ⟨b, by simp, by simpa using hh.symm⟩
  | next _ hz ih =>
    obtain ⟨b, hb, rfl⟩ := ih
    obtain ⟨pre, post, rfl⟩ := List.append_of_mem hb
    have hseg := h.seg
    simp only [Seg_append, Seg_cons, nextOr_cons] at hseg
    rw [hseg.2.1] at hz ⊢
    cases post with
    | nil => simp at hz
    | cons c rest => exact ⟨c, by simp, rfl⟩

theorem hdr_of_mem {s : Heap} {base : Nat} {l : List Blk} (h : Str s base l) {b : Blk}
    (hb : b ∈ l) : (s.hdr b.addr).size = b.size ∧ (s.hdr b.addr).is_free = b.free := by
  obtain ⟨pre, post, rfl⟩ := List.append_of_mem hb
  have hseg := h.seg
  simp only [Seg_append, Seg_cons, nextOr_cons] at hseg
  rw [hseg.2.1]
  exact ⟨rfl, rfl⟩

theorem Live_iff {s : Heap} {base : Nat} {l : List Blk} (h : Str s base l) (p : Nat) :
    Live s p ↔ ∃ b ∈ l, b.free = false ∧ p = b.addr + headerSize := by
  constructor
  · rintro ⟨a, hc, hf, rfl⟩
    obtain ⟨b, hb, rfl⟩ := mem_of_InChain h hc
    refine ⟨b, hb, ?_, rfl⟩
    rw [← (hdr_of_mem h hb).2]
    exact hf
  · rintro ⟨b, hb, hf, rfl⟩
    obtain ⟨pre, post, hl⟩ := List.append_of_mem hb
    refine ⟨b.addr, InChain_of_mem h pre b post hl, ?_, rfl⟩
    rw [(hdr_of_mem h hb).2]
    exact hf

/-! ## Lemmas: the outcome of a call -/

@[simp] theorem split_block_data (s : Heap) (h n r : Nat) :
    (split_block s h n r).data = s.data := by
  unfold split_block; simp only []; split <;> rfl
@[simp] theorem split_block_limit (s : Heap) (h n r : Nat) :
    (split_block s h n r).limit = s.limit := by
  unfold split_block; simp only []; split <;> rfl
@[simp] theorem split_block_brk (s : Heap) (h n r : Nat) :
    (split_block s h n r).brk = s.brk := by
  unfold split_block; simp only []; split <;> rfl
@[simp] theorem reuse_state_data (s : Heap) (h n : Nat) : (reuse_state s h n).data = s.data := by
  unfold reuse_state; split <;> simp
@[simp] theorem reuse_state_limit (s : Heap) (h n : Nat) :
    (reuse_state s h n).limit = s.limit := by
  unfold reuse_state; split <;> simp
@[simp] theorem reuse_state_brk (s : Heap) (h n : Nat) : (reuse_state s h n).brk = s.brk := by
  unfold reuse_state; split <;> simp
@[simp] theorem append_block_data (s : Heap) (h n : Nat) : (append_block s h n).data = s.data := by
  unfold append_block; simp only []; split <;> rfl
@[simp] theorem append_block_limit (s : Heap) (h n : Nat) :
    (append_block s h n).limit = s.limit := by
  unfold append_block; simp only []; split <;> rfl
@[simp] theorem append_block_brk (s : Heap) (h n : Nat) : (append_block s h n).brk = s.brk := by
  unfold append_block; simp only []; split <;> rfl

/-- What a call of `my_malloc` does to a heap that satisfies the invariant. -/
theorem my_malloc_outcome {s s1 : Heap} {base fuel n p : Nat} {l : List Blk}
    (h : InvL s base l) (hsz : n + headerSize < 2 ^ 63)
    (hm : my_malloc fuel s n = some (p, s1)) :
    (p = 0 ∧ s1 = s) ∨
    (0 < n ∧ ∃ l1 bq, InvL s1 base l1 ∧ bq ∈ l1 ∧ bq.free = false ∧ p = bq.addr + headerSize ∧
      n ≤ bq.size ∧ (∀ x ∈ l, x.free = false → x ∈ l1 ∧ x.addr ≠ bq.addr) ∧
      (∀ x ∈ l1, x.free = false → x = bq ∨ x ∈ l) ∧ s1.data = s.data ∧ s1.limit = s.limit) := by
  have hH := headerSize_eq
  by_cases hn : n = 0
  · left
    unfold my_malloc at hm
    rw [if_pos hn] at hm
    simp only [Option.some.injEq, Prod.mk.injEq] at hm
    exact ⟨hm.1.symm, hm.2.symm⟩
  have hn' : 0 < n := Nat.pos_of_ne_zero hn
  have hm1 := my_malloc_mono hm (le_max_left fuel (l.length + 1))
  have hF : l.length < max fuel (l.length + 1) := by
    have := le_max_right fuel (l.length + 1)
    omega
  rcases list_first_fit (fun x : Blk => x.free = true ∧ n ≤ x.size) l with hno
    | ⟨pre, b, post, rfl, hpre, hb⟩
  · rcases my_malloc_nofit h hn' hsz hno hF with ⟨-, he⟩ | ⟨-, he, hinv⟩
    · rw [he] at hm1
      simp only [Option.some.injEq, Prod.mk.injEq] at hm1
      exact Or.inl ⟨hm1.1.symm, hm1.2.symm⟩
    · rw [he] at hm1
      simp only [Option.some.injEq, Prod.mk.injEq] at hm1
      obtain ⟨rfl, rfl⟩ := hm1
      right
      refine ⟨hn', _, ⟨s.brk, n, false⟩, hinv, by simp, rfl, rfl, le_refl _, ?_, ?_, by simp,
        by simp⟩
      · intro x hx _
        refine ⟨by simp [hx], ?_⟩
        have := Tiled_mem h.str.tiled x hx
        have := h.str.brk_eq
        simp only
        omega
      · intro x hx hxf
        rcases List.mem_append.1 hx with hx1 | hx1
        · exact Or.inr hx1
        · left; simpa using hx1
  · have hpl : pre.length < max fuel ((pre ++ b :: post).length + 1) := by
      have := le_max_right fuel ((pre ++ b :: post).length + 1)
      simp only [List.length_append, List.length_cons] at this ⊢
      omega
    obtain ⟨he, hinv⟩ := my_malloc_reuse h hn' hpre hb hpl
    rw [he] at hm1
    simp only [Option.some.injEq, Prod.mk.injEq] at hm1
    obtain ⟨rfl, rfl⟩ := hm1
    obtain ⟨hbpre, hbpost, -, -, -⟩ := mem_split_bounds h.str.tiled
    right
    by_cases hr : headerSize + 16 < b.size - n
    · have hre : reused n b = [⟨b.addr, n, false⟩,
          ⟨b.addr + headerSize + n, b.size - n - headerSize, true⟩] := by
        unfold reused; rw [if_pos hr]
      rw [hre] at hinv
      refine ⟨hn', _, ⟨b.addr, n, false⟩, hinv, by simp, rfl, rfl, le_refl _, ?_, ?_, by simp,
        by simp⟩
      · intro x hx hxf
        rcases List.mem_append.1 hx with hx1 | hx1
        · refine ⟨by simp [hx1], ?_⟩
          have := hbpre x hx1
          simp only
          omega
        · rcases List.mem_cons.1 hx1 with rfl | hx2
          · rw [hb.1] at hxf; simp at hxf
          · refine ⟨by simp [hx2], ?_⟩
            have := hbpost x hx2
            simp only
            omega
      · intro x hx hxf
        simp only [List.append_assoc, List.cons_append, List.nil_append, List.mem_append,
          List.mem_cons] at hx
        rcases hx with hx | rfl | rfl | hx
        · right; simp [hx]
        · left; rfl
        · simp at hxf
        · right; simp [hx]
    · have hre : reused n b = [⟨b.addr, b.size, false⟩] := by
        unfold reused; rw [if_neg hr]
      rw [hre] at hinv
      refine ⟨hn', _, ⟨b.addr, b.size, false⟩, hinv, by simp, rfl, rfl, hb.2, ?_, ?_, by simp,
        by simp⟩
      · intro x hx hxf
        rcases List.mem_append.1 hx with hx1 | hx1
        · refine ⟨by simp [hx1], ?_⟩
          have := hbpre x hx1
          simp only
          omega
        · rcases List.mem_cons.1 hx1 with rfl | hx2
          · rw [hb.1] at hxf; simp at hxf
          · refine ⟨by simp [hx2], ?_⟩
            have := hbpost x hx2
            simp only
            omega
      · intro x hx hxf
        simp only [List.append_assoc, List.cons_append, List.nil_append, List.mem_append,
          List.mem_cons] at hx
        rcases hx with hx | rfl | hx
        · right; simp [hx]
        · left; rfl
        · right; simp [hx]

theorem mem_without {base : Nat} {pre post : List Blk} {b x : Blk}
    (h : Tiled base (pre ++ b :: post)) :
    (x ∈ pre ∨ x ∈ post) ↔ (x ∈ pre ++ b :: post ∧ x.addr ≠ b.addr) := by
  have hH := headerSize_eq
  obtain ⟨hbpre, hbpost, -, -, -⟩ := mem_split_bounds h
  have hbs : 0 < b.size := (Tiled_mem h b (by simp)).2.2
  constructor
  · rintro (hx | hx)
    · refine ⟨by simp [hx], ?_⟩
      have := hbpre x hx
      omega
    · refine ⟨by simp [hx], ?_⟩
      have := hbpost x hx
      omega
  · rintro ⟨hx, hne⟩
    simp only [List.mem_append, List.mem_cons] at hx
    rcases hx with hx | rfl | hx
    · exact Or.inl hx
    · exact absurd rfl hne
    · exact Or.inr hx

/-- A call of `my_free` on the handle of a used block of the chain returns, and
what it does to a heap that satisfies the invariant. -/
theorem my_free_total {s : Heap} {base fuel : Nat} {l : List Blk} {b : Blk}
    (h : InvL s base l) (hb : b ∈ l) (hbf : b.free = false) (hf : 2 ≤ fuel) :
    ∃ s1 l1, my_free fuel s (b.addr + headerSize) = some s1 ∧ InvL s1 base l1 ∧
      (∀ x : Blk, x.free = false → (x ∈ l1 ↔ x ∈ l ∧ x.addr ≠ b.addr)) ∧
      s1.data = s.data ∧ s1.limit = s.limit := by
  obtain ⟨pre, post, rfl⟩ := List.append_of_mem hb
  cases post with
  | nil =>
    obtain ⟨he, hinv⟩ := @my_free_release _ _ fuel _ _ h hbf
    refine ⟨_, pre, he, hinv, ?_, by simp, by simp⟩
    intro x _
    rw [← mem_without h.str.tiled]
    simp
  | cons c rest =>
    obtain ⟨s1, he, hinv, -, hd, hl⟩ := my_free_merge h hbf hf
    refine ⟨s1, _, he, hinv, ?_, hd, hl⟩
    intro x hx
    rw [← mem_without h.str.tiled]
    exact mem_coalesced_used hx

theorem my_free_outcome {s s1 : Heap} {base fuel : Nat} {l : List Blk} {b : Blk}
    (h : InvL s base l) (hb : b ∈ l) (hbf : b.free = false)
    (hm : my_free fuel s (b.addr + headerSize) = some s1) :
    ∃ l1, InvL s1 base l1 ∧
      (∀ x : Blk, x.free = false → (x ∈ l1 ↔ x ∈ l ∧ x.addr ≠ b.addr)) ∧
      s1.data = s.data ∧ s1.limit = s.limit := by
  obtain ⟨s2, l1, he, hinv, hmem, hd, hl⟩ :=
    @my_free_total _ _ (max fuel 2) _ _ h hb hbf (le_max_right _ _)
  have := my_free_mono hm (le_max_left fuel 2)
  rw [he] at this
  simp only [Option.some.injEq] at this
  subst this
  exact ⟨l1, hinv, hmem, hd, hl⟩

theorem my_calloc_outcome {s s1 : Heap} {base fuel num nsize p : Nat} {l : List Blk}
    (h : InvL s base l) (hsz : num * nsize + headerSize < 2 ^ 63)
    (hm : my_calloc fuel s num nsize = some (p, s1)) : ∃ l1, InvL s1 base l1 := by
  have hH := headerSize_eq
  unfold my_calloc at hm
  split at hm
  · simp only [Option.some.injEq, Prod.mk.injEq] at hm
    rw [← hm.2]; exact ⟨l, h⟩
  · simp only at hm
    split at hm
    · simp only [Option.some.injEq, Prod.mk.injEq] at hm
      rw [← hm.2]; exact ⟨l, h⟩
    · have hu : umul num nsize = num * nsize := by
        unfold umul; omega
      rw [hu] at hm
      cases hg : my_malloc fuel s (num * nsize) with
      | none => rw [hg] at hm; simp at hm
      | some r =>
        obtain ⟨q, s2⟩ := r
        rw [hg] at hm
        simp only at hm
        rcases my_malloc_outcome h hsz hg with ⟨h0, rfl⟩ | ⟨-, l1, bq, hinv, hbq, -, rfl, hbqn, -⟩
        · rw [if_pos h0] at hm
          simp only [Option.some.injEq, Prod.mk.injEq] at hm
          rw [← hm.2]; exact ⟨l, h⟩
        · rw [if_neg (by omega)] at hm
          simp only [Option.some.injEq, Prod.mk.injEq] at hm
          rw [← hm.2]
          exact ⟨l1, (InvL_memset hinv hbq hbqn 0).1⟩

theorem my_realloc_outcome {s s1 : Heap} {base fuel p n q : Nat} {l : List Blk}
    (h : InvL s base l) (hp : p = 0 ∨ Live s p) (hsz : n + headerSize < 2 ^ 63)
    (hm : my_realloc fuel s p n = some (q, s1)) : ∃ l1, InvL s1 base l1 := by
  have hmal : ∀ {s2 : Heap} {r : Nat}, my_malloc fuel s n = some (r, s2) →
      ∃ l1, InvL s2 base l1 := by
    intro s2 r hg
    rcases my_malloc_outcome h hsz hg with ⟨-, rfl⟩ | ⟨-, l1, -, hinv, -⟩
    · exact ⟨l, h⟩
    · exact ⟨l1, hinv⟩
  unfold my_realloc at hm
  split at hm
  · exact hmal hm
  · next hp0 =>
    have hlive : Live s p := hp.resolve_left hp0
    obtain ⟨b, hb, hbf, rfl⟩ := (Live_iff h.str p).1 hlive
    split at hm
    · cases hg : my_free fuel s (b.addr + headerSize) with
      | none => rw [hg] at hm; simp at hm
      | some s2 =>
        rw [hg] at hm
        simp only [Option.map_some', Option.some.injEq, Prod.mk.injEq] at hm
        obtain ⟨l1, hinv, -⟩ := my_free_outcome h hb hbf hg
        rw [← hm.2]; exact ⟨l1, hinv⟩
    · simp only at hm
      split at hm
      · simp only [Option.some.injEq, Prod.mk.injEq] at hm
        rw [← hm.2]; exact ⟨l, h⟩
      · cases hg : my_malloc fuel s n with
        | none => rw [hg] at hm; simp at hm
        | some r =>
          obtain ⟨ret, s2⟩ := r
          rw [hg] at hm
          simp only at hm
          split at hm
          · next hret =>
            rcases my_malloc_outcome h hsz hg with ⟨h0, -⟩ | ⟨-, l1, bq, hinv, -, -, -, -, hpres, -⟩
            · exact absurd h0 hret
            · have hb1 := (hpres b hb hbf).1
              have hinv2 := InvL_data
                (fun a => if ret ≤ a ∧ a < ret + (s2.hdr (usub (b.addr + headerSize) headerSize)).size
                  then s2.data (b.addr + headerSize + (a - ret)) else s2.data a) hinv
              cases hg2 : my_free fuel
                  (memcpy s2 ret (b.addr + headerSize)
                    (s2.hdr (usub (b.addr + headerSize) headerSize)).size)
                  (b.addr + headerSize) with
              | none => rw [hg2] at hm; simp at hm
              | some s3 =>
                rw [hg2] at hm
                simp only [Option.map_some', Option.some.injEq, Prod.mk.injEq] at hm
                obtain ⟨l2, hinv3, -⟩ := my_free_outcome hinv2 hb1 hbf hg2
                rw [← hm.2]; exact ⟨l2, hinv3⟩
          · simp only [Option.some.injEq, Prod.mk.injEq] at hm
            rw [← hm.2]; exact hmal hg

/-- Every heap reached by requests in range satisfies the invariant. -/
theorem ReachableInRange.inv {s : Heap} (h : ReachableInRange s) : Inv s := by
  induction h with
  | init hdr data b0 L h0 hle hL =>
    exact ⟨b0, [], ⟨⟨h0, trivial, rfl, rfl, trivial, rfl, hle, hL⟩, trivial⟩⟩
  | malloc _ hsz hm ih =>
    obtain ⟨base, l, h⟩ := ih
    rcases my_malloc_outcome h hsz hm with ⟨-, rfl⟩ | ⟨-, l1, -, hinv, -⟩
    · exact ⟨base, l, h⟩
    · exact ⟨base, l1, hinv⟩
  | calloc _ hsz hm ih =>
    obtain ⟨base, l, h⟩ := ih
    obtain ⟨l1, hinv⟩ := my_calloc_outcome h hsz hm
    exact ⟨base, l1, hinv⟩
  | realloc _ hp hsz hm ih =>
    obtain ⟨base, l, h⟩ := ih
    obtain ⟨l1, hinv⟩ := my_realloc_outcome h hp hsz hm
    exact ⟨base, l1, hinv⟩
  | free _ hp hm ih =>
    obtain ⟨base, l, h⟩ := ih
    obtain ⟨b, hb, hbf, rfl⟩ := (Live_iff h.str _).1 hp
    obtain ⟨l1, hinv, -⟩ := my_free_outcome h hb hbf hm
    exact ⟨base, l1, hinv⟩
  | write d _ ih =>
    obtain ⟨base, l, h⟩ := ih
    exact ⟨base, l, InvL_data d h⟩

/-! ## Lemmas: the search loop on the chain as the source walks it -/

theorem calloc_guard {num nsize : Nat} (h1 : 0 < num) :
    nsize > umul num nsize / num ↔ SIZE_MAX < num * nsize := by
  unfold umul SIZE_MAX
  rw [gt_iff_lt, Nat.div_lt_iff_lt_mul h1, Nat.mul_comm nsize num]
  generalize num * nsize = P
  omega

theorem my_calloc_overflow (fuel : Nat) (s : Heap) {num nsize : Nat}
    (h1 : 0 < num) (h2 : 0 < nsize) (h : SIZE_MAX < num * nsize) :
    my_calloc fuel s num nsize = some (0, s) := by
  unfold my_calloc
  rw [if_neg (by omega)]
  simp only
  rw [if_pos ((calloc_guard h1).2 h)]

theorem my_calloc_delegates (fuel : Nat) (s : Heap) {num nsize : Nat}
    (h1 : 0 < num) (h2 : 0 < nsize) (h : num * nsize ≤ SIZE_MAX) :
    my_calloc fuel s num nsize = (my_malloc fuel s (num * nsize)).map fun r =>
      if r.1 = 0 then (0, r.2) else (r.1, memset r.2 r.1 0 (num * nsize)) := by
  have hg := @calloc_guard num nsize h1
  have hu : umul num nsize = num * nsize := by
    unfold umul SIZE_MAX at *; omega
  unfold my_calloc
  rw [if_neg (by omega)]
  simp only
  rw [if_neg (fun hc => absurd (hg.1 hc) (by omega)), hu]
  cases my_malloc fuel s (num * nsize) with
  | none => rfl
  | some r =>
    obtain ⟨p, s1⟩ := r
    simp only [Option.map_some']
    split <;> simp_all

/-! ## Lemmas: coalescing -/

theorem InvL.noAdjacentFree {s : Heap} {base : Nat} {l : List Blk} (h : InvL s base l) :
    NoAdjacentFree s := by
  intro a hc hnz hcon
  obtain ⟨x, hx, rfl⟩ := mem_of_InChain h.str hc
  obtain ⟨pre, post, rfl⟩ := List.append_of_mem hx
  have hseg := h.str.seg
  have hna := h.noadj
  simp only [Seg_append, Seg_cons, nextOr_cons, NoAdj_append, NoAdj_cons] at hseg hna
  rw [hseg.2.1] at hnz hcon
  cases post with
  | nil => simp at hnz
  | cons c rest =>
    simp only [nextOr_cons, Seg_cons, NoAdj_cons] at hseg hcon hna
    rw [hseg.2.2.1] at hcon
    exact hna.2.2.1 ⟨hcon.1, hcon.2.1⟩

theorem heap3_reachable : ReachableInRange heap3 ∧ Live heap3 4260 := by
  have r0 : ReachableInRange heap0 :=
    ReachableInRange.init _ _ 4096 1048576 (by decide) (by decide) (by decide)
  have r1 := @ReachableInRange.malloc _ (append_block { heap0 with brk := 4228 } 4096 100) 4 100 4128
    r0 (by decide) rfl
  have r2 := @ReachableInRange.malloc _
    (append_block { append_block { heap0 with brk := 4228 } 4096 100 with brk := 4310 } 4228 50)
    4 50 4260 r1 (by decide) rfl
  have r3 := @ReachableInRange.malloc _
    (append_block { append_block { append_block { heap0 with brk := 4228 } 4096 100
      with brk := 4310 } 4228 50 with brk := 4352 } 4310 10) 4 10 4342 r2 (by decide) rfl
  have r4 := @ReachableInRange.free _ heap3 4 4128 r3
    ⟨4096, InChain.head (by decide), rfl, rfl⟩ rfl
  exact ⟨r4, ⟨4228, InChain.next (InChain.head (by decide)) (by decide), rfl, rfl⟩⟩

/-! ## Lemmas: allocation and release at the top of the heap -/

theorem sbrk_shape {s sg : Heap} {i : Int} {b : Nat} (h : sbrk s i = some (b, sg)) :
    b = s.brk ∧ sg = { s with brk := sg.brk } := by
  unfold sbrk at h
  split at h
  · simp only [Option.some.injEq, Prod.mk.injEq] at h
    obtain ⟨rfl, rfl⟩ := h
    exact ⟨rfl, rfl⟩
  · split at h
    · split at h
      · simp only [Option.some.injEq, Prod.mk.injEq] at h
        obtain ⟨rfl, rfl⟩ := h
        exact ⟨rfl, rfl⟩
      · simp at h
    · split at h
      · simp only [Option.some.injEq, Prod.mk.injEq] at h
        obtain ⟨rfl, rfl⟩ := h
        exact ⟨rfl, rfl⟩
      · simp at h

theorem sbrk_pos (s : Heap) (k : Nat) (hk : 0 < k) :
    sbrk s (k : Int) = if s.brk + k ≤ s.limit then some (s.brk, { s with brk := s.brk + k })
      else none := by
  unfold sbrk
  rw [if_neg (by omega), if_pos (by omega)]
  simp

theorem sbrk_neg_any (s : Heap) (k : Nat) (hk : 0 < k) :
    sbrk s (-(k : Int)) = if k ≤ s.brk then some (s.brk, { s with brk := s.brk - k })
      else none := by
  unfold sbrk
  rw [if_neg (by omega), if_neg (by omega)]
  simp

theorem Heap_brk_eta (s : Heap) (b : Nat) (h : s.brk = b) : { s with brk := b } = s := by
  subst h; rfl

theorem sbrk_round_trip {s sg : Heap} {n b : Nat} (hbl : s.brk ≤ s.limit)
    (hll : s.limit < 2 ^ 63)
    (hg : sbrk s (toIntptr (uadd headerSize n)) = some (b, sg)) :
    uadd (uadd s.brk headerSize) n = sg.brk ∧
    ∀ s1 : Heap, s1.brk = sg.brk → s1.limit = s.limit →
      ∃ b1, sbrk s1 (toIntptr (usub (usub 0 headerSize) n))
        = some (b1, { s1 with brk := s.brk }) := by
  have hH := headerSize_eq
  have e1 : uadd (uadd s.brk headerSize) n = (s.brk + (32 + n) % 2 ^ 64) % 2 ^ 64 := by
    unfold uadd; omega
  have e2 : usub (usub 0 headerSize) n = (2 ^ 64 - (32 + n) % 2 ^ 64) % 2 ^ 64 := by
    unfold usub; omega
  have e3 : uadd headerSize n = (32 + n) % 2 ^ 64 := by
    unfold uadd; omega
  rw [e1, e2]
  rw [e3] at hg
  have ht : (32 + n) % 2 ^ 64 < 2 ^ 64 := Nat.mod_lt _ (by norm_num)
  generalize (32 + n) % 2 ^ 64 = t at *
  by_cases ht0 : t = 0
  · subst ht0
    have hz : toIntptr 0 = 0 := by decide
    rw [hz, sbrk_zero] at hg
    simp only [Option.some.injEq, Prod.mk.injEq] at hg
    obtain ⟨-, rfl⟩ := hg
    refine ⟨by omega, ?_⟩
    intro s1 hb1 _
    have hz2 : (2 ^ 64 - 0) % 2 ^ 64 = 0 := by norm_num
    rw [hz2, hz, sbrk_zero, Heap_brk_eta s1 s.brk hb1]
    exact ⟨_, rfl⟩
  by_cases ht1 : t < 2 ^ 63
  · rw [toIntptr_eq ht1, sbrk_pos s t (by omega)] at hg
    split at hg
    · next hfit =>
      simp only [Option.some.injEq, Prod.mk.injEq] at hg
      obtain ⟨-, rfl⟩ := hg
      refine ⟨by simp only; omega, ?_⟩
      intro s1 hb1 hl1
      simp only at hb1
      have e : (2 ^ 64 - t) % 2 ^ 64 = 2 ^ 64 - t := by omega
      have e' : toIntptr (2 ^ 64 - t) = -(t : Int) := by
        rw [toIntptr_neg (by omega) (by omega)]; omega
      rw [e, e', sbrk_neg_any s1 t (by omega), if_pos (by omega)]
      have : s1.brk - t = s.brk := by omega
      rw [this]
      exact ⟨_, rfl⟩
    · simp at hg
  · have e' : toIntptr t = -((2 ^ 64 - t : Nat) : Int) := by
      rw [toIntptr_neg (by omega) ht]; omega
    rw [e', sbrk_neg_any s (2 ^ 64 - t) (by omega)] at hg
    split at hg
    · next hfit =>
      simp only [Option.some.injEq, Prod.mk.injEq] at hg
      obtain ⟨-, rfl⟩ := hg
      refine ⟨by simp only; omega, ?_⟩
      intro s1 hb1 hl1
      simp only at hb1
      have e : (2 ^ 64 - t) % 2 ^ 64 = 2 ^ 64 - t := by omega
      rw [e, toIntptr_eq (by omega), sbrk_pos s1 (2 ^ 64 - t) (by omega), if_pos (by omega)]
      have : s1.brk + (2 ^ 64 - t) = s.brk := by omega
      rw [this]
      exact ⟨_, rfl⟩
    · simp at hg

theorem Str.tail_facts {s : Heap} {base : Nat} {l : List Blk} (h : Str s base l) :
    s.brk ≠ 0 ∧ (∀ a, InChain s a → a ≠ s.brk) ∧ (s.head = 0 → s.tail = 0) ∧
    (s.head ≠ 0 → s.tail ≠ 0 ∧ s.tail ≠ s.brk ∧ (s.hdr s.tail).next = 0) := by
  have hH := headerSize_eq
  have hbrk := h.brk_eq
  have hle := Tiled_le h.tiled
  have hbp := h.base_pos
  refine ⟨by omega, ?_, ?_, ?_⟩
  · intro a ha
    obtain ⟨x, hx, rfl⟩ := mem_of_InChain h ha
    have := Tiled_mem h.tiled x hx
    omega
  · intro h0
    have hh := h.head_eq
    cases l with
    | nil => exact h.tail_eq
    | cons c rest =>
      simp only [nextOr_cons] at hh
      exact absurd (hh ▸ h0) (h.addr_pos c (by simp))
  · intro h0
    rcases list_snoc l with rfl | ⟨pre, a, rfl⟩
    · exact absurd h.head_eq h0
    · have ht := h.tail_eq
      have hseg := h.seg
      simp only [lastOr_append, lastOr_cons, lastOr_nil, Seg_append, Seg_cons, Seg_nil,
        nextOr_nil] at ht hseg
      have hm := Tiled_mem h.tiled a (by simp)
      rw [ht]
      refine ⟨h.addr_pos a (by simp), by omega, ?_⟩
      rw [hseg.2.1]

theorem Heap_ext {s t : Heap} (h1 : ∀ q, s.hdr q = t.hdr q) (h2 : s.data = t.data)
    (h3 : s.head = t.head) (h4 : s.tail = t.tail) (h5 : s.brk = t.brk)
    (h6 : s.limit = t.limit) : s = t := by
  cases s; cases t
  simp only [Heap.mk.injEq] at *
  exact ⟨funext h1, h2, h3, h4, h5, h6⟩

theorem append_unlink (s : Heap) (B n : Nat) (h0 : s.head = 0 → s.tail = 0)
    (h1 : s.head ≠ 0 → s.tail ≠ 0 ∧ s.tail ≠ s.brk ∧ (s.hdr s.tail).next = 0) :
    (append_block { s with brk := B } s.brk n).hdr s.brk = ⟨n, false, 0, s.tail⟩ ∧
    unlink_tail (append_block { s with brk := B } s.brk n) s.brk
      = { s with brk := B, hdr := upd s.hdr s.brk ⟨n, false, 0, s.tail⟩ } := by
  by_cases hh : s.head = 0
  · have ht := h0 hh
    have e1 : (append_block { s with brk := B } s.brk n).hdr s.brk = ⟨n, false, 0, s.tail⟩ := by
      simp [append_block, hh]
    refine ⟨e1, ?_⟩
    unfold unlink_tail
    rw [e1, if_neg (by simp [ht])]
    apply Heap_ext
    · intro q
      by_cases hq : q = s.brk <;> simp [append_block, hh, hq]
    all_goals simp [append_block, hh, ht]
  · obtain ⟨ht, htb, htn⟩ := h1 hh
    have htb' : s.brk ≠ s.tail := fun e => htb e.symm
    have e1 : (append_block { s with brk := B } s.brk n).hdr s.brk = ⟨n, false, 0, s.tail⟩ := by
      simp [append_block, hh, htb']
    refine ⟨e1, ?_⟩
    unfold unlink_tail
    rw [e1, if_pos (by simpa using ht)]
    apply Heap_ext
    · intro q
      by_cases hq : q = s.tail
      · subst hq
        simp only [set_next_hdr, if_true, upd_apply, htb, if_false]
        have : (append_block { s with brk := B } s.brk n).hdr s.tail
            = { s.hdr s.tail with next := s.brk } := by
          simp [append_block, hh, htb]
        rw [this]
        cases hx : s.hdr s.tail
        rw [hx] at htn
        simp only at htn
        simp [htn]
      · by_cases hq2 : q = s.brk <;> simp [append_block, hh, hq, hq2, htb, htb']
    all_goals simp [append_block, hh, ht]

theorem InChain_congr {s t : Heap} (hh : t.head = s.head)
    (hd : ∀ a, InChain s a → t.hdr a = s.hdr a) : ∀ a, InChain s a → InChain t a := by
  intro a ha
  induction ha with
  | head hz =>
    rw [← hh]
    exact InChain.head (by rw [hh]; exact hz)
  | next hc hz ih =>
    rw [← hd _ hc]
    exact InChain.next ih (by rw [hd _ hc]; exact hz)

theorem InChain_congr_iff {s t : Heap} (hh : t.head = s.head)
    (hd : ∀ a, InChain s a → t.hdr a = s.hdr a) (a : Nat) : InChain t a ↔ InChain s a := by
  constructor
  · intro ha
    induction ha with
    | head hz =>
      rw [hh]
      exact InChain.head (by rw [← hh]; exact hz)
    | next hc hz ih =>
      rw [hd _ ih] at hz ⊢
      exact InChain.next ih hz
  · exact InChain_congr hh hd a

/-! ## Live allocations do not overlap -/

theorem Tracks_filter {l l1 : List Blk} {L : List (Nat × Nat)} {b : Blk}
    (ht : Tracks l L)
    (hmem : ∀ x : Blk, x.free = false → (x ∈ l1 ↔ x ∈ l ∧ x.addr ≠ b.addr)) :
    Tracks l1 (L.filter (fun e => decide (e.1 ≠ b.addr + headerSize))) := by
  constructor
  · intro e he
    simp only [List.mem_filter, decide_eq_true_eq] at he
    obtain ⟨x, hx, hxf, hxa, hxs⟩ := ht.1 e he.1
    exact ⟨x, (hmem x hxf).2 ⟨hx, fun h => he.2 (by rw [hxa, h])⟩, hxf, hxa, hxs⟩
  · exact (ht.2.sublist (List.Sublist.map _ (List.filter_sublist _)))

theorem Tracks_cons {l l1 : List Blk} {L : List (Nat × Nat)} {bq : Blk} {n : Nat}
    (ht : Tracks l L) (hbq : bq ∈ l1) (hbqf : bq.free = false) (hn : n ≤ bq.size)
    (hpres : ∀ x ∈ l, x.free = false → x ∈ l1 ∧ x.addr ≠ bq.addr) :
    Tracks l1 ((bq.addr + headerSize, n) :: L) := by
  constructor
  · intro e he
    rcases List.mem_cons.1 he with rfl | he
    · exact ⟨bq, hbq, hbqf, rfl, hn⟩
    · obtain ⟨x, hx, hxf, hxa, hxs⟩ := ht.1 e he
      exact ⟨x, (hpres x hx hxf).1, hxf, hxa, hxs⟩
  · simp only [List.map_cons, List.nodup_cons]
    refine ⟨?_, ht.2⟩
    intro hin
    obtain ⟨e, he, hee⟩ := List.mem_map.1 hin
    obtain ⟨x, hx, hxf, hxa, -⟩ := ht.1 e he
    have := (hpres x hx hxf).2
    omega

theorem Tracks_malloc {s s1 : Heap} {base fuel n p : Nat} {l : List Blk}
    {L : List (Nat × Nat)} (h : InvL s base l) (ht : Tracks l L)
    (hsz : n + headerSize < 2 ^ 63) (hm : my_malloc fuel s n = some (p, s1)) :
    ∃ l1, InvL s1 base l1 ∧ Tracks l1 (if p = 0 then L else (p, n) :: L) ∧
      (∀ x ∈ l, x.free = false → x ∈ l1) := by
  rcases my_malloc_outcome h hsz hm with ⟨rfl, rfl⟩
    | ⟨-, l1, bq, hinv, hbq, hbqf, rfl, hbqn, hpres, -⟩
  · exact ⟨l, h, by simpa using ht, fun x hx _ => hx⟩
  · refine ⟨l1, hinv, ?_, fun x hx hxf => (hpres x hx hxf).1⟩
    have hH := headerSize_eq
    rw [if_neg (by omega)]
    exact Tracks_cons ht hbq hbqf hbqn hpres

theorem Tracks_add {l : List Blk} {L : List (Nat × Nat)} {b : Blk} {n : Nat}
    (ht : Tracks l L) (hb : b ∈ l) (hbf : b.free = false) (hn : n ≤ b.size) :
    Tracks l ((b.addr + headerSize, n)
      :: L.filter (fun e => decide (e.1 ≠ b.addr + headerSize))) := by
  constructor
  · intro e he
    rcases List.mem_cons.1 he with rfl | he
    · exact ⟨b, hb, hbf, rfl, hn⟩
    · simp only [List.mem_filter, decide_eq_true_eq] at he
      exact ht.1 e he.1
  · simp only [List.map_cons, List.nodup_cons]
    refine ⟨?_, ht.2.sublist (List.Sublist.map _ (List.filter_sublist _))⟩
    intro hin
    obtain ⟨e, he, hee⟩ := List.mem_map.1 hin
    simp only [List.mem_filter, decide_eq_true_eq] at he
    exact he.2 hee

theorem Tracks_calloc {s s1 : Heap} {base fuel num nsize p : Nat} {l : List Blk}
    {L : List (Nat × Nat)} (h : InvL s base l) (ht : Tracks l L)
    (hsz : num * nsize + headerSize < 2 ^ 63)
    (hm : my_calloc fuel s num nsize = some (p, s1)) :
    ∃ l1, InvL s1 base l1 ∧ Tracks l1 (if p = 0 then L else (p, num * nsize) :: L) := by
  have hH := headerSize_eq
  by_cases hz : num = 0 ∨ nsize = 0
  · unfold my_calloc at hm
    rw [if_pos hz] at hm
    simp only [Option.some.injEq, Prod.mk.injEq] at hm
    obtain ⟨rfl, rfl⟩ := hm
    exact ⟨l, h, by simpa using ht⟩
  · have h1 : 0 < num := by omega
    have h2 : 0 < nsize := by omega
    rw [my_calloc_delegates fuel s h1 h2 (by unfold SIZE_MAX; omega)] at hm
    cases hg : my_malloc fuel s (num * nsize) with
    | none => rw [hg] at hm; simp at hm
    | some r =>
      obtain ⟨q, s2⟩ := r
      rw [hg] at hm
      simp only [Option.map_some', Option.some.injEq] at hm
      obtain ⟨l1, hinv, htr, -⟩ := Tracks_malloc h ht hsz hg
      by_cases hq : q = 0
      · rw [if_pos hq] at hm
        simp only [Prod.mk.injEq] at hm
        obtain ⟨rfl, rfl⟩ := hm
        rw [if_pos hq] at htr
        exact ⟨l1, hinv, by simpa using htr⟩
      · rw [if_neg hq] at hm
        simp only [Prod.mk.injEq] at hm
        obtain ⟨rfl, rfl⟩ := hm
        have htr1 := htr
        rw [if_neg hq] at htr1
        obtain ⟨bq, hbq, -, hqa, hqn⟩ := htr1.1 (q, num * nsize) (List.mem_cons_self _ _)
        simp only at hqa hqn
        subst hqa
        exact ⟨l1, (InvL_memset hinv hbq hqn 0).1, htr⟩

theorem Tracks_free {s s1 : Heap} {base fuel p m : Nat} {l : List Blk}
    {L : List (Nat × Nat)} (h : InvL s base l) (ht : Tracks l L) (hp : (p, m) ∈ L)
    (hm : my_free fuel s p = some s1) :
    ∃ l1, InvL s1 base l1 ∧ Tracks l1 (L.filter (fun e => decide (e.1 ≠ p))) := by
  obtain ⟨b, hb, hbf, hba, -⟩ := ht.1 _ hp
  simp only at hba
  subst hba
  obtain ⟨l1, hinv, hmem, -⟩ := my_free_outcome h hb hbf hm
  exact ⟨l1, hinv, Tracks_filter ht hmem⟩

theorem Tracks_realloc {s s1 : Heap} {base fuel p m n q : Nat} {l : List Blk}
    {L : List (Nat × Nat)} (h : InvL s base l) (ht : Tracks l L) (hp : (p, m) ∈ L)
    (hsz : n + headerSize < 2 ^ 63) (hm : my_realloc fuel s p n = some (q, s1)) :
    ∃ l1, InvL s1 base l1 ∧
      Tracks l1 (if n = 0 then L.filter (fun e => decide (e.1 ≠ p))
        else if q = 0 then L else (q, n) :: L.filter (fun e => decide (e.1 ≠ p))) := by
  have hH := headerSize_eq
  obtain ⟨b, hb, hbf, hba, -⟩ := ht.1 _ hp
  simp only at hba
  subst hba
  have hblt := h.str.lt b hb
  have hbd := hdr_of_mem h.str hb
  have e0 : usub (b.addr + headerSize) headerSize = b.addr := by
    rw [usub_eq (by omega) (by omega)]; omega
  unfold my_realloc at hm
  rw [if_neg (by omega)] at hm
  by_cases hn : n = 0
  · rw [if_pos hn] at hm
    rw [if_pos hn]
    cases hg : my_free fuel s (b.addr + headerSize) with
    | none => rw [hg] at hm; simp at hm
    | some s2 =>
      rw [hg] at hm
      simp only [Option.map_some', Option.some.injEq, Prod.mk.injEq] at hm
      obtain ⟨-, rfl⟩ := hm
      exact Tracks_free h ht hp hg
  · rw [if_neg hn] at hm
    rw [if_neg hn]
    simp only [e0] at hm
    by_cases hfit : (s.hdr b.addr).size ≥ n
    · rw [if_pos hfit] at hm
      simp only [Option.some.injEq, Prod.mk.injEq] at hm
      obtain ⟨rfl, rfl⟩ := hm
      rw [if_neg (by omega)]
      exact ⟨l, h, Tracks_add ht hb hbf (by rw [← hbd.1]; exact hfit)⟩
    · rw [if_neg hfit] at hm
      cases hg : my_malloc fuel s n with
      | none => rw [hg] at hm; simp at hm
      | some r =>
        obtain ⟨ret, s2⟩ := r
        rw [hg] at hm
        simp only at hm
        obtain ⟨l1, hinv, htr, hkeep⟩ := Tracks_malloc h ht hsz hg
        by_cases hret : ret = 0
        · rw [if_neg (by simpa using hret)] at hm
          simp only [Option.some.injEq, Prod.mk.injEq] at hm
          obtain ⟨rfl, rfl⟩ := hm
          rw [if_pos hret] at htr ⊢
          exact ⟨l1, hinv, htr⟩
        · rw [if_pos (by simpa using hret)] at hm
          rw [if_neg hret] at htr
          cases hg2 : my_free fuel
              (memcpy s2 ret (b.addr + headerSize) (s2.hdr b.addr).size)
              (b.addr + headerSize) with
          | none => rw [hg2] at hm; simp at hm
          | some s3 =>
            rw [hg2] at hm
            simp only [Option.map_some', Option.some.injEq, Prod.mk.injEq] at hm
            obtain ⟨rfl, rfl⟩ := hm
            rw [if_neg hret]
            have hp2 : (b.addr + headerSize, m) ∈ (ret, n) :: L := List.mem_cons_of_mem _ hp
            obtain ⟨l2, hinv2, htr2⟩ := Tracks_free (InvL_data _ hinv) htr hp2 hg2
            refine ⟨l2, hinv2, ?_⟩
            have hne : ret ≠ b.addr + headerSize := by
              intro he
              have hnd := htr.2
              simp only [List.map_cons, List.nodup_cons] at hnd
              exact hnd.1 (he ▸ List.mem_map.2 ⟨_, hp, rfl⟩)
            simpa [List.filter_cons, hne] using htr2

/-- In every run of the allocator the heap satisfies the invariant and every live handle
is the payload of a used block of the chain that holds the bytes requested for it. -/
theorem Run.tracks {s : Heap} {L : List (Nat × Nat)} (h : Run s L) :
    ∃ base l, InvL s base l ∧ Tracks l L := by
  induction h with
  | init hdr data b0 L h0 hle hL =>
    exact ⟨b0, [], ⟨⟨h0, trivial, rfl, rfl, trivial, rfl, hle, hL⟩, trivial⟩,
      by simp, by simp⟩
  | malloc _ hsz hm ih =>
    obtain ⟨base, l, h, ht⟩ := ih
    obtain ⟨l1, hinv, htr, -⟩ := Tracks_malloc h ht hsz hm
    exact ⟨base, l1, hinv, htr⟩
  | calloc _ hsz hm ih =>
    obtain ⟨base, l, h, ht⟩ := ih
    obtain ⟨l1, hinv, htr⟩ := Tracks_calloc h ht hsz hm
    exact ⟨base, l1, hinv, htr⟩
  | realloc _ hp hsz hm ih =>
    obtain ⟨base, l, h, ht⟩ := ih
    obtain ⟨l1, hinv, htr⟩ := Tracks_realloc h ht hp hsz hm
    exact ⟨base, l1, hinv, htr⟩
  | free _ hp hm ih =>
    obtain ⟨base, l, h, ht⟩ := ih
    obtain ⟨l1, hinv, htr⟩ := Tracks_free h ht hp hm
    exact ⟨base, l1, hinv, htr⟩
  | write d _ ih =>
    obtain ⟨base, l, h, ht⟩ := ih
    exact ⟨base, l, InvL_data d h, ht⟩

theorem Tiled_disjoint {base : Nat} {l : List Blk} (h : Tiled base l) {x y : Blk}
    (hx : x ∈ l) (hy : y ∈ l) (hne : x.addr ≠ y.addr) :
    x.addr + headerSize + x.size ≤ y.addr ∨ y.addr + headerSize + y.size ≤ x.addr := by
  induction l generalizing base with
  | nil => simp at hx
  | cons c rest ih =>
    simp only [Tiled_cons] at h
    rcases List.mem_cons.1 hx with rfl | hx1
    · rcases List.mem_cons.1 hy with rfl | hy1
      · exact absurd rfl hne
      · have := Tiled_mem h.2.2 y hy1
        left; omega
    · rcases List.mem_cons.1 hy with rfl | hy1
      · have := Tiled_mem h.2.2 x hx1
        right; omega
      · exact ih h.2.2 hx1 hy1

/-- Non-overlap of the live allocations for requests of at most `PTRDIFF_MAX` bytes
(header included): in every run, the payload region `[p, p + n)` of every live handle
is not null and lies below the break, and the regions of two live handles are
disjoint. -/
theorem live_regions_disjoint {s : Heap} {L : List (Nat × Nat)} (h : Run s L) :
    (∀ e ∈ L, e.1 ≠ 0 ∧ e.1 + e.2 ≤ s.brk) ∧
    L.Pairwise (fun e e1 => e.1 + e.2 ≤ e1.1 ∨ e1.1 + e1.2 ≤ e.1) := by
  have hH := headerSize_eq
  obtain ⟨base, l, hinv, ht⟩ := h.tracks
  constructor
  · intro e he
    obtain ⟨b, hb, -, hba, hbs⟩ := ht.1 e he
    have := Tiled_mem hinv.str.tiled b hb
    have := hinv.str.brk_eq
    omega
  · have hnd : L.Pairwise (fun e e1 => e.1 ≠ e1.1) := List.pairwise_map.1 ht.2
    have hall : L.Pairwise (fun e e1 => e ∈ L ∧ e1 ∈ L) := by
      rw [List.pairwise_iff_forall_sublist]
      intro a b hab
      have := hab.subset
      exact ⟨this (by simp), this (by simp)⟩
    refine (hnd.and hall).imp ?_
    rintro e e1 ⟨hne, he, he1⟩
    obtain ⟨b, hb, -, hba, hbs⟩ := ht.1 e he
    obtain ⟨b1, hb1, -, hba1, hbs1⟩ := ht.1 e1 he1
    have := Tiled_disjoint hinv.str.tiled hb hb1 (by omega)
    omega

/-- With requests of at most `PTRDIFF_MAX` bytes, `my_malloc(n)` for `n > 0` returns, and
its result is not null when the break may grow by the block. -/
theorem my_malloc_nonnull {s : Heap} {L : List (Nat × Nat)} {n : Nat} (h : Run s L)
    (hn : 0 < n) (hsz : n + headerSize < 2 ^ 63) (hfit : s.brk + headerSize + n ≤ s.limit) :
    ∃ N, ∀ fuel, N ≤ fuel → ∃ p s1, my_malloc fuel s n = some (p, s1) ∧ p ≠ 0 := by
  have hH := headerSize_eq
  obtain ⟨base, l, hinv, -⟩ := h.tracks
  refine ⟨l.length + 1, fun fuel hf => ?_⟩
  rcases list_first_fit (fun x : Blk => x.free = true ∧ n ≤ x.size) l with hno
    | ⟨pre, b, post, rfl, hpre, hb⟩
  · rcases @my_malloc_nofit s base n fuel l hinv hn hsz hno (by omega) with
      ⟨hlim, -⟩ | ⟨-, he, -⟩
    · omega
    · refine ⟨_, _, he, ?_⟩
      omega
  · obtain ⟨he, -⟩ := @my_malloc_reuse s base n fuel pre post b hinv hn hpre hb
      (by simp only [List.length_append, List.length_cons] at hf; omega)
    refine ⟨_, _, he, ?_⟩
    omega

/-! ## Lemmas: walks and sums over the chain -/

theorem mal_walk {s : Heap} :
    ∀ {l : List Nat} {c fuel total : Nat}, Walk s.hdr c l → l.length < fuel →
      total < 2 ^ 64 →
      mem_available_loop s fuel c total = some ((total + free_bytes s l) % 2 ^ 64) := by
  intro l
  induction l with
  | nil =>
    intro c fuel total hw hf ht
    cases fuel with
    | zero => simp at hf
    | succ f =>
      simp only [Walk] at hw
      simp only [mem_available_loop, hw, if_true, free_bytes, Nat.add_zero]
      rw [Nat.mod_eq_of_lt ht]
  | cons x l ih =>
    intro c fuel total hw hf ht
    cases fuel with
    | zero => simp at hf
    | succ f =>
      obtain ⟨hc, rfl, hw1⟩ := hw
      simp only [List.length_cons, Nat.add_lt_add_iff_right] at hf
      simp only [mem_available_loop, hc, if_false]
      by_cases hfree : (s.hdr x).is_free = true
      · rw [if_pos hfree, ih hw1 hf (by unfold uadd; exact Nat.mod_lt _ (by norm_num))]
        simp only [free_bytes, if_pos hfree, uadd]
        congr 1
        omega
      · rw [if_neg hfree, ih hw1 hf ht]
        simp only [free_bytes, if_neg hfree]
        congr 1
        omega

theorem Walk_of_Seg {hdr : Nat → header_t} :
    ∀ {l : List Blk} {p : Nat}, Seg hdr p l 0 → (∀ b ∈ l, b.addr ≠ 0) →
      Walk hdr (nextOr l 0) (l.map Blk.addr) := by
  intro l
  induction l with
  | nil => intro p _ _; simp [Walk]
  | cons b rest ih =>
    intro p hs hz
    simp only [Seg_cons] at hs
    simp only [nextOr_cons, List.map_cons, Walk]
    refine ⟨hz b (by simp), trivial, ?_⟩
    rw [hs.1]
    exact ih hs.2 (fun x hx => hz x (by simp [hx]))

theorem Walk_unique {hdr : Nat → header_t} :
    ∀ {l l1 : List Nat} {a : Nat}, Walk hdr a l → Walk hdr a l1 → l = l1 := by
  intro l
  induction l with
  | nil =>
    intro l1 a h h1
    cases l1 with
    | nil => rfl
    | cons y l1 =>
      simp only [Walk] at h h1
      exact absurd h h1.1
  | cons x l ih =>
    intro l1 a h h1
    cases l1 with
    | nil =>
      simp only [Walk] at h h1
      exact absurd h1 h.1
    | cons y l1 =>
      simp only [Walk] at h h1
      obtain ⟨-, rfl, hw⟩ := h
      obtain ⟨-, rfl, hw1⟩ := h1
      rw [ih hw hw1]

theorem Str.walk {s : Heap} {base : Nat} {l : List Blk} (h : Str s base l) :
    Walk s.hdr s.head (l.map Blk.addr) := by
  rw [h.head_eq]
  exact Walk_of_Seg h.seg h.addr_pos

theorem chain_bytes_tend {s : Heap} :
    ∀ {l : List Blk} {p e a : Nat}, Seg s.hdr p l e → Tiled a l →
      chain_bytes s (l.map Blk.addr) + a = tend a l := by
  intro l
  induction l with
  | nil => intro p e a _ _; simp [chain_bytes]
  | cons b rest ih =>
    intro p e a hs ht
    simp only [Seg_cons] at hs
    simp only [Tiled_cons] at ht
    have := ih hs.2 ht.2.2
    simp only [List.map_cons, chain_bytes, tend_cons, hs.1]
    rw [ht.1]
    omega

theorem free_bytes_add_le (s : Heap) (l : List Nat) :
    free_bytes s l + headerSize * l.length ≤ chain_bytes s l := by
  induction l with
  | nil => simp [free_bytes, chain_bytes]
  | cons a l ih =>
    simp only [free_bytes, chain_bytes, List.length_cons, Nat.mul_succ]
    split <;> omega

theorem gfb_fits {s : Heap} {n : Nat} :
    ∀ {fuel c a : Nat}, get_free_block_loop s n fuel c = some a → a ≠ 0 → Fits s n a := by
  intro fuel
  induction fuel with
  | zero => intro c a h; simp [get_free_block_loop] at h
  | succ f ih =>
    intro c a h ha
    simp only [get_free_block_loop] at h
    by_cases hc : c = 0
    · rw [if_pos hc] at h
      simp only [Option.some.injEq] at h
      exact absurd h.symm ha
    · rw [if_neg hc] at h
      by_cases hfit : (s.hdr c).is_free = true ∧ n ≤ (s.hdr c).size
      · rw [if_pos hfit] at h
        simp only [Option.some.injEq] at h
        subst h
        exact hfit
      · rw [if_neg hfit] at h
        exact ih h ha

theorem heap3_walk : Walk heap3.hdr heap3.head [4096, 4228, 4310] :=
  ⟨by decide, rfl, by decide, rfl, by decide, rfl, rfl⟩

theorem Laid_chain_bytes {s : Heap} {e : Nat} :
    ∀ {l : List Nat} {a : Nat}, Laid s.hdr e (a :: l) → a + chain_bytes s (a :: l) ≤ e := by
  intro l
  induction l with
  | nil =>
    intro a h
    simp only [Laid, List.headD_nil] at h
    simp only [chain_bytes]
    omega
  | cons b r ih =>
    intro a h
    simp only [Laid, List.headD_cons] at h
    have := @ih b (by simp only [Laid]; exact h.2)
    simp only [chain_bytes] at this ⊢
    omega

theorem Laid_of_Seg {hdr : Nat → header_t} :
    ∀ {l : List Blk} {p a : Nat}, Seg hdr p l 0 → Tiled a l →
      Laid hdr (tend a l) (l.map Blk.addr) := by
  intro l
  induction l with
  | nil => intro p a _ _; simp [Laid]
  | cons b rest ih =>
    intro p a hs ht
    simp only [Seg_cons] at hs
    simp only [Tiled_cons] at ht
    simp only [List.map_cons, Laid, tend_cons, hs.1]
    rw [ht.1]
    refine ⟨?_, ih hs.2 ht.2.2⟩
    cases rest with
    | nil => simp
    | cons c r =>
      simp only [Tiled_cons] at ht
      simp only [List.map_cons, List.headD_cons]
      omega

theorem Laid_mono {hdr : Nat → header_t} {e e1 : Nat} (hle : e ≤ e1) :
    ∀ {l : List Nat}, Laid hdr e l → Laid hdr e1 l := by
  intro l
  induction l with
  | nil => intro _; trivial
  | cons a l ih =>
    intro h
    simp only [Laid] at h ⊢
    refine ⟨?_, ih h.2⟩
    cases l with
    | nil => simp only [List.headD_nil] at h ⊢; omega
    | cons b r => simpa using h.1

theorem heap3_laid : Laid heap3.hdr (2 ^ 64) [4096, 4228, 4310] :=
  ⟨by decide, by decide, by decide, trivial⟩

/-! ## Lemmas: the layout of the chain -/

theorem PrevLinks_of_Seg {hdr : Nat → header_t} :
    ∀ {l : List Blk} {p e : Nat}, Seg hdr p l e → PrevLinks hdr p (l.map Blk.addr) := by
  intro l
  induction l with
  | nil => intro p e _; simp [PrevLinks]
  | cons b rest ih =>
    intro p e hs
    simp only [Seg_cons] at hs
    simp only [List.map_cons, PrevLinks]
    exact ⟨by rw [hs.1], ih hs.2⟩

theorem lastOr_eq_getLastD : ∀ (l : List Blk) (p : Nat),
    lastOr p l = (l.map Blk.addr).getLastD p := by
  intro l
  induction l with
  | nil => intro p; rfl
  | cons b rest ih =>
    intro p
    rw [lastOr_cons, ih]
    cases rest with
    | nil => rfl
    | cons c rest => simp [List.getLastD]

theorem Tiled_pairwise : ∀ {l : List Blk} {a : Nat}, Tiled a l →
    (l.map Blk.addr).Pairwise (fun x y => x < y) := by
  intro l
  induction l with
  | nil => intro a _; simp
  | cons b rest ih =>
    intro a h
    simp only [Tiled_cons] at h
    simp only [List.map_cons, List.pairwise_cons, List.mem_map, forall_exists_index, and_imp,
      forall_apply_eq_imp_iff₂]
    refine ⟨fun x hx => ?_, ih h.2.2⟩
    have := (Tiled_mem h.2.2 x hx).1
    have hH := headerSize_eq
    omega

theorem le_lastOr : ∀ {l : List Blk} {a p : Nat}, Tiled a l → p ≤ a → p ≤ lastOr p l := by
  intro l
  induction l with
  | nil => intro a p _ _; simp
  | cons b rest ih =>
    intro a p h hp
    simp only [Tiled_cons] at h
    rw [lastOr_cons]
    have := @ih (a + headerSize + b.size) b.addr h.2.2 (by omega)
    omega

theorem Tiled_le_last : ∀ {l : List Blk} {a p : Nat}, Tiled a l →
    ∀ b ∈ l, b.addr ≤ lastOr p l := by
  intro l
  induction l with
  | nil => intro a p _ b hb; simp at hb
  | cons c rest ih =>
    intro a p h b hb
    simp only [Tiled_cons] at h
    rw [lastOr_cons]
    rcases List.mem_cons.1 hb with rfl | hb
    · exact le_lastOr h.2.2 (by omega)
    · exact ih h.2.2 b hb

theorem InChain_iff_mem {s : Heap} {base : Nat} {l : List Blk} (h : Str s base l) (a : Nat) :
    InChain s a ↔ a ∈ l.map Blk.addr := by
  constructor
  · intro hc
    obtain ⟨b, hb, rfl⟩ := mem_of_InChain h hc
    exact List.mem_map_of_mem _ hb
  · intro ha
    obtain ⟨b, hb, rfl⟩ := List.mem_map.1 ha
    obtain ⟨pre, post, hl⟩ := List.append_of_mem hb
    exact InChain_of_mem h pre b post hl

/-- The header of a block of the chain, and where the block ends. -/
theorem Str.block_facts {s : Heap} {base : Nat} {l : List Blk} (h : Str s base l)
    {b : Blk} (hb : b ∈ l) :
    (s.hdr b.addr).size = b.size ∧ (s.hdr b.addr).is_free = b.free ∧
    1 ≤ b.size ∧ base ≤ b.addr ∧ b.addr + headerSize + b.size ≤ s.brk ∧
    ((s.hdr b.addr).next ≠ 0 → b.addr + headerSize + b.size = (s.hdr b.addr).next) ∧
    ((s.hdr b.addr).next = 0 ↔ b.addr + headerSize + b.size = s.brk) ∧
    ((s.hdr b.addr).next = 0 ↔ s.tail = b.addr) := by
  have hH := headerSize_eq
  obtain ⟨pre, post, rfl⟩ := List.append_of_mem hb
  have hseg := h.seg
  have hbrk := h.brk_eq
  have htl := h.tiled
  have htail := h.tail_eq
  have hm := Tiled_mem h.tiled b hb
  simp only [Seg_append, Seg_cons, tend_append, tend_cons, Tiled_append, Tiled_cons,
    lastOr_append, lastOr_cons] at hseg hbrk htl htail
  have hhb := hseg.2.1
  rw [hhb]
  refine ⟨rfl, rfl, hm.2.2, hm.1, by rw [h.brk_eq]; exact hm.2.1, ?_⟩
  cases post with
  | nil =>
    simp only [nextOr_nil, tend_nil, lastOr_nil] at hbrk htail ⊢
    refine ⟨fun hc => absurd rfl hc, ?_, ?_⟩
    · simp only [true_iff]; omega
    · simp only [true_iff]; exact htail
  | cons c rest =>
    have hc := h.addr_pos c (by simp)
    have hle := Tiled_le htl.2.2.2
    simp only [Tiled_cons] at htl
    have hlast := @le_lastOr rest _ c.addr htl.2.2.2.2.2 (by omega)
    simp only [nextOr_cons, tend_cons, lastOr_cons] at hbrk htail hle ⊢
    have hcm := Tiled_mem h.tiled c (by simp)
    have hbrk2 := h.brk_eq
    refine ⟨fun _ => by omega, ⟨fun h0 => absurd h0 hc, fun he => by omega⟩,
      fun h0 => absurd h0 hc, fun he => by omega⟩

theorem mergeNext_head (b : Blk) (post : List Blk) :
    ∃ b1 post1, mergeNext b post = b1 :: post1 ∧ b1.addr = b.addr ∧ b1.free = true ∧
      b.size ≤ b1.size := by
  cases post with
  | nil => exact ⟨_, _, rfl, rfl, rfl, Nat.le_refl _⟩
  | cons c rest =>
    by_cases hc : c.free = true
    · exact ⟨⟨b.addr, b.size + headerSize + c.size, true⟩, rest, by simp [mergeNext, hc],
        rfl, rfl, by simp only []; omega⟩
    · exact ⟨⟨b.addr, b.size, true⟩, c :: rest, by simp [mergeNext, hc], rfl, rfl,
        Nat.le_refl _⟩

/-- After coalescing, a free block of the chain covers the block that was freed. -/
theorem coalesced_covers {base : Nat} {pre post : List Blk} {b : Blk}
    (h : Tiled base (pre ++ b :: post)) :
    ∃ x ∈ coalesced pre b post, x.free = true ∧ x.addr ≤ b.addr ∧
      b.addr + headerSize + b.size ≤ x.addr + headerSize + x.size := by
  obtain ⟨b1, post1, hmn, ha, hf, hsz⟩ := mergeNext_head b post
  unfold coalesced
  rw [hmn]
  rcases list_snoc pre with rfl | ⟨pre1, a, rfl⟩
  · rw [mergePrev_nil]
    exact ⟨b1, by simp, hf, by omega, by omega⟩
  · rw [mergePrev_snoc]
    simp only [Tiled_append, Tiled_cons, Tiled_nil, tend_append, tend_cons, tend_nil] at h
    by_cases hfa : a.free = true
    · rw [if_pos hfa]
      refine ⟨⟨a.addr, a.size + headerSize + b1.size, true⟩, by simp, rfl, ?_, ?_⟩
      · simp only []; omega
      · simp only []; omega
    · rw [if_neg hfa]
      exact ⟨b1, by simp, hf, by omega, by omega⟩

/-! ## Lemmas: calls on the chain -/

theorem gfb_in_chain {s : Heap} {n : Nat} :
    ∀ {fuel c a : Nat}, (c ≠ 0 → InChain s c) → get_free_block_loop s n fuel c = some a →
      a ≠ 0 → InChain s a := by
  intro fuel
  induction fuel with
  | zero => intro c a _ h; simp [get_free_block_loop] at h
  | succ f ih =>
    intro c a hc h ha
    simp only [get_free_block_loop] at h
    by_cases hc0 : c = 0
    · rw [if_pos hc0] at h
      simp only [Option.some.injEq] at h
      exact absurd h.symm ha
    · rw [if_neg hc0] at h
      by_cases hfit : (s.hdr c).is_free = true ∧ n ≤ (s.hdr c).size
      · rw [if_pos hfit] at h
        simp only [Option.some.injEq] at h
        subst h
        exact hc hc0
      · rw [if_neg hfit] at h
        exact ih (fun hne => InChain.next (hc hc0) hne) h ha

theorem coalesce_forward_brk {b : Nat} :
    ∀ {fuel : Nat} {s s1 : Heap}, coalesce_forward b fuel s = some s1 →
      s1.brk = s.brk ∧ s1.head = s.head := by
  intro fuel
  induction fuel with
  | zero => intro s s1 h; simp [coalesce_forward] at h
  | succ f ih =>
    intro s s1 h
    simp only [coalesce_forward] at h
    split at h
    · obtain ⟨h1, h2⟩ := ih h
      rw [h1, h2]
      split <;> exact ⟨rfl, rfl⟩
    · simp only [Option.some.injEq] at h
      subst h
      exact ⟨rfl, rfl⟩

theorem coalesce_backward_brk (s : Heap) (b : Nat) :
    (coalesce_backward s b).brk = s.brk ∧ (coalesce_backward s b).head = s.head := by
  unfold coalesce_backward
  split
  · simp only []
    split <;> exact ⟨rfl, rfl⟩
  · exact ⟨rfl, rfl⟩

theorem coalesce_brk {fuel b : Nat} {s s1 : Heap} (h : coalesce fuel s b = some s1) :
    s1.brk = s.brk ∧ s1.head = s.head := by
  unfold coalesce at h
  cases hf : coalesce_forward b fuel s with
  | none => rw [hf] at h; simp at h
  | some s2 =>
    rw [hf] at h
    simp only [Option.map_some', Option.some.injEq] at h
    subst h
    obtain ⟨h1, h2⟩ := coalesce_forward_brk hf
    obtain ⟨h3, h4⟩ := coalesce_backward_brk s2 b
    exact ⟨by rw [h3, h1], by rw [h4, h2]⟩

/-- The second branch of `my_free`: a used block that does not end at the break is
marked free and coalesced. -/
theorem my_free_not_at_break (fuel : Nat) (s : Heap) (a : Nat)
    (hend : a + headerSize + (s.hdr a).size < 2 ^ 64)
    (hu : (s.hdr a).is_free = false) (hne : a + headerSize + (s.hdr a).size ≠ s.brk) :
    my_free fuel s (a + headerSize) = coalesce fuel (set_is_free s a true) a := by
  have hH := headerSize_eq
  have e0 : usub (a + headerSize) headerSize = a := by
    rw [usub_eq (by omega) (by omega)]; omega
  have e1 : uadd (uadd a headerSize) (s.hdr a).size = a + headerSize + (s.hdr a).size := by
    have e : uadd a headerSize = a + headerSize := uadd_eq (by omega)
    rw [e]; exact uadd_eq (by omega)
  unfold my_free
  rw [if_neg (by omega)]
  simp only [e0, hu, Bool.false_eq_true, if_false, sbrk_zero, e1]
  rw [if_neg hne]

theorem my_malloc_reuse_eq {fuel : Nat} {s s1 : Heap} {n a p : Nat} (hn : 0 < n)
    (hg : get_free_block fuel s n = some a) (ha : a ≠ 0)
    (hm : my_malloc fuel s n = some (p, s1)) :
    p = uadd a headerSize ∧ s1 = reuse_state s a n := by
  unfold my_malloc at hm
  rw [if_neg (by omega), hg] at hm
  simp only [ne_eq, ha, not_false_eq_true, if_true, Option.some.injEq, Prod.mk.injEq] at hm
  exact ⟨hm.1.symm, hm.2.symm⟩

/-- In a heap reached by requests in range a block of the chain ends below `2 ^ 63`, and
its successor, if any, begins where it ends. -/
theorem reachable_block_bounds {s : Heap} (hr : ReachableInRange s) {a : Nat}
    (ha : InChain s a) :
    a ≠ 0 ∧ a + headerSize + (s.hdr a).size < 2 ^ 63 ∧
    ((s.hdr a).next = 0 ∨ a + headerSize + (s.hdr a).size = (s.hdr a).next) := by
  obtain ⟨base, l, h⟩ := hr.inv
  obtain ⟨b, hb, rfl⟩ := mem_of_InChain h.str ha
  obtain ⟨h1, -, -, -, -, h6, -⟩ := h.str.block_facts hb
  have := h.str.lt b hb
  refine ⟨h.str.addr_pos b hb, by rw [h1]; exact this, ?_⟩
  by_cases h0 : (s.hdr b.addr).next = 0
  · exact Or.inl h0
  · right
    rw [h1]
    exact h6 h0

theorem not_InChain_of_head_zero {s : Heap} (h : s.head = 0) (a : Nat) : ¬ InChain s a := by
  intro hc
  induction hc with
  | head hz => exact hz h
  | next _ _ ih => exact ih

theorem InChain_two {s : Heap} {a b : Nat} (h1 : s.head = a) (h2 : (s.hdr a).next = b)
    (h3 : (s.hdr b).next = 0) : ∀ x, InChain s x → x = a ∨ x = b := by
  intro x hx
  induction hx with
  | head _ => exact Or.inl h1
  | next _ hz ih =>
    rcases ih with rfl | rfl
    · exact Or.inr h2
    · exact absurd h3 hz

/-! ## Lemmas: the lock -/

@[simp] theorem guarded_nil (h : Bool) : guarded h [] = true := by
  cases h <;> rfl
@[simp] theorem guarded_lock (h : Bool) (t : List Ev) :
    guarded h (Ev.lock :: t) = guarded true t := by
  cases h <;> rfl
@[simp] theorem guarded_unlock (h : Bool) (t : List Ev) :
    guarded h (Ev.unlock :: t) = guarded false t := by
  cases h <;> rfl
@[simp] theorem guarded_rd (f : Field) (t : List Ev) :
    guarded true (Ev.rd f :: t) = guarded true t := rfl
@[simp] theorem guarded_wr (f : Field) (t : List Ev) :
    guarded true (Ev.wr f :: t) = guarded true t := rfl
@[simp] theorem guarded_false_rd (f : Field) (t : List Ev) :
    guarded false (Ev.rd f :: t) = false := rfl

@[simp] theorem acquisitions_nil : acquisitions [] = 0 := rfl
@[simp] theorem acquisitions_lock (t : List Ev) :
    acquisitions (Ev.lock :: t) = acquisitions t + 1 := rfl
@[simp] theorem acquisitions_unlock (t : List Ev) :
    acquisitions (Ev.unlock :: t) = acquisitions t := rfl
@[simp] theorem acquisitions_wr (f : Field) (t : List Ev) :
    acquisitions (Ev.wr f :: t) = acquisitions t := rfl

/-- Chain order and tail (the property of claim C17) in the heaps reached by requests of
at most `PTRDIFF_MAX` bytes with their header.  In such a heap the loop
`for (curr = head; curr; curr = curr->s.next)` ends; the list `l` of the blocks it meets
is the chain, it is strictly increasing in address, the `prev` field of each block is the
block before it (`NULL` for the first), `tail` is the last block of `l` and no block has
a higher address; `head` is `NULL` exactly when the chain is empty, and so is `tail`. -/
theorem chain_order_and_tail (s : Heap) (hr : ReachableInRange s) :
    ∃ l : List Nat, Walk s.hdr s.head l ∧ (∀ a, InChain s a ↔ a ∈ l) ∧
      l.Pairwise (fun a b => a < b) ∧ PrevLinks s.hdr 0 l ∧
      s.tail = l.getLastD 0 ∧ (∀ a ∈ l, a ≤ s.tail) ∧
      (s.head = 0 ↔ l = []) ∧ (s.tail = 0 ↔ l = []) := by
  obtain ⟨base, l0, h⟩ := hr.inv
  have hs := h.str
  refine ⟨l0.map Blk.addr, hs.walk, InChain_iff_mem hs, Tiled_pairwise hs.tiled,
    PrevLinks_of_Seg hs.seg, ?_, ?_, ?_, ?_⟩
  · rw [hs.tail_eq, lastOr_eq_getLastD]
  · intro a ha
    obtain ⟨b, hb, rfl⟩ := List.mem_map.1 ha
    rw [hs.tail_eq]
    exact Tiled_le_last hs.tiled b hb
  · rw [hs.head_eq]
    cases l0 with
    | nil => simp
    | cons c rest =>
      have := hs.addr_pos c (by simp)
      simp [this]
  · rw [hs.tail_eq]
    cases l0 with
    | nil => simp
    | cons c rest =>
      have hc := hs.addr_pos c (by simp)
      have ht := hs.tiled
      simp only [Tiled_cons] at ht
      have := @le_lastOr rest _ c.addr ht.2.2 (by omega)
      simp only [lastOr_cons, List.map_cons, reduceCtorEq, iff_false]
      omega

/-- The chain of `heap3` is in order. -/
theorem chain_order_and_tail_heap3 :
    ReachableInRange heap3 ∧ ∃ l : List Nat, Walk heap3.hdr heap3.head l ∧
      (∀ a, InChain heap3 a ↔ a ∈ l) ∧
      l.Pairwise (fun a b => a < b) ∧ PrevLinks heap3.hdr 0 l ∧
      heap3.tail = l.getLastD 0 ∧ (∀ a ∈ l, a ≤ heap3.tail) ∧
      (heap3.head = 0 ↔ l = []) ∧ (heap3.tail = 0 ↔ l = []) :=
  ⟨heap3_reachable.1, chain_order_and_tail heap3 heap3_reachable.1⟩

/-- Release only at the tail (the property of claim C18) in the heaps reached by requests
of at most `PTRDIFF_MAX` bytes with their header.  In such a heap let `a` be a used block
of the chain.  The block ends at the break exactly when it has no successor, which is
exactly when it is the tail.  `my_free` of its handle returns.  When the block ends at
the break (the release branch), the break comes down by `sizeof(header_t) + size` to `a`,
the chain afterwards is the old chain without `a`, and the other blocks keep their size
and flag.  When the block does not end at the break, `my_free` is `coalesce` on the heap
with the block marked free: the break does not move and a free block of the chain covers
the bytes of the block. -/
theorem release_only_at_tail (s : Heap) (a fuel : Nat) (hr : ReachableInRange s)
    (ha : InChain s a) (hu : (s.hdr a).is_free = false) (hf : 2 ≤ fuel) :
    ((s.hdr a).next = 0 ↔ a + headerSize + (s.hdr a).size = s.brk) ∧
    ((s.hdr a).next = 0 ↔ s.tail = a) ∧
    ∃ s1, my_free fuel s (a + headerSize) = some s1 ∧
      (a + headerSize + (s.hdr a).size = s.brk →
        s1 = { unlink_tail s a with brk := a } ∧
        s1.brk + (headerSize + (s.hdr a).size) = s.brk ∧
        (∀ x, InChain s1 x ↔ InChain s x ∧ x ≠ a) ∧
        (∀ x, InChain s1 x →
          (s1.hdr x).size = (s.hdr x).size ∧ (s1.hdr x).is_free = (s.hdr x).is_free)) ∧
      (a + headerSize + (s.hdr a).size ≠ s.brk →
        some s1 = coalesce fuel (set_is_free s a true) a ∧ s1.brk = s.brk ∧
        ∃ x, InChain s1 x ∧ (s1.hdr x).is_free = true ∧ x ≤ a ∧
          a + headerSize + (s.hdr a).size ≤ x + headerSize + (s1.hdr x).size) := by
  have hH := headerSize_eq
  obtain ⟨base, l0, h⟩ := hr.inv
  have hs := h.str
  obtain ⟨b, hb, rfl⟩ := mem_of_InChain hs ha
  obtain ⟨h1, h2, -, -, -, -, h7, h8⟩ := hs.block_facts hb
  have hbf : b.free = false := by rw [← h2]; exact hu
  have hlt := hs.lt b hb
  rw [h1]
  refine ⟨h7, h8, ?_⟩
  obtain ⟨pre, post, hl⟩ := List.append_of_mem hb
  cases post with
  | nil =>
    subst hl
    have hend : b.addr + headerSize + b.size = s.brk := by
      have := hs.brk_eq
      simp only [tend_append, tend_cons, tend_nil] at this
      have ht := hs.tiled
      simp only [Tiled_append, Tiled_cons] at ht
      omega
    obtain ⟨hfr, hinv⟩ := @my_free_release s base fuel pre b h hbf
    refine ⟨_, hfr, fun _ => ⟨rfl, by simp only []; omega, ?_, ?_⟩, fun hne => absurd hend hne⟩
    · intro x
      rw [InChain_iff_mem hinv.str, InChain_iff_mem hs]
      have hb2 := (mem_split_bounds hs.tiled).1
      simp only [List.map_append, List.map_cons, List.map_nil, List.mem_append,
        List.mem_singleton, List.mem_map]
      constructor
      · rintro ⟨y, hy, rfl⟩
        have := (hb2 y hy).1
        exact ⟨Or.inl ⟨y, hy, rfl⟩, by omega⟩
      · rintro ⟨hx | hx, hne⟩
        · exact hx
        · exact absurd hx hne
    · intro x hx
      obtain ⟨y, hy, rfl⟩ := mem_of_InChain hinv.str hx
      have e1 := hdr_of_mem hinv.str hy
      have e2 := hdr_of_mem hs (show y ∈ pre ++ [b] by simp [hy])
      rw [e1.1, e1.2, e2.1, e2.2]
      exact ⟨rfl, rfl⟩
  | cons c rest =>
    subst hl
    have hne : b.addr + headerSize + b.size ≠ s.brk := by
      intro he
      have := h7.2 he
      have hseg := hs.seg
      simp only [Seg_append, Seg_cons, nextOr_cons] at hseg
      rw [hseg.2.1] at this
      exact hs.addr_pos c (by simp) this
    obtain ⟨s1, hfr, hinv, hbrk, -⟩ := @my_free_merge s base fuel pre rest b c h hbf hf
    refine ⟨s1, hfr, fun he => absurd he hne, fun _ => ⟨?_, hbrk, ?_⟩⟩
    · rw [← hfr]
      exact my_free_not_at_break fuel s b.addr (by rw [h1]; omega) hu (by rw [h1]; exact hne)
    · obtain ⟨x, hx, hxf, hx1, hx2⟩ := coalesced_covers hs.tiled
      have e := hdr_of_mem hinv.str hx
      refine ⟨x.addr, ?_, by rw [e.2]; exact hxf, hx1, by rw [e.1]; exact hx2⟩
      exact (InChain_iff_mem hinv.str x.addr).2 (List.mem_map_of_mem _ hx)

/-- The two branches of `my_free` in `heap3`: `my_free` of the handle of the tail, the used block at
4310 that ends at the break, removes that block from the chain and brings the break
down to 4310; `my_free` of the handle of the used block at 4228, which has a successor,
leaves the break where it was. -/
theorem release_only_at_tail_heap3 :
    ReachableInRange heap3 ∧ InChain heap3 4310 ∧
    4310 + headerSize + (heap3.hdr 4310).size = heap3.brk ∧
    (∃ s1, my_free 2 heap3 (4310 + headerSize) = some s1 ∧ s1.brk = 4310 ∧
      (∀ x, InChain s1 x ↔ InChain heap3 x ∧ x ≠ 4310)) ∧
    InChain heap3 4228 ∧ (heap3.hdr 4228).next ≠ 0 ∧
    (∃ s1, my_free 2 heap3 (4228 + headerSize) = some s1 ∧ s1.brk = heap3.brk ∧
      ∃ x, InChain s1 x ∧ (s1.hdr x).is_free = true ∧ x ≤ 4228 ∧
        4228 + headerSize + (heap3.hdr 4228).size ≤ x + headerSize + (s1.hdr x).size) := by
  have hc : InChain heap3 4228 := InChain.next (InChain.head (by decide)) (by decide)
  have hd : InChain heap3 4310 := InChain.next hc (by decide)
  obtain ⟨-, -, s1, hfr, h1, -⟩ :=
    release_only_at_tail heap3 4310 2 heap3_reachable.1 hd rfl (by decide)
  obtain ⟨he, -, hx, -⟩ := h1 (by decide)
  obtain ⟨-, -, s2, hfr2, -, h2⟩ :=
    release_only_at_tail heap3 4228 2 heap3_reachable.1 hc rfl (by decide)
  obtain ⟨-, hb, hy⟩ := h2 (by decide)
  exact ⟨heap3_reachable.1, hd, by decide, ⟨s1, hfr, by rw [he], hx⟩, hc, by decide,
    ⟨s2, hfr2, hb, hy⟩⟩

/-- Tiling (the property of claim C19) in the heaps reached by requests of at most
`PTRDIFF_MAX` bytes with their header.  In such a heap, with `l` the chain as the loops of
the source walk it: every block
has `size ≥ 1`; a block with a successor ends where the successor begins; when the chain
is not empty the tail ends at the break, and the blocks of the chain, headers included,
take the bytes from `head` to the break.  This number of bytes is the same after a
`my_malloc` that reuses a free block and after a `my_free` of a block that does not end
at the break. -/
theorem tiling_invariant (s : Heap) (hr : ReachableInRange s) :
    ∃ l : List Nat, Walk s.hdr s.head l ∧
      (∀ a ∈ l, 1 ≤ (s.hdr a).size ∧
        ((s.hdr a).next ≠ 0 → a + headerSize + (s.hdr a).size = (s.hdr a).next)) ∧
      (s.head ≠ 0 → s.tail + headerSize + (s.hdr s.tail).size = s.brk) ∧
      (s.head ≠ 0 → s.head + chain_bytes s l = s.brk) ∧
      (∀ fuel n a p s1 l1, 0 < n → get_free_block fuel s n = some a → a ≠ 0 →
        my_malloc fuel s n = some (p, s1) → Walk s1.hdr s1.head l1 →
        chain_bytes s1 l1 = chain_bytes s l) ∧
      (∀ fuel a s1 l1, InChain s a → (s.hdr a).is_free = false →
        a + headerSize + (s.hdr a).size ≠ s.brk →
        my_free fuel s (a + headerSize) = some s1 → Walk s1.hdr s1.head l1 →
        chain_bytes s1 l1 = chain_bytes s l) := by
  have hH := headerSize_eq
  obtain ⟨base, l0, h⟩ := hr.inv
  have hs := h.str
  have hcb := @chain_bytes_tend s l0 0 0 base hs.seg hs.tiled
  have hsame : ∀ (s1 : Heap) (l1 : List Nat) (l2 : List Blk), InvL s1 base l2 →
      s1.brk = s.brk → Walk s1.hdr s1.head l1 →
      chain_bytes s1 l1 = chain_bytes s (l0.map Blk.addr) := by
    intro s1 l1 l2 h2 hb hw
    have e := Walk_unique hw h2.str.walk
    have h3 := @chain_bytes_tend s1 l2 0 0 base h2.str.seg h2.str.tiled
    have h4 := h2.str.brk_eq
    have h5 := hs.brk_eq
    rw [e]
    omega
  refine ⟨l0.map Blk.addr, hs.walk, ?_, ?_, ?_, ?_, ?_⟩
  · intro a ha
    obtain ⟨b, hb, rfl⟩ := List.mem_map.1 ha
    obtain ⟨h1, -, h3, -, -, h6, -⟩ := hs.block_facts hb
    rw [h1]
    exact ⟨h3, h6⟩
  · intro h0
    cases hl : l0 with
    | nil => rw [hs.head_eq, hl] at h0; exact absurd rfl h0
    | cons c rest =>
      rcases list_snoc l0 with hnil | ⟨pre, b, hpre⟩
      · rw [hnil] at hl; simp at hl
      · have hb : b ∈ l0 := by rw [hpre]; simp
        obtain ⟨h1, -, -, -, -, -, h7, h8⟩ := hs.block_facts hb
        have ht : s.tail = b.addr := by rw [hs.tail_eq, hpre]; simp
        rw [ht, h1]
        exact h7.1 (h8.2 ht)
  · intro h0
    cases hl : l0 with
    | nil => rw [hs.head_eq, hl] at h0; exact absurd rfl h0
    | cons c rest =>
      have ht := hs.tiled
      rw [hl] at ht
      simp only [Tiled_cons] at ht
      have hh : s.head = base := by rw [hs.head_eq, hl]; exact ht.1
      have := hs.brk_eq
      rw [← hl, hh]
      omega
  · intro fuel n a p s1 l1 hn hg ha hm hw
    have hc : InChain s a :=
      gfb_in_chain (fun hne => InChain.head hne) hg ha
    obtain ⟨b, hb, rfl⟩ := mem_of_InChain hs hc
    have hfit := gfb_fits hg ha
    have hbd := hdr_of_mem hs hb
    have hlt := hs.lt b hb
    have hsz : n + headerSize < 2 ^ 63 := by
      have := hfit.2
      rw [hbd.1] at this
      omega
    have hbrk : s1.brk = s.brk := by
      rw [(my_malloc_reuse_eq hn hg ha hm).2]; simp
    rcases my_malloc_outcome h hsz hm with ⟨-, rfl⟩ | ⟨-, l2, -, hinv, -⟩
    · exact hsame s1 l1 l0 h rfl hw
    · exact hsame s1 l1 l2 hinv hbrk hw
  · intro fuel a s1 l1 hc hu hne hm hw
    obtain ⟨b, hb, rfl⟩ := mem_of_InChain hs hc
    have hbd := hdr_of_mem hs hb
    have hlt := hs.lt b hb
    have hbf : b.free = false := by rw [← hbd.2]; exact hu
    obtain ⟨l2, hinv, -⟩ := my_free_outcome h hb hbf hm
    have hbrk : s1.brk = s.brk := by
      rw [my_free_not_at_break fuel s b.addr (by rw [hbd.1]; omega) hu hne]
        at hm
      exact (coalesce_brk hm).1
    exact hsame s1 l1 l2 hinv hbrk hw

/-- The blocks of `heap3` tile the memory from `head` to the break. -/
theorem tiling_invariant_heap3 :
    ReachableInRange heap3 ∧ ∃ l : List Nat, Walk heap3.hdr heap3.head l ∧
      (∀ a ∈ l, 1 ≤ (heap3.hdr a).size ∧
        ((heap3.hdr a).next ≠ 0 → a + headerSize + (heap3.hdr a).size = (heap3.hdr a).next)) ∧
      (heap3.head ≠ 0 → heap3.tail + headerSize + (heap3.hdr heap3.tail).size = heap3.brk) ∧
      (heap3.head ≠ 0 → heap3.head + chain_bytes heap3 l = heap3.brk) := by
  obtain ⟨l, h1, h2, h3, h4, -⟩ := tiling_invariant heap3 heap3_reachable.1
  exact ⟨heap3_reachable.1, l, h1, h2, h3, h4⟩

/-! ## The calls on the heaps reached by requests in range

The properties of the claims C3, C6, C7, C10 and C11 hold in the heaps reached by
requests of at most `PTRDIFF_MAX` bytes with their header; the claims themselves are
about every heap that the calls reach, and are taken up at the end of the file. -/

/-- The coalescing guarantee (the property of claim C3) in the heaps reached by requests
of at most `PTRDIFF_MAX` bytes with their header.  In such a heap no block of the chain
and its successor are both free and physically adjacent; `my_free` of a live handle
returns (two rounds of the loop of `coalesce` are enough), and the same holds in the heap
it leaves. -/
theorem coalescing_guarantee (s : Heap) (p fuel : Nat)
    (hr : ReachableInRange s) (hp : Live s p) (hf : 2 ≤ fuel) :
    NoAdjacentFree s ∧ ∃ s1, my_free fuel s p = some s1 ∧ NoAdjacentFree s1 := by
  obtain ⟨base, l, h⟩ := hr.inv
  obtain ⟨b, hb, hbf, rfl⟩ := (Live_iff h.str p).1 hp
  obtain ⟨s1, l1, he, hinv, -⟩ := my_free_total h hb hbf hf
  exact ⟨h.noAdjacentFree, s1, he, hinv.noAdjacentFree⟩

/-- In `heap3`, `my_free` of the handle 4260, whose block has a free block before it. -/
theorem coalescing_guarantee_heap3 :
    ReachableInRange heap3 ∧ Live heap3 4260 ∧
      ∃ s1, my_free 2 heap3 4260 = some s1 ∧ NoAdjacentFree s1 :=
  ⟨heap3_reachable.1, heap3_reachable.2,
    (coalescing_guarantee heap3 4260 2 heap3_reachable.1 heap3_reachable.2 (by decide)).2⟩

/-- The zero fill of `my_calloc` (the property of claim C6) in the heaps reached by
requests of at most `PTRDIFF_MAX` bytes with their header.  For `num > 0`, `nsize > 0`:
when `my_calloc(num, nsize)` returns a non-null pointer `p`, every byte of
`[p, p + num * nsize)` is zero afterwards, whatever the bytes were before; `head`, `tail`,
the break, the chain and the header of every block of the chain are those that
`my_malloc(num * nsize)` leaves, and so are the bytes outside the range: no header of the
chain lies in the payload that `memset` clears. -/
theorem calloc_zero_fill (fuel : Nat) (s : Heap) (num nsize p : Nat) (s1 : Heap)
    (hr : ReachableInRange s) (h1 : 0 < num) (h2 : 0 < nsize)
    (h3 : num * nsize + headerSize < 2 ^ 63)
    (hc : my_calloc fuel s num nsize = some (p, s1)) (hp : p ≠ 0) :
    (∀ a, p ≤ a → a < p + num * nsize → s1.data a = 0) ∧
    ∃ s2, my_malloc fuel s (num * nsize) = some (p, s2) ∧
      s1.head = s2.head ∧ s1.tail = s2.tail ∧ s1.brk = s2.brk ∧ s1.limit = s2.limit ∧
      (∀ a, InChain s2 a → s1.hdr a = s2.hdr a) ∧ (∀ a, InChain s1 a ↔ InChain s2 a) ∧
      (∀ a, ¬ (p ≤ a ∧ a < p + num * nsize) → s1.data a = s2.data a) := by
  have hH := headerSize_eq
  obtain ⟨base, l, h⟩ := hr.inv
  rw [my_calloc_delegates fuel s h1 h2 (by unfold SIZE_MAX; omega)] at hc
  cases hm : my_malloc fuel s (num * nsize) with
  | none => rw [hm] at hc; simp at hc
  | some r =>
    obtain ⟨q, s2⟩ := r
    rw [hm] at hc
    simp only [Option.map_some', Option.some.injEq] at hc
    by_cases hq : q = 0
    · rw [if_pos hq] at hc
      simp only [Prod.mk.injEq] at hc
      exact absurd hc.1.symm hp
    · rw [if_neg hq] at hc
      simp only [Prod.mk.injEq] at hc
      obtain ⟨rfl, rfl⟩ := hc
      rcases my_malloc_outcome h h3 hm with ⟨h0, -⟩ | ⟨-, l1, bq, hinv, hbq, -, rfl, hbqn, -⟩
      · exact absurd h0 hq
      obtain ⟨-, hfr⟩ := InvL_memset hinv hbq hbqn 0
      have hfr2 : ∀ a, InChain s2 a →
          (memset s2 (bq.addr + headerSize) 0 (num * nsize)).hdr a = s2.hdr a := by
        intro a ha
        obtain ⟨c, hc, rfl⟩ := mem_of_InChain hinv.str ha
        exact hfr c hc
      refine ⟨?_, s2, rfl, rfl, rfl, rfl, rfl, hfr2, InChain_congr_iff rfl hfr2, ?_⟩
      · intro a ha1 ha2
        simp [memset, ha1, ha2]
      · intro a ha
        simp only [memset]
        rw [if_neg ha]

/-- In `heap3`, `my_calloc(5, 10)` reuses (and splits) the free block at 4096, whose bytes
were all 7. -/
theorem calloc_zero_fill_heap3 :
    ReachableInRange heap3 ∧ heap3.data 4128 = 7 ∧
    my_calloc 4 heap3 5 10 = some (4128, memset (reuse_state heap3 4096 50) 4128 0 50) ∧
    (∀ a, 4128 ≤ a → a < 4128 + 5 * 10 →
      (memset (reuse_state heap3 4096 50) 4128 0 50).data a = 0) :=
  ⟨heap3_reachable.1, rfl, rfl,
    (calloc_zero_fill 4 heap3 5 10 4128 (memset (reuse_state heap3 4096 50) 4128 0 50)
      heap3_reachable.1 (by decide) (by decide) (by decide) rfl (by decide)).1⟩

/-- A growing `my_realloc` preserves the content (the property of claim C7) in the heaps
reached by requests of at most `PTRDIFF_MAX` bytes with their header, for a request in
that range.  In such a heap let `a` be a used block of the chain, `a + sizeof(header_t)`
its handle and `n` larger than its tracked size.  When the inner `my_malloc(n)` returns a
non-null `q`, `my_realloc` returns `q`, which is not the old handle; `q` is the handle of a
used block of the chain of size at least `n`; the first `old` bytes at `q` are the bytes
that were at the old handle; and the final heap is the one `my_free` of the old handle
leaves after the copy, in which the old handle is no longer live. -/
theorem realloc_grow_preserves (s : Heap) (a n fuel q : Nat) (s1 : Heap)
    (hr : ReachableInRange s) (ha : InChain s a) (hu : (s.hdr a).is_free = false)
    (hlt : (s.hdr a).size < n) (hsz : n + headerSize < 2 ^ 63)
    (hm : my_malloc fuel s n = some (q, s1)) (hq : q ≠ 0) (hf : 2 ≤ fuel) :
    ∃ s3, my_realloc fuel s (a + headerSize) n = some (q, s3) ∧ q ≠ a + headerSize ∧
      (∃ c, q = c + headerSize ∧ InChain s3 c ∧ (s3.hdr c).is_free = false ∧
        n ≤ (s3.hdr c).size) ∧
      (∀ i, i < (s.hdr a).size → s3.data (q + i) = s.data (a + headerSize + i)) ∧
      my_free fuel (memcpy s1 q (a + headerSize) (s.hdr a).size) (a + headerSize) = some s3 ∧
      ¬ Live s3 (a + headerSize) := by
  have hH := headerSize_eq
  obtain ⟨base, l, h⟩ := hr.inv
  obtain ⟨b, hb, rfl⟩ := mem_of_InChain h.str ha
  have hbd := hdr_of_mem h.str hb
  have hbf : b.free = false := by rw [← hbd.2]; exact hu
  have hblt := h.str.lt b hb
  rcases my_malloc_outcome h hsz hm with ⟨h0, -⟩ | ⟨hn, l1, bq, hinv1, hbq, hbqf, rfl, hbqn, hpres, -, hd1, -⟩
  · exact absurd h0 hq
  have hb1 := (hpres b hb hbf).1
  have hne := (hpres b hb hbf).2
  have hbd1 := hdr_of_mem hinv1.str hb1
  have hsize : (s1.hdr b.addr).size = (s.hdr b.addr).size := by rw [hbd1.1, hbd.1]
  have hinv2 : InvL (memcpy s1 (bq.addr + headerSize) (b.addr + headerSize) (s.hdr b.addr).size)
      base l1 := InvL_data _ hinv1
  obtain ⟨s3, l2, he, hinv3, hmem, hd3, -⟩ := my_free_total hinv2 hb1 hbf hf
  have e0 : usub (b.addr + headerSize) headerSize = b.addr := by
    rw [usub_eq (by omega) (by omega)]; omega
  have hbq2 : bq ∈ l2 := (hmem bq hbqf).2 ⟨hbq, fun e => hne e.symm⟩
  have hbqd := hdr_of_mem hinv3.str hbq2
  refine ⟨s3, ?_, by omega, ⟨bq.addr, rfl, ?_, ?_, ?_⟩, ?_, he, ?_⟩
  · unfold my_realloc
    rw [if_neg (by omega), if_neg (by omega)]
    simp only [e0]
    rw [if_neg (by omega), hm]
    simp only [ne_eq, hq, not_false_eq_true, if_true, hsize, he, Option.map_some']
  · obtain ⟨pre, post, hl⟩ := List.append_of_mem hbq2
    exact InChain_of_mem hinv3.str pre bq post hl
  · rw [hbqd.2]; exact hbqf
  · rw [hbqd.1]; exact hbqn
  · intro i hi
    rw [hd3]
    simp only [memcpy]
    rw [if_pos ⟨by omega, by omega⟩, hd1]
    have e : b.addr + headerSize + (bq.addr + headerSize + i - (bq.addr + headerSize))
        = b.addr + headerSize + i := by omega
    rw [e]
  · intro hlive
    obtain ⟨x, hx, hxf, hxa⟩ := (Live_iff hinv3.str _).1 hlive
    have := ((hmem x hxf).1 hx).2
    omega

/-- In `heap3_bytes`, `my_realloc(4260, 60)` moves the 50 bytes of the block at 4228 to
the block at 4096: the byte at `4128 + i` is then `(4260 + i) % 256`, the byte that was at
`4260 + i`. -/
theorem realloc_grow_preserves_heap3 :
    ReachableInRange heap3_bytes ∧ heap3_bytes.data 4128 = 32 ∧ heap3_bytes.data 4260 = 164 ∧
    ∃ s3, my_realloc 4 heap3_bytes (4228 + headerSize) 60 = some (4128, s3) ∧
      (∀ i, i < 50 → s3.data (4128 + i) = (4260 + i) % 256) ∧
      ¬ Live s3 (4228 + headerSize) := by
  have hr : ReachableInRange heap3_bytes := ReachableInRange.write _ heap3_reachable.1
  have h1 : InChain heap3_bytes 4228 := InChain.next (InChain.head (by decide)) (by decide)
  have h4 : my_malloc 4 heap3_bytes 60 = some (4128, reuse_state heap3_bytes 4096 60) := rfl
  obtain ⟨s3, e1, -, -, e2, -, e3⟩ :=
    realloc_grow_preserves heap3_bytes 4228 60 4 4128 (reuse_state heap3_bytes 4096 60) hr
      h1 rfl (by decide) (by decide) h4 (by decide) (by decide)
  exact ⟨hr, rfl, rfl, s3, e1, fun i hi => e2 i hi, e3⟩

/-- The round trip of an allocation at the top of the heap (the property of claim C10) in
the heaps reached by requests of at most `PTRDIFF_MAX` bytes with their header, for a
request in that range.  In such a heap where no block of the chain is free with
`size ≥ n` (`n > 0`) and the growth request of `my_malloc(n)` succeeds, `my_malloc(n)`
moves the break up by `sizeof(header_t) + n`, and `p = my_malloc(n)` followed by
`my_free(p)` returns and gives back the heap but for the stale header at the old break:
`head`, `tail`, the break and the header of every block of the chain are what they were,
and the chain is the same.  From an empty chain the chain is empty again and
`mem_available` is 0. -/
theorem alloc_free_round_trip (s : Heap) (n : Nat) (hr : ReachableInRange s) (hn : 0 < n)
    (hsz : n + headerSize < 2 ^ 63) (hno : ∀ a, InChain s a → ¬ Fits s n a)
    (hg : (sbrk s (toIntptr (uadd headerSize n))).isSome = true) :
    ∃ N, ∀ fuel, N ≤ fuel → ∃ p s1 s2,
      my_malloc fuel s n = some (p, s1) ∧ p ≠ 0 ∧ s1.brk = s.brk + headerSize + n ∧
      my_free fuel s1 p = some s2 ∧
      s2 = { s with hdr := upd s.hdr s.brk ⟨n, false, 0, s.tail⟩ } ∧
      s2.head = s.head ∧ s2.tail = s.tail ∧ s2.brk = s.brk ∧
      (∀ a, InChain s a → s2.hdr a = s.hdr a) ∧ (∀ a, InChain s2 a ↔ InChain s a) ∧
      (s.head = 0 → s2.head = 0 ∧ s2.tail = 0 ∧ mem_available fuel s2 = some 0) := by
  have hH := headerSize_eq
  obtain ⟨base, l, h⟩ := hr.inv
  obtain ⟨hbz, hnotin, ht0, ht1⟩ := h.str.tail_facts
  have hbl := h.str.brk_le
  have hll := h.str.limit_lt
  refine ⟨l.length + 1, fun fuel hf => ?_⟩
  have hno1 : ∀ x ∈ l, ¬ (x.free = true ∧ n ≤ x.size) := by
    intro x hx hfit
    obtain ⟨pre, post, hl⟩ := List.append_of_mem hx
    have hc := InChain_of_mem h.str pre x post hl
    have hd := hdr_of_mem h.str hx
    exact hno x.addr hc ⟨by rw [hd.2]; exact hfit.1, by rw [hd.1]; exact hfit.2⟩
  have hg0 : get_free_block fuel s n = some 0 := by
    unfold get_free_block
    rw [h.str.head_eq]
    exact gfb_none h.str.seg h.str.addr_pos hno1 (by omega)
  cases hsb : sbrk s (toIntptr (uadd headerSize n)) with
  | none => rw [hsb] at hg; simp at hg
  | some r =>
    obtain ⟨b, sg⟩ := r
    obtain ⟨rfl, hsg⟩ := sbrk_shape hsb
    obtain ⟨hB, hback⟩ := sbrk_round_trip hbl hll hsb
    obtain ⟨hu1, hu2⟩ := append_unlink s sg.brk n ht0 ht1
    rw [← hsg] at hu1 hu2
    have hp : uadd s.brk headerSize = s.brk + headerSize := uadd_eq (by omega)
    have e0 : usub (s.brk + headerSize) headerSize = s.brk := by
      rw [usub_eq (by omega) (by omega)]; omega
    have hm : my_malloc fuel s n = some (s.brk + headerSize, append_block sg s.brk n) := by
      unfold my_malloc
      rw [if_neg (by omega), hg0]
      simp only [ne_eq, not_true_eq_false, if_false, hsb, hp]
    have hsu : ∀ q, ({ s with brk := sg.brk, hdr := upd s.hdr s.brk ⟨n, false, 0, s.tail⟩ }
        : Heap).hdr q = upd s.hdr s.brk ⟨n, false, 0, s.tail⟩ q := fun _ => rfl
    obtain ⟨b1, hb1⟩ := hback
      { s with brk := sg.brk, hdr := upd s.hdr s.brk ⟨n, false, 0, s.tail⟩ } rfl rfl
    have hf2 : my_free fuel (append_block sg s.brk n) (s.brk + headerSize)
        = some { s with hdr := upd s.hdr s.brk ⟨n, false, 0, s.tail⟩ } := by
      unfold my_free
      rw [if_neg (by omega)]
      simp only [e0, hu1, Bool.false_eq_true, if_false, sbrk_zero, append_block_brk, hB, if_true,
        hu2, hsu, upd_apply]
      rw [hb1]
    have hB1 : (append_block sg s.brk n).brk = s.brk + headerSize + n := by
      rw [append_block_brk, ← hB]
      unfold uadd
      omega
    refine ⟨_, _, _, hm, by omega, hB1, hf2, rfl, rfl, rfl, rfl, ?_, ?_, ?_⟩
    · intro a ha
      simp only [upd_apply]
      rw [if_neg (hnotin a ha)]
    · intro a
      refine @InChain_congr_iff s { s with hdr := upd s.hdr s.brk ⟨n, false, 0, s.tail⟩ }
        rfl ?_ a
      intro a ha
      simp only [upd_apply]
      rw [if_neg (hnotin a ha)]
    · intro h0
      refine ⟨h0, ht0 h0, ?_⟩
      unfold mem_available
      rw [if_pos h0]

/-- From the empty heap, `my_malloc(200)` then `my_free`. -/
theorem alloc_free_round_trip_heap0 :
    ReachableInRange heap0 ∧ ∃ N, ∀ fuel, N ≤ fuel → ∃ p s1 s2,
      my_malloc fuel heap0 200 = some (p, s1) ∧ p ≠ 0 ∧
      s1.brk = heap0.brk + headerSize + 200 ∧ my_free fuel s1 p = some s2 ∧
      s2 = { heap0 with hdr := upd heap0.hdr heap0.brk ⟨200, false, 0, heap0.tail⟩ } ∧
      s2.head = heap0.head ∧ s2.tail = heap0.tail ∧ s2.brk = heap0.brk ∧
      (∀ a, InChain heap0 a → s2.hdr a = heap0.hdr a) ∧
      (∀ a, InChain s2 a ↔ InChain heap0 a) ∧
      (heap0.head = 0 → s2.head = 0 ∧ s2.tail = 0 ∧ mem_available fuel s2 = some 0) :=
  ⟨ReachableInRange.init _ _ 4096 1048576 (by decide) (by decide) (by decide),
    alloc_free_round_trip heap0 200
      (ReachableInRange.init _ _ 4096 1048576 (by decide) (by decide) (by decide)) (by decide)
      (by decide)
      (fun a ha => by
        cases ha with
        | head hz => exact absurd rfl hz
        | next hc hz => exact absurd rfl hz)
      (by decide)⟩

/-- In `heap3`, whose only free block holds 100 bytes, `my_malloc(200)` then `my_free`:
the chain of three blocks is the same afterwards. -/
theorem alloc_free_round_trip_heap3 :
    ReachableInRange heap3 ∧ (∀ a, InChain heap3 a → ¬ Fits heap3 200 a) ∧
    ∃ N, ∀ fuel, N ≤ fuel → ∃ p s1 s2,
      my_malloc fuel heap3 200 = some (p, s1) ∧ p ≠ 0 ∧
      s1.brk = heap3.brk + headerSize + 200 ∧ my_free fuel s1 p = some s2 ∧
      s2.head = heap3.head ∧ s2.tail = heap3.tail ∧ s2.brk = heap3.brk ∧
      (∀ a, InChain heap3 a → s2.hdr a = heap3.hdr a) ∧
      (∀ a, InChain s2 a ↔ InChain heap3 a) := by
  have hno : ∀ a, InChain heap3 a → ¬ Fits heap3 200 a := by
    intro a ha
    obtain ⟨l, hw, hl, -⟩ := chain_order_and_tail heap3 heap3_reachable.1
    have e := Walk_unique hw heap3_walk
    subst e
    have hm := (hl a).1 ha
    simp only [List.mem_cons, List.mem_singleton, List.not_mem_nil, or_false] at hm
    rcases hm with rfl | rfl | rfl <;> decide
  obtain ⟨N, hN⟩ := alloc_free_round_trip heap3 200 heap3_reachable.1 (by decide) (by decide)
    hno (by decide)
  refine ⟨heap3_reachable.1, hno, N, fun fuel hf => ?_⟩
  obtain ⟨p, s1, s2, e1, e2, e3, e4, -, e5, e6, e7, e8, e9, -⟩ := hN fuel hf
  exact ⟨p, s1, s2, e1, e2, e3, e4, e5, e6, e7, e8, e9⟩

/-- The accounting of the free bytes (the property of claim C11).  Let `l` be the chain
of `s` as the loop of `mem_available` walks it.  With enough fuel `mem_available` returns
the sum of the `size` fields of the free blocks of the chain, as the `size_t` it
accumulates (modulo `2 ^ 64`); this is the sum itself in every heap whose blocks lie one
after another in the address space, as they do in every heap reached by requests of at
most `PTRDIFF_MAX` bytes with their header.  It returns 0 when the chain is empty.  The
function only returns a number: the heap is not changed. -/
theorem free_byte_accounting (s : Heap) (l : List Nat) (fuel : Nat)
    (hw : Walk s.hdr s.head l) (hf : l.length < fuel) :
    mem_available fuel s = some (free_bytes s l % 2 ^ 64) ∧
    (Laid s.hdr (2 ^ 64) l → mem_available fuel s = some (free_bytes s l)) ∧
    (ReachableInRange s → Laid s.hdr (2 ^ 64) l) ∧
    (s.head = 0 → l = [] ∧ mem_available fuel s = some 0) := by
  have h1 : mem_available fuel s = some (free_bytes s l % 2 ^ 64) := by
    unfold mem_available
    by_cases h0 : s.head = 0
    · rw [if_pos h0]
      rw [h0] at hw
      cases l with
      | nil => simp [free_bytes]
      | cons x l => simp only [Walk] at hw; exact absurd rfl hw.1
    · rw [if_neg h0, mal_walk hw hf (by norm_num)]
      simp
  refine ⟨h1, ?_, ?_, ?_⟩
  · intro hl
    cases l with
    | nil => rw [h1]; simp [free_bytes]
    | cons a r =>
      have h2 := Laid_chain_bytes hl
      have h3 := free_bytes_add_le s (a :: r)
      have h4 := headerSize_eq
      simp only [List.length_cons, Nat.mul_succ] at h3
      rw [h1, Nat.mod_eq_of_lt (by omega)]
  · intro hr
    obtain ⟨base, l1, h⟩ := hr.inv
    have hl : l = l1.map Blk.addr := Walk_unique hw h.str.walk
    rw [hl]
    refine Laid_mono ?_ (Laid_of_Seg h.str.seg h.str.tiled)
    have h4 := h.str.brk_eq
    have h5 := h.str.brk_le
    have h6 := h.str.limit_lt
    omega
  · intro h0
    rw [h0] at hw
    cases l with
    | nil => exact ⟨rfl, by unfold mem_available; rw [if_pos h0]⟩
    | cons x l => simp only [Walk] at hw; exact absurd rfl hw.1

/-- In `heap3` the chain is 4096, 4228, 4310 and only the block of 100 bytes at 4096 is
free. -/
theorem free_byte_accounting_heap3 :
    Walk heap3.hdr heap3.head [4096, 4228, 4310] ∧
    Laid heap3.hdr (2 ^ 64) [4096, 4228, 4310] ∧
    free_bytes heap3 [4096, 4228, 4310] = 100 ∧ mem_available 4 heap3 = some 100 :=
  ⟨heap3_walk, heap3_laid, by decide,
    (free_byte_accounting heap3 [4096, 4228, 4310] 4 heap3_walk (by decide)).2.1 heap3_laid⟩

/-! ## The claims -/

/-- Claim C2 (non-overlap of live allocations), at the request `my_malloc(SIZE_MAX)`
on the empty heap: the growth request succeeds and a non-null pointer is returned, but the
payload region `[p, p + SIZE_MAX)` does not lie below the break, which is then
`p - 1`. -/
theorem live_region_beyond_break :
    ∃ p s1, my_malloc 1 heap0 SIZE_MAX = some (p, s1) ∧ p = 4128 ∧ s1.brk = 4127 ∧
      ¬ (p + SIZE_MAX ≤ s1.brk) :=
  ⟨4128, append_block { heap0 with brk := 4127 } 4096 SIZE_MAX, rfl, rfl, rfl, by decide⟩

/-- Claim C3 (coalescing guarantee), at the calls `a = my_malloc(32)`, `b = my_malloc(8)`,
`my_free(a)`, `my_malloc(2^64 - 72)`, `c = my_malloc(100)`, `my_malloc(2^64 - 196)`,
`my_free(c)` from the empty heap.  The fourth request reaches `sbrk` as `-40` and moves the
break down to 4160, the header of the block of `b`; the fifth call puts its header there
and returns 4192, the handle `b`.  After `my_free(c)` has returned, the free block at 4096
and its successor, the free block at 4160, are physically adjacent. -/
theorem adjacent_free_after_free :
    ∃ s, ((my_malloc 9 heap0 32).bind fun r1 =>
      (my_malloc 9 r1.2 8).bind fun r2 =>
      (my_free 9 r2.2 r1.1).bind fun s3 =>
      (my_malloc 9 s3 (2 ^ 64 - 72)).bind fun r4 =>
      (my_malloc 9 r4.2 100).bind fun r5 =>
      (my_malloc 9 r5.2 (2 ^ 64 - 196)).bind fun r6 =>
      (my_free 9 r6.2 r5.1).map fun s7 => (r1.1, r2.1, r4.1, r5.1, r6.1, s7))
        = some (4128, 4192, 4232, 4192, 4324, s) ∧
      InChain s 4096 ∧ (s.hdr 4096).next = 4160 ∧
      (s.hdr 4096).is_free = true ∧ (s.hdr 4160).is_free = true ∧
      blocks_adjacent s 4096 4160 = true ∧ ¬ NoAdjacentFree s :=
  ⟨_, rfl, InChain.head (by decide), rfl, rfl, rfl, rfl,
    fun h => h 4096 (InChain.head (by decide)) (by decide) ⟨rfl, rfl, rfl⟩⟩

/-- Claim C4 (growth path), at the request `my_malloc(SIZE_MAX)` on the empty heap:
the sum `sizeof(header_t) + size` wraps to 31, `sbrk` is asked for 31 bytes and the
break advances by 31, not by `sizeof(header_t) + SIZE_MAX`. -/
theorem growth_request_wraps :
    uadd headerSize SIZE_MAX = 31 ∧ toIntptr (uadd headerSize SIZE_MAX) = 31 ∧
    (my_malloc 1 heap0 SIZE_MAX).map (fun r => (r.1, r.2.brk - heap0.brk, (r.2.hdr 4096).size))
      = some (4128, 31, SIZE_MAX) ∧
    headerSize + SIZE_MAX ≠ 31 := by
  decide

/-- Claim C5 (overflow contract of `my_calloc`).  For `num > 0` and `nsize > 0`, the
guard `nsize > size / num` of `my_calloc` holds exactly when the product `num * nsize`
exceeds `SIZE_MAX`; then `my_calloc` returns `NULL` and the heap is the one before the
call (`my_malloc` is not called); otherwise `my_calloc` is `my_malloc(num * nsize)`
followed, for a non-null result, by `memset`. -/
theorem calloc_overflow_contract (fuel : Nat) (s : Heap) (num nsize : Nat)
    (h1 : 0 < num) (h2 : 0 < nsize) :
    (nsize > umul num nsize / num ↔ SIZE_MAX < num * nsize) ∧
    (SIZE_MAX < num * nsize → my_calloc fuel s num nsize = some (0, s)) ∧
    (num * nsize ≤ SIZE_MAX →
      my_calloc fuel s num nsize = (my_malloc fuel s (num * nsize)).map fun r =>
        if r.1 = 0 then (0, r.2) else (r.1, memset r.2 r.1 0 (num * nsize))) :=
  ⟨calloc_guard h1, my_calloc_overflow fuel s h1 h2, my_calloc_delegates fuel s h1 h2⟩

/-- Witness of C5: `my_calloc(SIZE_MAX, 2)` returns `NULL` and leaves the heap as
it was. -/
theorem calloc_overflow_contract_witness :
    SIZE_MAX < SIZE_MAX * 2 ∧ my_calloc 1 heap0 SIZE_MAX 2 = some (0, heap0) :=
  ⟨by decide,
    (calloc_overflow_contract 1 heap0 SIZE_MAX 2 (by decide) (by decide)).2.1 (by decide)⟩

/-- Claim C6 (zero fill of `my_calloc`), at the calls `my_malloc(100)`,
`my_malloc(2^64 - 64)`, `my_calloc(1, 40)` from the empty heap.  The second request reaches
`sbrk` as `-32`: its block is linked at 4228 and the break is 4196.  `my_calloc(1, 40)`
gets 4196 from `sbrk` and returns 4228, and the 40 bytes it clears hold the header of the
block at 4228.  The bytes of `[4228, 4268)` are zero, but the metadata is not the one that
`my_malloc(40)` leaves: the header at 4228 is cleared, its `next` field is `NULL` and the
new block at 4196, which `tail` points to, is not in the chain.  Likewise
`my_calloc(1, 16)` in `heap_back` clears the `size` field of the header at 4268. -/
theorem calloc_clears_header :
    ((my_malloc 9 heap0 100).bind fun r1 =>
      (my_malloc 9 r1.2 (2 ^ 64 - 64)).map fun r2 => (r1.1, r2.1, r2.2))
      = some (4128, 4260, heap_neg) ∧
    toIntptr (uadd headerSize (2 ^ 64 - 64)) = -32 ∧
    InChain heap_neg 4228 ∧ heap_neg.hdr 4228 = ⟨2 ^ 64 - 64, false, 0, 4096⟩ ∧
    (∃ s1 s2, my_calloc 9 heap_neg 1 40 = some (4228, s1) ∧
      my_malloc 9 heap_neg 40 = some (4228, s2) ∧
      (∀ a, 4228 ≤ a → a < 4268 → s1.data a = 0) ∧
      s2.hdr 4228 = ⟨2 ^ 64 - 64, false, 4196, 4096⟩ ∧ s1.hdr 4228 = ⟨0, false, 0, 0⟩ ∧
      s1.head = s2.head ∧ s1.tail = 4196 ∧ s2.tail = 4196 ∧
      InChain s2 4196 ∧ ¬ InChain s1 4196) ∧
    (∃ t1 t2, my_calloc 9 heap_back 1 16 = some (4260, t1) ∧
      my_malloc 9 heap_back 16 = some (4260, t2) ∧
      (t2.hdr 4268).size = 2 ^ 64 - 72 ∧ (t1.hdr 4268).size = 0) :=
  ⟨rfl, by decide, InChain.next (InChain.head (by decide)) (by decide), rfl,
    ⟨memset (append_block { heap_neg with brk := 4268 } 4196 40) 4228 0 40, _, rfl, rfl,
      fun a h1 h2 => if_pos ⟨h1, h2⟩, rfl, rfl, rfl, rfl, rfl,
      InChain.next (InChain.next (InChain.head (by decide)) (by decide)) (by decide),
      fun h => by
        rcases InChain_two rfl rfl rfl 4196 h with h1 | h1
        · exact absurd h1 (by decide)
        · exact absurd h1 (by decide)⟩,
    ⟨_, _, rfl, rfl, rfl, rfl⟩⟩

/-- Claim C7 (a growing `my_realloc` preserves the content), at the calls
`my_malloc(100)`, `b = my_malloc(8)`, `my_malloc(2^64 - 72)`, `my_realloc(b, 16)` from the
empty heap.  The third request reaches `sbrk` as `-40` and moves the break down to 4228,
the header of the block of `b`.  The handle `b` is live and its block holds 8 bytes; in
`my_realloc(b, 16)` the inner `my_malloc(16)` succeeds: it gets 4228 from `sbrk`, sets up
its header over the header of `b` and returns 4260.  The pointer `my_realloc` returns is
`b` itself, and its block is released by the `my_free` that follows, the break being 4228
again. -/
theorem realloc_returns_old_handle :
    ((my_malloc 9 heap0 100).bind fun r1 =>
      (my_malloc 9 r1.2 8).bind fun r2 =>
      (my_malloc 9 r2.2 (2 ^ 64 - 72)).map fun r3 => (r1.1, r2.1, r3))
      = some (4128, 4260, 4300, heap_back) ∧
    toIntptr (uadd headerSize (2 ^ 64 - 72)) = -40 ∧
    Live heap_back 4260 ∧ (heap_back.hdr 4228).size = 8 ∧
    ∃ s1 s3, my_malloc 9 heap_back 16 = some (4260, s1) ∧
      my_realloc 9 heap_back 4260 16 = some (4260, s3) ∧ s3.brk = 4228 :=
  ⟨rfl, by decide, ⟨4228, InChain.next (InChain.head (by decide)) (by decide), rfl, rfl⟩, rfl,
    _, _, rfl, rfl, rfl⟩

/-- Claim C8 (a shrinking `my_realloc` is the identity).  For a block at `a` with
handle `a + sizeof(header_t)` and `1 ≤ n ≤` the tracked size of the block,
`my_realloc(handle, n)` returns the handle itself and the heap is unchanged. -/
theorem realloc_shrink_identity (fuel : Nat) (s : Heap) (a n : Nat)
    (ha : a + headerSize < 2 ^ 64) (h1 : 1 ≤ n) (h2 : n ≤ (s.hdr a).size) :
    my_realloc fuel s (a + headerSize) n = some (a + headerSize, s) := by
  have hH := headerSize_eq
  have e0 : usub (a + headerSize) headerSize = a := by
    rw [usub_eq (by omega) (by omega)]; omega
  unfold my_realloc
  rw [if_neg (by omega), if_neg (by omega)]
  simp only [e0]
  rw [if_pos h2]

/-- Witness of C8: in `heap2`, `my_realloc(4260, 20)` on the block of 50 bytes at 4228. -/
theorem realloc_shrink_identity_witness :
    Live heap2 4260 ∧ my_realloc 0 heap2 (4228 + headerSize) 20 = some (4228 + headerSize, heap2) :=
  ⟨⟨4228, InChain.next (InChain.head (by decide)) (by decide), rfl, rfl⟩,
    realloc_shrink_identity 0 heap2 4228 20 (by decide) (by decide) (by decide)⟩

/-- Claim C9 (double free), at the calls `a = my_malloc(100)`, `b = my_malloc(50)`,
`my_free(a)`, `my_free(b)`, `my_free(b)` from the empty heap: after the first
`my_free(b)` the block at 4096 is free with size 100 and `mem_available` is 100; the
second `my_free(b)` changes the size of that block to 182 and `mem_available` to 182,
with the break still at 4228. -/
theorem double_free_changes_heap :
    ((my_malloc 9 heap0 100).bind fun r1 =>
      (my_malloc 9 r1.2 50).bind fun r2 =>
      (my_free 9 r2.2 r1.1).bind fun s3 =>
      (my_free 9 s3 r2.1).bind fun s4 =>
      (my_free 9 s4 r2.1).map fun s5 =>
        (r1.1, r2.1, (s4.hdr 4096).size, mem_available 9 s4, s4.brk,
          (s5.hdr 4096).size, mem_available 9 s5, s5.brk))
      = some (4128, 4260, 100, some 100, 4228, 182, some 182, 4228) := by
  rfl

/-- Claim C10 (allocate-then-free round trip at the top of the heap), at the calls
`my_malloc(100)`, `b = my_malloc(8)`, `my_malloc(2^64 - 72)`, `p = my_malloc(16)`,
`my_free(p)` from the empty heap.  After the third call the break is 4228, the header of
the block of `b`; no block is free and `sbrk` grants the request of `my_malloc(16)`.  That
call sets up its header at 4228, over the header of `b`, and `my_free(p)` releases it: the
block at 4228 is left with size 16 instead of 8 and without successor, and the block at
4268 is no longer in the chain. -/
theorem round_trip_overwrites_block :
    ((my_malloc 9 heap0 100).bind fun r1 =>
      (my_malloc 9 r1.2 8).bind fun r2 =>
      (my_malloc 9 r2.2 (2 ^ 64 - 72)).map fun r3 => (r1.1, r2.1, r3))
      = some (4128, 4260, 4300, heap_back) ∧
    Walk heap_back.hdr heap_back.head [4096, 4228, 4268] ∧
    (∀ a ∈ [4096, 4228, 4268], ¬ Fits heap_back 16 a) ∧
    (sbrk heap_back (toIntptr (uadd headerSize 16))).isSome = true ∧
    heap_back.hdr 4228 = ⟨8, false, 4268, 4096⟩ ∧ InChain heap_back 4268 ∧
    ∃ s1 s2, my_malloc 9 heap_back 16 = some (4260, s1) ∧ my_free 9 s1 4260 = some s2 ∧
      s2.hdr 4228 = ⟨16, false, 0, 4268⟩ ∧ ¬ InChain s2 4268 :=
  ⟨rfl, ⟨by decide, rfl, by decide, rfl, by decide, rfl, rfl⟩, by decide, by decide, rfl,
    InChain.next (InChain.next (InChain.head (by decide)) (by decide)) (by decide),
    _, _, rfl, rfl, rfl,
    fun h => by
      rcases InChain_two rfl rfl rfl 4268 h with h1 | h1
      · exact absurd h1 (by decide)
      · exact absurd h1 (by decide)⟩

/-- Claim C11 (free-byte accounting), at the calls `my_malloc(100)`,
`b = my_malloc(2^64 - 64)`, `my_malloc(100)`, `d = my_malloc(2^64 - 64)`, `my_malloc(8)`,
`my_free(b)`, `my_free(d)` from the empty heap.  Each of the two large requests reaches
`sbrk` as `-32` and is granted.  The loop of `mem_available` then walks the chain 4096,
4228, 4196, 4328, 4296, in which the blocks at 4228 and 4328 are free with `2^64 - 64`
bytes each: the sum of the sizes of the free blocks is `2^65 - 128`, and `mem_available`
returns `2^64 - 128`. -/
theorem free_bytes_sum_wraps :
    ∃ s, ((my_malloc 9 heap0 100).bind fun r1 =>
      (my_malloc 9 r1.2 (2 ^ 64 - 64)).bind fun r2 =>
      (my_malloc 9 r2.2 100).bind fun r3 =>
      (my_malloc 9 r3.2 (2 ^ 64 - 64)).bind fun r4 =>
      (my_malloc 9 r4.2 8).bind fun r5 =>
      (my_free 9 r5.2 r2.1).bind fun s6 =>
      (my_free 9 s6 r4.1).map fun s7 => (r1.1, r2.1, r3.1, r4.1, r5.1, s7))
        = some (4128, 4260, 4228, 4360, 4328, s) ∧
      Walk s.hdr s.head [4096, 4228, 4196, 4328, 4296] ∧
      (s.hdr 4228).is_free = true ∧ (s.hdr 4228).size = 2 ^ 64 - 64 ∧
      (s.hdr 4328).is_free = true ∧ (s.hdr 4328).size = 2 ^ 64 - 64 ∧
      free_bytes s [4096, 4228, 4196, 4328, 4296] = 2 ^ 65 - 128 ∧
      mem_available 9 s = some (2 ^ 64 - 128) :=
  ⟨_, rfl, ⟨by decide, rfl, by decide, rfl, by decide, rfl, by decide, rfl, by decide, rfl, rfl⟩,
    rfl, rfl, rfl, rfl, rfl, rfl⟩

/-- Claim C12 (failure atomicity).  When `get_free_block` finds no block for `n` bytes
and `sbrk` refuses the request of `my_malloc(n)`, then `my_malloc(n)`, `my_calloc` for
a product `n` and `my_realloc(p, n)` for a non-null `p` whose block holds fewer than `n`
bytes return `NULL` and leave the heap as it was. -/
theorem failure_atomicity (fuel : Nat) (s : Heap) (n : Nat)
    (hg : get_free_block fuel s n = some 0)
    (hs : sbrk s (toIntptr (uadd headerSize n)) = none) :
    my_malloc fuel s n = some (0, s) ∧
    (∀ num nsize, umul num nsize = n → my_calloc fuel s num nsize = some (0, s)) ∧
    (∀ p, p ≠ 0 → (s.hdr (usub p headerSize)).size < n →
      my_realloc fuel s p n = some (0, s)) := by
  have hm : my_malloc fuel s n = some (0, s) := by
    unfold my_malloc
    split
    · rfl
    · rw [hg]
      simp only [ne_eq, not_true_eq_false, if_false, hs]
  refine ⟨hm, ?_, ?_⟩
  · intro num nsize hn
    unfold my_calloc
    split
    · rfl
    · simp only [hn]
      split
      · rfl
      · rw [hm]
        simp
  · intro p hp hlt
    unfold my_realloc
    rw [if_neg hp]
    have hn : n ≠ 0 := by omega
    rw [if_neg hn]
    simp only [ge_iff_le]
    rw [if_neg (by omega), hm]
    simp

/-- Witness of C12: in `heap2` (break 4310, limit 1 MiB) a request of 2000000 bytes
is refused. -/
theorem failure_atomicity_witness :
    get_free_block 3 heap2 2000000 = some 0 ∧
    sbrk heap2 (toIntptr (uadd headerSize 2000000)) = none ∧
    my_malloc 3 heap2 2000000 = some (0, heap2) ∧
    my_calloc 3 heap2 2000 1000 = some (0, heap2) ∧
    my_realloc 3 heap2 4260 2000000 = some (0, heap2) :=
  have h := failure_atomicity 3 heap2 2000000 (by decide) rfl
  ⟨by decide, rfl, h.1, h.2.1 2000 1000 (by decide), h.2.2 4260 (by decide) (by decide)⟩

/-- Claim C13 (zero-sized requests).  `my_malloc(0)` returns `NULL`, and so does
`my_calloc(num, nsize)` when `num` or `nsize` is 0; the heap is the one before the
call. -/
theorem zero_size_rejected (fuel : Nat) (s : Heap) (num nsize : Nat) :
    my_malloc fuel s 0 = some (0, s) ∧
    my_calloc fuel s 0 nsize = some (0, s) ∧
    my_calloc fuel s num 0 = some (0, s) := by
  refine ⟨?_, ?_, ?_⟩
  · unfold my_malloc; simp
  · unfold my_calloc; simp
  · unfold my_calloc; simp

/-- Claim C14 (payload alignment), at the calls `my_malloc(1)`, `my_malloc(1)` from the
empty heap with the break at 4096: `sizeof(header_t)` and the break are multiples of 16,
the first pointer is 4128, and the second pointer is 4161, which is not a multiple of
16. -/
theorem second_payload_unaligned :
    headerSize % 16 = 0 ∧ heap0.brk % 16 = 0 ∧
    ((my_malloc 9 heap0 1).bind fun r1 =>
      (my_malloc 9 r1.2 1).map fun r2 => (r1.1, r1.1 % 16, r2.1, r2.1 % 16))
      = some (4128, 0, 4161, 1) := by
  decide

/-- Claim C17 (chain order and tail), at the calls `my_malloc(100)`,
`my_malloc(2^64 - 64)`, `my_malloc(8)` from the empty heap.  The second request reaches
`sbrk` as `-32` and moves the break down to 4196, where the third block is then put: the
chain is 4096, 4228, 4196, which is not increasing, and `tail` is 4196 although the block
at 4228 lies higher. -/
theorem chain_out_of_order :
    ((my_malloc 9 heap0 100).bind fun r1 =>
      (my_malloc 9 r1.2 (2 ^ 64 - 64)).bind fun r2 =>
      (my_malloc 9 r2.2 8).map fun r3 => (r1.1, r2.1, r3))
      = some (4128, 4260, 4228, heap_neg8) ∧
    toIntptr (uadd headerSize (2 ^ 64 - 64)) = -32 ∧
    Walk heap_neg8.hdr heap_neg8.head [4096, 4228, 4196] ∧
    ¬ [4096, 4228, 4196].Pairwise (fun a b => a < b) ∧
    heap_neg8.tail = 4196 ∧ InChain heap_neg8 4228 ∧ ¬ (4228 ≤ heap_neg8.tail) :=
  ⟨rfl, by decide, ⟨by decide, rfl, by decide, rfl, by decide, rfl, rfl⟩, by decide, rfl,
    InChain.next (InChain.head (by decide)) (by decide), by decide⟩

/-- Claim C18 (release only at the tail), at the calls `a = my_malloc(100)`,
`b = my_malloc(8)`, `my_malloc(2^64 - 72)`, `my_free(a)` from the empty heap.  The third
request reaches `sbrk` as `-40` and moves the break down to 4228, where the block of `a`
ends.  The chain is 4096, 4228, 4268 and the three handles are live.  `my_free(a)` finds
the block of `a` at the break and takes the release branch although the block has a
successor and is not the tail: `head` and `tail` become `NULL`, and the blocks of the
other two handles are no longer in the chain. -/
theorem release_of_inner_block :
    ((my_malloc 9 heap0 100).bind fun r1 =>
      (my_malloc 9 r1.2 8).bind fun r2 =>
      (my_malloc 9 r2.2 (2 ^ 64 - 72)).map fun r3 => (r1.1, r2.1, r3))
      = some (4128, 4260, 4300, heap_back) ∧
    toIntptr (uadd headerSize (2 ^ 64 - 72)) = -40 ∧
    Walk heap_back.hdr heap_back.head [4096, 4228, 4268] ∧
    Live heap_back 4128 ∧ Live heap_back 4260 ∧ Live heap_back 4300 ∧
    (heap_back.hdr 4096).next = 4228 ∧ heap_back.tail = 4268 ∧
    4096 + headerSize + (heap_back.hdr 4096).size = heap_back.brk ∧
    ∃ s3, my_free 9 heap_back 4128 = some s3 ∧ s3.head = 0 ∧ s3.tail = 0 ∧
      s3.brk = 4096 ∧ ¬ InChain s3 4228 ∧ ¬ InChain s3 4268 :=
  ⟨rfl, by decide, ⟨by decide, rfl, by decide, rfl, by decide, rfl, rfl⟩,
    ⟨4096, InChain.head (by decide), rfl, rfl⟩,
    ⟨4228, InChain.next (InChain.head (by decide)) (by decide), rfl, rfl⟩,
    ⟨4268, InChain.next (InChain.next (InChain.head (by decide)) (by decide)) (by decide),
      rfl, rfl⟩,
    rfl, rfl, by decide,
    ⟨{ unlink_tail heap_back 4096 with brk := 4096 }, rfl, rfl, rfl, rfl,
      not_InChain_of_head_zero rfl 4228, not_InChain_of_head_zero rfl 4268⟩⟩

/-- Claim C19 (tiling), at the calls `my_malloc(100)`, `my_malloc(2^64 - 64)` from the
empty heap.  The sum `sizeof(header_t) + size` of the second request is `2^64 - 32`: it
does not wrap as a `size_t`, but as the `intptr_t` argument of `sbrk` it is `-32`, and
the break moves down to 4196.  The chain is then 4096, 4228; the tail does not end at
the break, and the blocks of the chain take `2^64 + 100` bytes while the break is 100
bytes above `head`. -/
theorem tiling_fails_beyond_ptrdiff_max :
    headerSize + (2 ^ 64 - 64) ≤ SIZE_MAX ∧
    uadd headerSize (2 ^ 64 - 64) = headerSize + (2 ^ 64 - 64) ∧
    toIntptr (uadd headerSize (2 ^ 64 - 64)) = -32 ∧
    ((my_malloc 9 heap0 100).bind fun r1 => my_malloc 9 r1.2 (2 ^ 64 - 64))
      = some (4260, heap_neg) ∧
    Walk heap_neg.hdr heap_neg.head [4096, 4228] ∧ heap_neg.tail = 4228 ∧
    heap_neg.brk = 4196 ∧
    heap_neg.tail + headerSize + (heap_neg.hdr heap_neg.tail).size ≠ heap_neg.brk ∧
    chain_bytes heap_neg [4096, 4228] = 2 ^ 64 + 100 ∧
    heap_neg.head + chain_bytes heap_neg [4096, 4228] ≠ heap_neg.brk :=
  ⟨by decide, by decide, by decide, rfl, ⟨by decide, rfl, by decide, rfl, rfl⟩, rfl, rfl,
    by decide, by decide, by decide⟩

end Vmalloc
